import Mathlib

/-!
# `ariel::Graph` (sources/Graph.cpp, sources/Graph.hpp)

A shallow embedding of the adjacency-matrix `Graph` class and of its operators.

* `std::vector<std::vector<int>>` is `List (List Int)`; `int` is `Int` with every
  sum, difference, product and negation reduced into the signed 32-bit range by
  `wrapInt`.
  The quotient `INT_MIN / -1`, which no `int` holds, is not reduced: the division
  instruction faults on it and the process is killed by `SIGFPE`, which is the
  error `Exn.sigfpe` (`intDiv`).
* A member that may throw returns `Except Exn _`.  An element access outside the
  bounds of a vector (undefined behaviour in C++) is the distinguished error
  `Exn.out_of_bounds`, so that it can never be mistaken for a normal return.
* Loops that assign to a matrix thread that matrix as an explicit state; when a
  loop stops on an exception the state reached so far is kept next to the error.
* A mutating member returns `Except Exn Unit × Graph`: the outcome of the call
  together with the receiver as the call leaves it.
* The set `std::unordered_set<std::string>` of `edges` is the list of the keys
  inserted so far; only `find` and `insert` are used on it.
* An output stream is the `String` written so far; an input stream is the text still
  to be read.  `std::to_string` and `os << int` are the decimal numeral `toString`.
  The two `while` loops of `operator>>` run on fuel (one unit per line, one per
  number) and are proved to end within it (`operator_shr_total`).
* Copying a graph is the member-wise `Graph.copy`.  `Reachable` collects the graphs
  a program can build from `Graph()` with the public members; `WellFormed` is the
  shape of the three fields that all of them have.
-/

namespace ariel

/-- The exceptions raised in Graph.cpp, `out_of_bounds` for an element access
outside a vector, and `sigfpe` for an `int` division on which the processor faults
(the process is killed by the signal `SIGFPE`; nothing is thrown or returned). -/
inductive Exn where
  | invalid_argument
  | out_of_range
  | logic_error
  | overflow_error
  | out_of_bounds
  | sigfpe
  deriving DecidableEq, Repr

/-- The type `std::vector<std::vector<int>>`. -/
abbrev Matrix := List (List Int)

/-- The constant `std::numeric_limits<int>::max()`. -/
def INT_MAX : Int := 2147483647

/-- The constant `std::numeric_limits<int>::min()`. -/
def INT_MIN : Int := -2147483648

/-- A value is representable as a 32-bit signed `int`. -/
def isInt32 (x : Int) : Prop := INT_MIN ≤ x ∧ x ≤ INT_MAX

instance (x : Int) : Decidable (isInt32 x) := by
  unfold isInt32; infer_instance

/-- Every cell of a matrix is representable as a 32-bit signed `int`. -/
def int32Matrix (m : Matrix) : Prop := ∀ row ∈ m, ∀ x ∈ row, isInt32 x

instance (m : Matrix) : Decidable (int32Matrix m) := by
  unfold int32Matrix; infer_instance

/-- Reduction modulo 2^32 into the signed 32-bit range `[-2^31, 2^31)`. -/
def wrapInt (x : Int) : Int := (x + 2147483648) % 4294967296 - 2147483648

/-- The `int` sum `a + b`. -/
def intAdd (a b : Int) : Int := wrapInt (a + b)

/-- The `int` difference `a - b`. -/
def intSub (a b : Int) : Int := wrapInt (a - b)

/-- The `int` product `a * b`. -/
def intMul (a b : Int) : Int := wrapInt (a * b)

/-- The `int` negation `-a`. -/
def intNeg (a : Int) : Int := wrapInt (-a)

/-- Read `m[i][j]`; `none` when `i` or `j` is outside the bounds. -/
def getCell (m : Matrix) (i j : Nat) : Option Int :=
  match m[i]? with
  | none => none
  | some row => row[j]?

/-- Assign `m[i][j] = v`; fails with `out_of_bounds`, leaving `m` as it is, when
`i` or `j` is outside the bounds. -/
def storeCell (m : Matrix) (i j : Nat) (v : Int) : Except Exn Unit × Matrix :=
  match m[i]? with
  | none => (.error .out_of_bounds, m)
  | some row =>
    if j < row.length then (.ok (), m.set i (row.set j v))
    else (.error .out_of_bounds, m)

/-- The loop `for (size_t i = start; i < start + count; ++i) body(i)` over a
mutable state.  An exception in the body ends the loop. -/
def forUpTo {σ : Type} (body : Nat → σ → Except Exn Unit × σ) :
    Nat → Nat → σ → Except Exn Unit × σ
  | 0, _, s => (.ok (), s)
  | k + 1, i, s =>
    match body i s with
    | (.ok _, s') => forUpTo body k (i + 1) s'
    | (.error e, s') => (.error e, s')

/-- The nested loop `for (i = 0; i < n; ++i) for (j = 0; j < n; ++j) body(i, j)`. -/
def forEachCell {σ : Type} (n : Nat) (body : Nat → Nat → σ → Except Exn Unit × σ) :
    σ → Except Exn Unit × σ :=
  forUpTo (fun i s => forUpTo (fun j s => body i j s) n 0 s) n 0

/-- A loop `for (i = start; i < start + count; ++i) if (p(i)) return ...;`:
`true` when some iteration took the early return, scanning in order and stopping
there. -/
def anyUpTo (p : Nat → Except Exn Bool) : Nat → Nat → Except Exn Bool
  | 0, _ => .ok false
  | k + 1, i =>
    match p i with
    | .ok true => .ok true
    | .ok false => anyUpTo p k (i + 1)
    | .error e => .error e

/-- The class `ariel::Graph`: its three private fields (Graph.hpp:104-106). -/
structure Graph where
  graph : Matrix
  numVertices : Nat
  adjacency_matrix : Matrix
  deriving DecidableEq, Repr

namespace Graph

/-- The constructor `Graph::Graph()`. -/
def ctor : Graph := { graph := [], numVertices := 0, adjacency_matrix := [] }

/-- The range-for loop of `Graph::isSquareMatrix`, `n` being `matrix.size()`. -/
def isSquareRows (n : Nat) : Matrix → Bool
  | [] => true
  | row :: rest => if row.length != n then false else isSquareRows n rest

/-- The member `Graph::isSquareMatrix`. -/
def isSquareMatrix (matrix : Matrix) : Bool :=
  isSquareRows matrix.length matrix

/-- The member `Graph::loadGraph`. -/
def loadGraph (this : Graph) (graph : Matrix) : Except Exn Unit × Graph :=
  if !isSquareMatrix graph then (.error .invalid_argument, this)
  else (.ok (), { graph := graph, adjacency_matrix := graph, numVertices := graph.length })

/-- The inner loop of `Graph::printGraph`: the cells of one row, `", "` after
every cell but the one at index `size() - 1`. -/
def printCells (row : List Int) (oss : String) : String :=
  (List.range row.length).foldl
    (fun oss j =>
      let oss := oss ++ toString (row.getD j 0)
      if j != row.length - 1 then oss ++ ", " else oss)
    oss

/-- The outer loop of `Graph::printGraph` over a matrix. -/
def printRows (m : Matrix) (oss : String) : String :=
  (List.range m.length).foldl
    (fun oss i =>
      let oss := oss ++ "["
      let oss := printCells (m.getD i []) oss
      let oss := oss ++ "]"
      if i != m.length - 1 then oss ++ "\n" else oss)
    oss

/-- The member `Graph::printGraph`: it renders `adjacency_matrix`. -/
def printGraph (this : Graph) : String :=
  printRows this.adjacency_matrix ""

/-- The member `Graph::getGraph`: it returns `graph`. -/
def getGraph (this : Graph) : Matrix := this.graph

/-- The member `Graph::vertices`. -/
def vertices (this : Graph) : Nat := this.numVertices

/-- The member `Graph::adj`. -/
def adj (this : Graph) (index : Int) : Except Exn (List Int) :=
  if index < 0 || index.toNat ≥ this.numVertices then .error .out_of_range
  else
    match this.graph[index.toNat]? with
    | some row => .ok row
    | none => .error .out_of_bounds

/-- The body of the loops of `Graph::operator+` (Graph.cpp:109-112): the cell of
the result is assigned from the two `adjacency_matrix` fields, then the overflow
test reads the two `graph` fields. -/
def addCell (this other : Graph) (i j : Nat) (r : Matrix) : Except Exn Unit × Matrix :=
  match getCell this.adjacency_matrix i j, getCell other.adjacency_matrix i j with
  | some a, some b =>
    match storeCell r i j (intAdd a b) with
    | (.ok _, r') =>
      match getCell this.graph i j, getCell other.graph i j with
      | some x, some y =>
        if x > intSub INT_MAX y then (.error .overflow_error, r') else (.ok (), r')
      | _, _ => (.error .out_of_bounds, r')
    | (.error e, r') => (.error e, r')
  | _, _ => (.error .out_of_bounds, r)

/-- The member `Graph::operator+(const Graph&)`. -/
def operator_add (this other : Graph) : Except Exn Graph :=
  if this.vertices == 0 || other.vertices == 0 then .error .logic_error
  else if this.adjacency_matrix.length != other.adjacency_matrix.length then
    .error .invalid_argument
  else
    let n := this.adjacency_matrix.length
    match forUpTo
        (fun i r =>
          forUpTo (fun j r => addCell this other i j r)
            (this.adjacency_matrix.getD i []).length 0 r)
        n 0 (List.replicate n (List.replicate n 0)) with
    | (.ok _, m) => .ok { ctor with adjacency_matrix := m }
    | (.error e, _) => .error e

/-- The statement `graph[i][j] += other.graph[i][j]` of `Graph::operator+=`. -/
def addAssignCell (other : Graph) (i j : Nat) (g : Matrix) : Except Exn Unit × Matrix :=
  match getCell g i j, getCell other.graph i j with
  | some a, some b => storeCell g i j (intAdd a b)
  | _, _ => (.error .out_of_bounds, g)

/-- The member `Graph::operator+=(const Graph&)`.  `other` is read as it stood at the
call; when it is the receiver itself this is what the loop sees too, since a cell is
read before it is written and never visited again. -/
def operator_add_assign (this other : Graph) : Except Exn Unit × Graph :=
  if this.numVertices != other.numVertices then (.error .invalid_argument, this)
  else
    match forEachCell this.numVertices (addAssignCell other) this.graph with
    | (out, g) => (out, { this with graph := g })

/-- The statement `result.graph[i][j] = graph[i][j] - other.graph[i][j]` of
`Graph::operator-`. -/
def subCell (this other : Graph) (i j : Nat) (r : Matrix) : Except Exn Unit × Matrix :=
  match getCell this.graph i j, getCell other.graph i j with
  | some a, some b => storeCell r i j (intSub a b)
  | _, _ => (.error .out_of_bounds, r)

/-- The member `Graph::operator-(const Graph&)`. -/
def operator_sub (this other : Graph) : Except Exn Graph :=
  if this.numVertices != other.numVertices then .error .invalid_argument
  else
    match forEachCell this.numVertices (subCell this other)
        (List.replicate this.numVertices (List.replicate this.numVertices 0)) with
    | (.ok _, g) => .ok { ctor with numVertices := this.numVertices, graph := g }
    | (.error e, _) => .error e

/-- The statement `graph[i][j] -= other.graph[i][j]` of `Graph::operator-=`. -/
def subAssignCell (other : Graph) (i j : Nat) (g : Matrix) : Except Exn Unit × Matrix :=
  match getCell g i j, getCell other.graph i j with
  | some a, some b => storeCell g i j (intSub a b)
  | _, _ => (.error .out_of_bounds, g)

/-- The member `Graph::operator-=(const Graph&)`. -/
def operator_sub_assign (this other : Graph) : Except Exn Unit × Graph :=
  if this.numVertices != other.numVertices then (.error .invalid_argument, this)
  else
    match forEachCell this.numVertices (subAssignCell other) this.graph with
    | (out, g) => (out, { this with graph := g })

/-- The statement
`result.adjacency_matrix[i][j] += adjacency_matrix[i][k] * other.adjacency_matrix[k][j]`
of `Graph::operator*(const Graph&)`. -/
def mulAccCell (this other : Graph) (i j k : Nat) (r : Matrix) : Except Exn Unit × Matrix :=
  match getCell r i j, getCell this.adjacency_matrix i k,
      getCell other.adjacency_matrix k j with
  | some c, some a, some b => storeCell r i j (intAdd c (intMul a b))
  | _, _, _ => (.error .out_of_bounds, r)

/-- The body of the `j` loop of `Graph::operator*(const Graph&)`: the cell is set
to zero, then the `k` loop accumulates into it. -/
def mulCell (this other : Graph) (n i j : Nat) (r : Matrix) : Except Exn Unit × Matrix :=
  match storeCell r i j 0 with
  | (.ok _, r') => forUpTo (fun k r => mulAccCell this other i j k r) n 0 r'
  | (.error e, r') => (.error e, r')

/-- The member `Graph::operator*(const Graph&)`. -/
def operator_mul (this other : Graph) : Except Exn Graph :=
  if this.vertices == 0 || other.vertices == 0 then .error .logic_error
  else if this.adjacency_matrix.length != other.adjacency_matrix.length then
    .error .invalid_argument
  else
    let n := this.adjacency_matrix.length
    match forEachCell n (mulCell this other n) (List.replicate n (List.replicate n 0)) with
    | (.ok _, m) => .ok { ctor with adjacency_matrix := m }
    | (.error e, _) => .error e

/-- The statement `graph[i][j] *= other.graph[i][j]` of
`Graph::operator*=(const Graph&)`. -/
def mulAssignCell (other : Graph) (i j : Nat) (g : Matrix) : Except Exn Unit × Matrix :=
  match getCell g i j, getCell other.graph i j with
  | some a, some b => storeCell g i j (intMul a b)
  | _, _ => (.error .out_of_bounds, g)

/-- The member `Graph::operator*=(const Graph&)`. -/
def operator_mul_assign (this other : Graph) : Except Exn Unit × Graph :=
  if this.numVertices != other.numVertices then (.error .invalid_argument, this)
  else
    match forEachCell this.numVertices (mulAssignCell other) this.graph with
    | (out, g) => (out, { this with graph := g })

/-- The statement `result.graph[i][j] = graph[i][j] * scalar` of
`Graph::operator*(int)`. -/
def scaleCell (this : Graph) (scalar : Int) (i j : Nat) (r : Matrix) :
    Except Exn Unit × Matrix :=
  match getCell this.graph i j with
  | some a => storeCell r i j (intMul a scalar)
  | none => (.error .out_of_bounds, r)

/-- The member `Graph::operator*(int)`. -/
def operator_mul_scalar (this : Graph) (scalar : Int) : Except Exn Graph :=
  match forEachCell this.numVertices (scaleCell this scalar)
      (List.replicate this.numVertices (List.replicate this.numVertices 0)) with
  | (.ok _, g) => .ok { ctor with numVertices := this.numVertices, graph := g }
  | (.error e, _) => .error e

/-- The statement `result.graph[i][j] = -graph[i][j]` of the unary
`Graph::operator-()`. -/
def negCell (this : Graph) (i j : Nat) (r : Matrix) : Except Exn Unit × Matrix :=
  match getCell this.graph i j with
  | some a => storeCell r i j (intNeg a)
  | none => (.error .out_of_bounds, r)

/-- The unary member `Graph::operator-()`. -/
def operator_neg (this : Graph) : Except Exn Graph :=
  match forEachCell this.numVertices (negCell this)
      (List.replicate this.numVertices (List.replicate this.numVertices 0)) with
  | (.ok _, g) => .ok { ctor with numVertices := this.numVertices, graph := g }
  | (.error e, _) => .error e

/-- The test `graph[i][j] != other.graph[i][j]` of `Graph::operator==`. -/
def cellsDiffer (this other : Graph) (i j : Nat) : Except Exn Bool :=
  match getCell this.graph i j, getCell other.graph i j with
  | some a, some b => .ok (a != b)
  | _, _ => .error .out_of_bounds

/-- The member `Graph::operator==`. -/
def operator_eq (this other : Graph) : Except Exn Bool :=
  if this.numVertices != other.numVertices then .error .invalid_argument
  else
    match anyUpTo
        (fun i => anyUpTo (fun j => cellsDiffer this other i j) this.numVertices 0)
        this.numVertices 0 with
    | .ok found => .ok (!found)
    | .error e => .error e

/-- The test `graph[i][j] >= other.graph[i][j]` of `Graph::operator<`. -/
def cellNotLess (this other : Graph) (i j : Nat) : Except Exn Bool :=
  match getCell this.graph i j, getCell other.graph i j with
  | some a, some b => .ok (decide (a ≥ b))
  | _, _ => .error .out_of_bounds

/-- The member `Graph::operator<`. -/
def operator_lt (this other : Graph) : Except Exn Bool :=
  if this.numVertices != other.numVertices then .error .invalid_argument
  else
    match anyUpTo
        (fun i => anyUpTo (fun j => cellNotLess this other i j) this.numVertices 0)
        this.numVertices 0 with
    | .ok found => .ok (!found)
    | .error e => .error e

end Graph

/-! ## Vocabulary of the statements -/

/-- A matrix has `n` rows, each of length `n`. -/
def IsSquare (m : Matrix) (n : Nat) : Prop := m.length = n ∧ ∀ row ∈ m, row.length = n

instance (m : Matrix) (n : Nat) : Decidable (IsSquare m n) := by
  unfold IsSquare; infer_instance

/-- The value at position `(i, j)` of a matrix (`0` outside the matrix). -/
def cell (m : Matrix) (i j : Nat) : Int := (m.getD i []).getD j 0

/-- The `n × n` matrix whose cell `(i, j)` is `f i j`. -/
def tabulate (n : Nat) (f : Nat → Nat → Int) : Matrix :=
  (List.range n).map (fun i => (List.range n).map (fun j => f i j))

/-- The graph held by a default-constructed object after `loadGraph(m)` returned. -/
def loaded (m : Matrix) : Graph := (Graph.ctor.loadGraph m).2

/-- The matrix `m` after the assignment `m[i][j] = v`. -/
def setAt (m : Matrix) (i j : Nat) (v : Int) : Matrix := m.set i ((m.getD i []).set j v)

/-- The value accumulated in `result.adjacency_matrix[i][j]` by the first `k`
iterations of the `k` loop of `Graph::operator*(const Graph&)`. -/
def dotAcc (A B : Matrix) (i j : Nat) : Nat → Int
  | 0 => 0
  | k + 1 => intAdd (dotAcc A B i j k) (intMul (cell A i k) (cell B k j))

end ariel

namespace ariel

/-! ## Scalar division, scalar `*=`, and the derived comparison operators -/

/-- The `int` quotient `a / b`: the quotient truncated toward zero.  The division
instruction faults when the divisor is zero and when the quotient is not
representable, which for `int` operands is the one case `INT_MIN / -1` (undefined
in C++); every other quotient of two `int` values is an `int`. -/
def intDiv (a b : Int) : Except Exn Int :=
  if b = 0 ∨ (a = INT_MIN ∧ b = -1) then .error .sigfpe else .ok (Int.tdiv a b)

namespace Graph

/-- The statement `graph[i][j] *= scalar` of `Graph::operator*=(int)`. -/
def scaleAssignCell (scalar : Int) (i j : Nat) (g : Matrix) : Except Exn Unit × Matrix :=
  match getCell g i j with
  | some a => storeCell g i j (intMul a scalar)
  | none => (.error .out_of_bounds, g)

/-- The member `Graph::operator*=(int)`. -/
def operator_mul_assign_scalar (this : Graph) (scalar : Int) : Except Exn Unit × Graph :=
  match forEachCell this.numVertices (scaleAssignCell scalar) this.graph with
  | (out, g) => (out, { this with graph := g })

/-- The statement `result.graph[i][j] = graph[i][j] / scalar` of
`Graph::operator/(int)`. -/
def divCell (this : Graph) (scalar : Int) (i j : Nat) (r : Matrix) :
    Except Exn Unit × Matrix :=
  match getCell this.graph i j with
  | some a =>
    match intDiv a scalar with
    | .ok q => storeCell r i j q
    | .error e => (.error e, r)
  | none => (.error .out_of_bounds, r)

/-- The member `Graph::operator/(int)`. -/
def operator_div (this : Graph) (scalar : Int) : Except Exn Graph :=
  if scalar == 0 then .error .invalid_argument
  else
    match forEachCell this.numVertices (divCell this scalar)
        (List.replicate this.numVertices (List.replicate this.numVertices 0)) with
    | (.ok _, g) => .ok { ctor with numVertices := this.numVertices, graph := g }
    | (.error e, _) => .error e

/-- The statement `graph[i][j] /= scalar` of `Graph::operator/=(int)`. -/
def divAssignCell (scalar : Int) (i j : Nat) (g : Matrix) : Except Exn Unit × Matrix :=
  match getCell g i j with
  | some a =>
    match intDiv a scalar with
    | .ok q => storeCell g i j q
    | .error e => (.error e, g)
  | none => (.error .out_of_bounds, g)

/-- The member `Graph::operator/=(int)`. -/
def operator_div_assign (this : Graph) (scalar : Int) : Except Exn Unit × Graph :=
  if scalar == 0 then (.error .invalid_argument, this)
  else
    match forEachCell this.numVertices (divAssignCell scalar) this.graph with
    | (out, g) => (out, { this with graph := g })

/-- The member `Graph::operator!=`: `!(*this == other)`. -/
def operator_ne (this other : Graph) : Except Exn Bool :=
  match operator_eq this other with
  | .ok b => .ok (!b)
  | .error e => .error e

/-- The member `Graph::operator<=`: `(*this < other) || (*this == other)`, the right
operand of `||` being evaluated only when the left one is false. -/
def operator_le (this other : Graph) : Except Exn Bool :=
  match operator_lt this other with
  | .ok true => .ok true
  | .ok false => operator_eq this other
  | .error e => .error e

/-- The member `Graph::operator>`: `!(*this <= other)`. -/
def operator_gt (this other : Graph) : Except Exn Bool :=
  match operator_le this other with
  | .ok b => .ok (!b)
  | .error e => .error e

/-- The member `Graph::operator>=`: `!(*this < other)`. -/
def operator_ge (this other : Graph) : Except Exn Bool :=
  match operator_lt this other with
  | .ok b => .ok (!b)
  | .error e => .error e

end Graph

end ariel

namespace ariel

/-! ## `edges`, `countEdges`, and decimal digits -/

/-- The state of the scan in `Graph::edges`: the vector `edgeList` and the keys
inserted into the set `uniqueEdges`. -/
structure EdgeScan where
  edgeList : List (Nat × Nat × Int)
  uniqueEdges : List String
  deriving DecidableEq, Repr

namespace Graph

/-- The key `std::to_string(i) + "-" + std::to_string(j)` of `Graph::edges`. -/
def edgeKey (i j : Nat) : String := toString i ++ "-" ++ toString j

/-- The body of the loops of `Graph::edges` (Graph.cpp:70-79). -/
def edgeCell (this : Graph) (i j : Nat) (s : EdgeScan) : Except Exn Unit × EdgeScan :=
  match getCell this.graph i j with
  | none => (.error .out_of_bounds, s)
  | some w =>
    if w != 0 then
      let edge := edgeKey i j
      let reverseEdge := edgeKey j i
      if !s.uniqueEdges.contains reverseEdge then
        (.ok (), { edgeList := s.edgeList ++ [(i, j, w)],
                   uniqueEdges := edge :: s.uniqueEdges })
      else (.ok (), s)
    else (.ok (), s)

/-- The member `Graph::edges`.  The indices of a triple are below `numVertices`. -/
def edges (this : Graph) : Except Exn (List (Nat × Nat × Int)) :=
  match forEachCell this.numVertices (edgeCell this) { edgeList := [], uniqueEdges := [] } with
  | (.ok _, s) => .ok s.edgeList
  | (.error e, _) => .error e

/-- The member `Graph::countEdges`: `edges().size()` converted to `int`. -/
def countEdges (this : Graph) : Except Exn Int :=
  match edges this with
  | .ok edgeList => .ok (wrapInt edgeList.length)
  | .error e => .error e

end Graph

/-- The positions `(i, j)` of an `n × n` matrix in row-major order. -/
def positions (n : Nat) : List (Nat × Nat) := List.product (List.range n) (List.range n)

/-- The scan of `Graph::edges` keeps position `(i, j)`: the cell is not zero, and
the mirrored position `(j, i)` was not kept before it. -/
def keptAt (m : Matrix) (p : Nat × Nat) : Bool :=
  decide (cell m p.1 p.2 ≠ 0 ∧ (p.1 ≤ p.2 ∨ cell m p.2 p.1 = 0))

/-- The triple `(i, j, m[i][j])` of a position. -/
def tripleAt (m : Matrix) (p : Nat × Nat) : Nat × Nat × Int := (p.1, p.2, cell m p.1 p.2)

/-- A char is one of `'0'` .. `'9'`. -/
def isdigit (c : Char) : Bool := decide (48 ≤ c.toNat ∧ c.toNat ≤ 57)

/-- The value of a decimal digit. -/
def digitVal (c : Char) : Nat := c.toNat - 48

/-- The number written by a sequence of decimal digits, continuing from `acc`. -/
def parseDigits (acc : Nat) (cs : List Char) : Nat :=
  cs.foldl (fun a c => 10 * a + digitVal c) acc

end ariel

namespace ariel

/-! ## The invariant of the scan of `edges` -/

/-- The positions met by the scan of `Graph::edges` before it reaches `(i, j)`. -/
def visited (n i j : Nat) : List (Nat × Nat) :=
  List.product (List.range i) (List.range n) ++ (List.range j).map (fun b => (i, b))

/-- The state of the scan of `Graph::edges` when it reaches `(i, j)`. -/
def EdgeInv (M : Matrix) (n i j : Nat) (s : EdgeScan) : Prop :=
  s.edgeList = ((visited n i j).filter (keptAt M)).map (tripleAt M) ∧
  ∀ a b, Graph.edgeKey a b ∈ s.uniqueEdges ↔
    ((a < i ∨ (a = i ∧ b < j)) ∧ a < n ∧ b < n ∧ keptAt M (a, b) = true)

end ariel

namespace ariel

/-! ## Unordered pairs of vertices -/

/-- Position `(i, j)` lies on or above the diagonal and its cell is not zero. -/
def upperAt (m : Matrix) (p : Nat × Nat) : Bool :=
  decide (p.1 ≤ p.2 ∧ cell m p.1 p.2 ≠ 0)

/-- The unordered pair `{i, j}`, named by its position `(i, j)` with `i ≤ j`, has a
non-zero cell in one direction or the other. -/
def pairAt (m : Matrix) (p : Nat × Nat) : Bool :=
  decide (p.1 ≤ p.2 ∧ (cell m p.1 p.2 ≠ 0 ∨ cell m p.2 p.1 ≠ 0))

/-- The position of an unordered pair: the smaller index first. -/
def sortPair (p : Nat × Nat) : Nat × Nat := if p.1 ≤ p.2 then p else (p.2, p.1)

end ariel

namespace ariel

/-! ## The stream operators -/

/-- The whitespace skipped by formatted input in the "C" locale: space, `\t`, `\n`,
`\v`, `\f`, `\r`. -/
def isspace (c : Char) : Bool := decide (c.toNat = 32 ∨ (9 ≤ c.toNat ∧ c.toNat ≤ 13))

/-- The characters `std::getline` extracts up to the first `'\n'` or the end of the
input, and the input left after the delimiter. -/
def takeLine : List Char → List Char × List Char
  | [] => ([], [])
  | c :: cs =>
    if c = '\n' then ([], cs)
    else ((c :: (takeLine cs).1), (takeLine cs).2)

/-- The call `std::getline(is, line)` on the unread input `is`: `none` when the
input is exhausted (nothing is extracted and the stream fails), else the line and
the input left. -/
def getline (is : List Char) : Option (List Char × List Char) :=
  match is with
  | [] => none
  | _ :: _ => some (takeLine is)

/-- The optional sign in front of the digits of a number: whether it is `'-'`,
and the input after it. -/
def stripSign (s : List Char) : Bool × List Char :=
  match s with
  | '-' :: t => (true, t)
  | '+' :: t => (false, t)
  | _ => (false, s)

/-- The integer written by a sign and a run of decimal digits. -/
def signedValue (negative : Bool) (ds : List Char) : Int :=
  if negative then -(parseDigits 0 ds : Int) else (parseDigits 0 ds : Int)

/-- The extraction `rowStream >> value` of an `int`: leading whitespace is skipped,
then an optional sign and a non-empty run of decimal digits are read; `none` when
the extraction fails (no digits, or a value outside the range of `int`), else the
value and the input left. -/
def extractInt (s : List Char) : Option (Int × List Char) :=
  let signed := stripSign (s.dropWhile isspace)
  let ds := signed.2.takeWhile isdigit
  if ds.isEmpty then none
  else if signedValue signed.1 ds < INT_MIN ∨ signedValue signed.1 ds > INT_MAX then none
  else some (signedValue signed.1 ds, signed.2.dropWhile isdigit)

/-- The loop `while (rowStream >> value) row.push_back(value)`, run for at most
`fuel` extractions; `none` when the fuel runs out. -/
def readRow : Nat → List Char → List Int → Option (List Int)
  | 0, _, _ => none
  | fuel + 1, s, row =>
    match extractInt s with
    | none => some row
    | some (value, rest) => readRow fuel rest (row ++ [value])

/-- The loop `while (std::getline(is, line)) { ...; tempGraph.push_back(row); }` of
`operator>>`, run for at most `fuel` lines; `none` when the fuel runs out. -/
def readLines : Nat → List Char → Matrix → Option Matrix
  | 0, _, _ => none
  | fuel + 1, is, tempGraph =>
    match getline is with
    | none => some tempGraph
    | some (line, rest) =>
      match readRow (line.length + 1) line [] with
      | none => none
      | some row => readLines fuel rest (tempGraph ++ [row])

namespace Graph

/-- The body of the inner loop of `operator<<` (Graph.cpp:358-361). -/
def shlCell (graph : Graph) (i j : Nat) (os : String) : Except Exn Unit × String :=
  match getCell graph.graph i j with
  | none => (.error .out_of_bounds, os)
  | some v =>
    let os := os ++ toString v
    (.ok (), if j < graph.numVertices - 1 then os ++ " " else os)

/-- The body of the outer loop of `operator<<` (Graph.cpp:356-366); `std::endl`
writes a newline. -/
def shlRow (graph : Graph) (i : Nat) (os : String) : Except Exn Unit × String :=
  match forUpTo (fun j os => shlCell graph i j os) graph.numVertices 0 (os ++ "[") with
  | (.ok _, os) =>
    let os := os ++ "]"
    (.ok (), if i < graph.numVertices - 1 then os ++ "\n" else os)
  | (.error e, os) => (.error e, os)

/-- The friend `operator<<(std::ostream&, const Graph&)`: the outcome and the
characters held by the stream afterwards, `os` being those written before. -/
def operator_shl (os : String) (graph : Graph) : Except Exn Unit × String :=
  forUpTo (fun i os => shlRow graph i os) graph.numVertices 0 os

/-- The friend `operator>>(std::istream&, Graph&)` on a stream holding the text
`is`: the outcome and the graph as the call leaves it; `none` when a loop ran out
of fuel. -/
def operator_shr (is : String) (graph : Graph) : Option (Except Exn Unit × Graph) :=
  match readLines (is.length + 1) is.data [] with
  | none => none
  | some tempGraph =>
    if !isSquareMatrix tempGraph then some (.error .invalid_argument, graph)
    else some (graph.loadGraph tempGraph)

end Graph

end ariel

namespace ariel

/-! ## Copies, unary plus, increment and decrement -/

namespace Graph

/-- The implicit copy constructor and copy assignment of `Graph`: a member-wise
copy. -/
def copy (other : Graph) : Graph :=
  { graph := other.graph, numVertices := other.numVertices,
    adjacency_matrix := other.adjacency_matrix }

/-- The unary member `Graph::operator+()`: `return *this;`, a copy. -/
def operator_pos (this : Graph) : Except Exn Graph := .ok (copy this)

/-- The statement `++graph[i][j]` of the pre-increment. -/
def incCell (i j : Nat) (g : Matrix) : Except Exn Unit × Matrix :=
  match getCell g i j with
  | some a => storeCell g i j (intAdd a 1)
  | none => (.error .out_of_bounds, g)

/-- The member `Graph::operator++()` (pre-increment).  The reference it returns is
the receiver, whose state after the call is the second component. -/
def operator_pre_inc (this : Graph) : Except Exn Unit × Graph :=
  match forEachCell this.numVertices incCell this.graph with
  | (out, g) => (out, { this with graph := g })

/-- The member `Graph::operator++(int)` (post-increment): the copy `temp` taken
before `++(*this)` is returned; the second component is the receiver afterwards. -/
def operator_post_inc (this : Graph) : Except Exn Graph × Graph :=
  let temp := copy this
  match operator_pre_inc this with
  | (.ok _, s) => (.ok temp, s)
  | (.error e, s) => (.error e, s)

/-- The statement `--graph[i][j]` of the pre-decrement. -/
def decCell (i j : Nat) (g : Matrix) : Except Exn Unit × Matrix :=
  match getCell g i j with
  | some a => storeCell g i j (intSub a 1)
  | none => (.error .out_of_bounds, g)

/-- The member `Graph::operator--()` (pre-decrement).  The reference it returns is
the receiver, whose state after the call is the second component. -/
def operator_pre_dec (this : Graph) : Except Exn Unit × Graph :=
  match forEachCell this.numVertices decCell this.graph with
  | (out, g) => (out, { this with graph := g })

/-- The member `Graph::operator--(int)` (post-decrement): the copy `temp` taken
before `--(*this)` is returned; the second component is the receiver afterwards. -/
def operator_post_dec (this : Graph) : Except Exn Graph × Graph :=
  let temp := copy this
  match operator_pre_dec this with
  | (.ok _, s) => (.ok temp, s)
  | (.error e, s) => (.error e, s)

end Graph

/-! ## Loops that rewrite a matrix in place -/

/-- The cells of row `i` from column `j` on, and of the rows below, still hold
what `old` holds. -/
def Untouched (old : Matrix) (n i j : Nat) (s : Matrix) : Prop :=
  IsSquare s n ∧
    ∀ a b, a < n → b < n → (i < a ∨ (a = i ∧ j ≤ b)) → cell s a b = cell old a b

/-! ## Reachable graphs -/

/-- The shape of the three fields: `graph` has `numVertices` rows of length
`numVertices`; `adjacency_matrix` is square (possibly empty); and when there are
vertices and `adjacency_matrix` is not empty, it has `numVertices` rows. -/
def WellFormed (g : Graph) : Prop :=
  IsSquare g.graph g.numVertices ∧
  IsSquare g.adjacency_matrix g.adjacency_matrix.length ∧
  (0 < g.numVertices → g.adjacency_matrix ≠ [] →
    g.adjacency_matrix.length = g.numVertices)

/-- The graphs a program can hold: a default-constructed graph, and what
`loadGraph`, `operator>>`, copying and the arithmetic operators leave in their
receiver or return, when applied to such graphs. -/
inductive Reachable : Graph → Prop where
  | ctor : Reachable Graph.ctor
  | copy (g : Graph) : Reachable g → Reachable (Graph.copy g)
  | loadGraph (g : Graph) (m : Matrix) : Reachable g → Reachable (g.loadGraph m).2
  | operator_shr (g : Graph) (is : String) (r : Except Exn Unit × Graph) :
      Reachable g → Graph.operator_shr is g = some r → Reachable r.2
  | operator_add (a b r : Graph) :
      Reachable a → Reachable b → a.operator_add b = .ok r → Reachable r
  | operator_add_assign (a b : Graph) :
      Reachable a → Reachable b → Reachable (a.operator_add_assign b).2
  | operator_sub (a b r : Graph) :
      Reachable a → Reachable b → a.operator_sub b = .ok r → Reachable r
  | operator_sub_assign (a b : Graph) :
      Reachable a → Reachable b → Reachable (a.operator_sub_assign b).2
  | operator_mul (a b r : Graph) :
      Reachable a → Reachable b → a.operator_mul b = .ok r → Reachable r
  | operator_mul_assign (a b : Graph) :
      Reachable a → Reachable b → Reachable (a.operator_mul_assign b).2
  | operator_mul_scalar (a r : Graph) (k : Int) :
      Reachable a → a.operator_mul_scalar k = .ok r → Reachable r
  | operator_mul_assign_scalar (a : Graph) (k : Int) :
      Reachable a → Reachable (a.operator_mul_assign_scalar k).2
  | operator_div (a r : Graph) (k : Int) :
      Reachable a → a.operator_div k = .ok r → Reachable r
  | operator_div_assign (a : Graph) (k : Int) :
      Reachable a → Reachable (a.operator_div_assign k).2
  | operator_pos (a r : Graph) : Reachable a → a.operator_pos = .ok r → Reachable r
  | operator_neg (a r : Graph) : Reachable a → a.operator_neg = .ok r → Reachable r
  | operator_pre_inc (a : Graph) : Reachable a → Reachable a.operator_pre_inc.2
  | operator_post_inc_result (a r : Graph) :
      Reachable a → a.operator_post_inc.1 = .ok r → Reachable r
  | operator_post_inc (a : Graph) : Reachable a → Reachable a.operator_post_inc.2
  | operator_pre_dec (a : Graph) : Reachable a → Reachable a.operator_pre_dec.2
  | operator_post_dec_result (a r : Graph) :
      Reachable a → a.operator_post_dec.1 = .ok r → Reachable r
  | operator_post_dec (a : Graph) : Reachable a → Reachable a.operator_post_dec.2

end ariel

namespace ariel

/-! ## Arithmetic of `int` -/

theorem wrapInt_of_isInt32 {x : Int} (h : isInt32 x) : wrapInt x = x := by
  unfold isInt32 INT_MIN INT_MAX at h
  unfold wrapInt
  omega

theorem isInt32_wrapInt (x : Int) : isInt32 (wrapInt x) := by
  unfold isInt32 INT_MIN INT_MAX wrapInt
  omega

theorem wrapInt_add_left (a b : Int) : wrapInt (wrapInt a + b) = wrapInt (a + b) := by
  unfold wrapInt
  omega

/-! ## Loops -/

theorem forUpTo_ok {σ : Type} (body : Nat → σ → Except Exn Unit × σ) (P : Nat → σ → Prop) :
    ∀ (count start : Nat) (s : σ), P start s →
      (∀ i s, start ≤ i → i < start + count → P i s →
        ∃ s', body i s = (.ok (), s') ∧ P (i + 1) s') →
      ∃ s', forUpTo body count start s = (.ok (), s') ∧ P (start + count) s' := by
  intro count
  induction count with
  | zero => intro start s h _; exact ⟨s, rfl, by simpa using h⟩
  | succ k ih =>
    intro start s h hstep
    obtain ⟨s1, hb, hP⟩ := hstep start s (le_refl _) (by omega) h
    obtain ⟨s2, hl, hP2⟩ := ih (start + 1) s1 hP
      (fun i t h1 h2 hp => hstep i t (by omega) (by omega) hp)
    refine ⟨s2, ?_, ?_⟩
    · simp only [forUpTo, hb]; exact hl
    · have : start + (k + 1) = start + 1 + k := by omega
      rw [this]; exact hP2

theorem forUpTo_congr {σ : Type} (body body' : Nat → σ → Except Exn Unit × σ) :
    ∀ (count start : Nat) (s : σ),
      (∀ i s, start ≤ i → i < start + count → body i s = body' i s) →
      forUpTo body count start s = forUpTo body' count start s := by
  intro count
  induction count with
  | zero => intro start s _; rfl
  | succ k ih =>
    intro start s h
    simp only [forUpTo, h start s (le_refl _) (by omega)]
    rcases body' start s with ⟨out, s1⟩
    cases out with
    | error e => rfl
    | ok u => exact ih (start + 1) s1 (fun i t h1 h2 => h i t (by omega) (by omega))

/-- A loop whose every iteration either keeps the invariant or throws `e`
does the same as a whole. -/
theorem forUpTo_ok_or_error {σ : Type} (body : Nat → σ → Except Exn Unit × σ)
    (P : σ → Prop) (e : Exn) :
    ∀ (count start : Nat) (s : σ), P s →
      (∀ i s, start ≤ i → i < start + count → P s →
        (∃ s', body i s = (.ok (), s') ∧ P s') ∨ ∃ s', body i s = (.error e, s')) →
      (∃ s', forUpTo body count start s = (.ok (), s') ∧ P s') ∨
        ∃ s', forUpTo body count start s = (.error e, s') := by
  intro count
  induction count with
  | zero => intro start s h _; exact Or.inl ⟨s, rfl, h⟩
  | succ k ih =>
    intro start s h hstep
    rcases hstep start s (le_refl _) (by omega) h with ⟨s1, hb, hP⟩ | ⟨s1, hb⟩
    · have := ih (start + 1) s1 hP (fun i t h1 h2 hp => hstep i t (by omega) (by omega) hp)
      simpa only [forUpTo, hb] using this
    · exact Or.inr ⟨s1, by simp only [forUpTo, hb]⟩

/-- A loop with an iteration `k` that throws `e` whenever it is reached, and whose
other iterations keep the invariant or throw `e`, throws `e`. -/
theorem forUpTo_error {σ : Type} (body : Nat → σ → Except Exn Unit × σ)
    (P : σ → Prop) (e : Exn) (k : Nat) :
    ∀ (count start : Nat) (s : σ), P s → start ≤ k → k < start + count →
      (∀ i s, start ≤ i → i < start + count → P s →
        (∃ s', body i s = (.ok (), s') ∧ P s') ∨ ∃ s', body i s = (.error e, s')) →
      (∀ s, P s → ∃ s', body k s = (.error e, s')) →
      ∃ s', forUpTo body count start s = (.error e, s') := by
  intro count
  induction count with
  | zero => intro start s _ h1 h2; omega
  | succ c ih =>
    intro start s h h1 h2 hstep hk
    by_cases hs : start = k
    · subst hs
      obtain ⟨s1, hb⟩ := hk s h
      exact ⟨s1, by simp only [forUpTo, hb]⟩
    · rcases hstep start s (le_refl _) (by omega) h with ⟨s1, hb, hP⟩ | ⟨s1, hb⟩
      · have := ih (start + 1) s1 hP (by omega) (by omega)
          (fun i t h1 h2 hp => hstep i t (by omega) (by omega) hp) hk
        simpa only [forUpTo, hb] using this
      · exact ⟨s1, by simp only [forUpTo, hb]⟩

end ariel

namespace ariel

/-! ## Matrices -/

theorem cell_eq (m : Matrix) (i j : Nat) : cell m i j = ((m[i]?).getD [])[j]?.getD 0 := by
  simp [cell, List.getD_eq_getElem?_getD]

theorem IsSquare.row {m : Matrix} {n i : Nat} (h : IsSquare m n) (hi : i < n) :
    ∃ row, m[i]? = some row ∧ row.length = n := by
  have hlt : i < m.length := by rw [h.1]; exact hi
  exact ⟨m[i], List.getElem?_eq_getElem hlt, h.2 _ (List.getElem_mem hlt)⟩

theorem getCell_of_square {m : Matrix} {n i j : Nat} (h : IsSquare m n) (hi : i < n)
    (hj : j < n) : getCell m i j = some (cell m i j) := by
  obtain ⟨row, hr, hl⟩ := h.row hi
  have hjl : j < row.length := by omega
  simp [getCell, cell_eq, hr, List.getElem?_eq_getElem hjl]

theorem storeCell_of_square {m : Matrix} {n i j : Nat} (h : IsSquare m n) (hi : i < n)
    (hj : j < n) (v : Int) : storeCell m i j v = (.ok (), setAt m i j v) := by
  obtain ⟨row, hr, hl⟩ := h.row hi
  have hjl : j < row.length := by omega
  simp [storeCell, setAt, hr, hjl, List.getD_eq_getElem?_getD]

theorem isSquare_setAt {m : Matrix} {n : Nat} (h : IsSquare m n) (i j : Nat) (v : Int) :
    IsSquare (setAt m i j v) n := by
  by_cases hi : i < m.length
  · refine ⟨by simp [setAt, h.1], ?_⟩
    intro row hrow
    rcases List.mem_or_eq_of_mem_set hrow with hm | he
    · exact h.2 row hm
    · subst he
      rw [List.length_set, List.getD_eq_getElem?_getD, List.getElem?_eq_getElem hi]
      exact h.2 _ (List.getElem_mem hi)
  · rw [setAt, List.set_eq_of_length_le (by omega)]
    exact h

theorem cell_setAt {m : Matrix} {n i j : Nat} (h : IsSquare m n) (hi : i < n) (hj : j < n)
    (v : Int) (a b : Nat) :
    cell (setAt m i j v) a b = if a = i ∧ b = j then v else cell m a b := by
  obtain ⟨row, hr, hl⟩ := h.row hi
  have hil : i < m.length := by rw [h.1]; exact hi
  have hjl : j < row.length := by omega
  simp only [cell_eq, setAt, List.getD_eq_getElem?_getD, hr, Option.getD_some,
    List.getElem?_set]
  by_cases ha : i = a
  · subst ha
    by_cases hb : j = b
    · subst hb; simp [hil, hjl]
    · have hb' : ¬ b = j := fun h => hb h.symm
      simp [hil, hb, hb', hr]
  · have ha' : ¬ a = i := fun h => ha h.symm
    simp [ha, ha']

theorem matrix_ext {a b : Matrix} {n : Nat} (ha : IsSquare a n) (hb : IsSquare b n)
    (h : ∀ i j, i < n → j < n → cell a i j = cell b i j) : a = b := by
  apply List.ext_getElem?
  intro i
  by_cases hi : i < n
  · obtain ⟨ra, hra, hla⟩ := ha.row hi
    obtain ⟨rb, hrb, hlb⟩ := hb.row hi
    rw [hra, hrb]
    congr 1
    apply List.ext_getElem?
    intro j
    by_cases hj : j < n
    · have := h i j hi hj
      simp only [cell_eq, hra, hrb, Option.getD_some] at this
      rw [List.getElem?_eq_getElem (by omega : j < ra.length),
        List.getElem?_eq_getElem (by omega : j < rb.length)] at this ⊢
      simpa using this
    · rw [List.getElem?_eq_none (by omega), List.getElem?_eq_none (by omega)]
  · rw [List.getElem?_eq_none (by rw [ha.1]; omega),
      List.getElem?_eq_none (by rw [hb.1]; omega)]

theorem isSquare_tabulate (n : Nat) (f : Nat → Nat → Int) : IsSquare (tabulate n f) n := by
  refine ⟨by simp [tabulate], ?_⟩
  intro row hrow
  simp only [tabulate, List.mem_map] at hrow
  obtain ⟨i, _, rfl⟩ := hrow
  simp

theorem cell_tabulate {n i j : Nat} (f : Nat → Nat → Int) (hi : i < n) (hj : j < n) :
    cell (tabulate n f) i j = f i j := by
  simp [cell_eq, tabulate, List.getElem?_map, List.getElem?_range, hi, hj]

theorem isSquare_replicate (n : Nat) (v : Int) :
    IsSquare (List.replicate n (List.replicate n v)) n := by
  refine ⟨by simp, ?_⟩
  intro row hrow
  rw [List.eq_of_mem_replicate hrow]
  simp

end ariel

namespace ariel

/-! ## The cell-by-cell loops -/

/-- A double loop whose body at `(i, j)` assigns `new i j` to cell `(i, j)`, given
that this cell still holds its initial value, turns an `n × n` matrix into the
table of `new`. -/
theorem forEachCell_fill (n : Nat) (body : Nat → Nat → Matrix → Except Exn Unit × Matrix)
    (old : Matrix) (new : Nat → Nat → Int) (hsq : IsSquare old n)
    (hbody : ∀ i j s, i < n → j < n → IsSquare s n → cell s i j = cell old i j →
      body i j s = storeCell s i j (new i j)) :
    forEachCell n body old = (.ok (), tabulate n new) := by
  obtain ⟨s', hrun, hs', hcells⟩ := forUpTo_ok
    (fun i s => forUpTo (fun j s => body i j s) n 0 s)
    (fun i s => IsSquare s n ∧
      ∀ a b, a < n → b < n → cell s a b = if a < i then new a b else cell old a b)
    n 0 old ⟨hsq, fun a b _ _ => by simp⟩
    (by
      intro i s _ hi ⟨hs, hc⟩
      have hi : i < n := by omega
      obtain ⟨t, hrun, ht, htc⟩ := forUpTo_ok (fun j s => body i j s)
        (fun j s => IsSquare s n ∧
          ∀ a b, a < n → b < n →
            cell s a b = if a < i ∨ (a = i ∧ b < j) then new a b else cell old a b)
        n 0 s ⟨hs, fun a b ha hb => by
          rw [hc a b ha hb]
          by_cases h : a < i <;> simp [h]⟩
        (by
          intro j t _ hj ⟨ht, htc⟩
          have hj : j < n := by omega
          have hcur : cell t i j = cell old i j := by
            rw [htc i j hi hj]; simp
          refine ⟨setAt t i j (new i j), ?_, isSquare_setAt ht i j _, ?_⟩
          · show body i j t = _
            rw [hbody i j t hi hj ht hcur, storeCell_of_square ht hi hj]
          · intro a b ha hb
            rw [cell_setAt ht hi hj, htc a b ha hb]
            by_cases h1 : a = i
            · subst h1
              by_cases h2 : b = j
              · subst h2; simp
              · have : (b < j + 1) ↔ b < j := by omega
                simp [h2, this]
            · simp [h1])
      refine ⟨t, hrun, ht, ?_⟩
      intro a b ha hb
      rw [htc a b ha hb]
      by_cases h1 : a = i
      · subst h1; simp [hb]
      · have : (a < i + 1) ↔ a < i := by omega
        simp [h1, this])
  have : s' = tabulate n new := by
    apply matrix_ext hs' (isSquare_tabulate n new)
    intro i j hi hj
    rw [hcells i j hi hj, cell_tabulate new hi hj]
    simp [hi]
  rw [← this]
  exact hrun

/-- A double loop over a square matrix whose body at a cell flagged `bad` throws
`e`, and at any other cell completes or throws `e`, throws `e` as soon as one cell
is flagged. -/
theorem forEachCell_error (n : Nat) (body : Nat → Nat → Matrix → Except Exn Unit × Matrix)
    (old : Matrix) (bad : Nat → Nat → Prop) (e : Exn) (hsq : IsSquare old n)
    (hstep : ∀ i j s, i < n → j < n → IsSquare s n →
      (∃ s', body i j s = (.ok (), s') ∧ IsSquare s' n) ∨ ∃ s', body i j s = (.error e, s'))
    (hbad : ∀ i j s, i < n → j < n → IsSquare s n → bad i j →
      ∃ s', body i j s = (.error e, s'))
    (hex : ∃ i j, i < n ∧ j < n ∧ bad i j) :
    ∃ s', forEachCell n body old = (.error e, s') := by
  obtain ⟨i0, j0, hi0, hj0, hb⟩ := hex
  refine forUpTo_error (fun i s => forUpTo (fun j s => body i j s) n 0 s)
    (fun s => IsSquare s n) e i0 n 0 old hsq (Nat.zero_le _) (by omega) ?_ ?_
  · intro i s _ hi hs
    exact forUpTo_ok_or_error (fun j s => body i j s) (fun s => IsSquare s n) e n 0 s hs
      (fun j t _ hj ht => hstep i j t (by omega) (by omega) ht)
  · intro s hs
    exact forUpTo_error (fun j s => body i0 j s) (fun s => IsSquare s n) e j0 n 0 s hs
      (Nat.zero_le _) (by omega)
      (fun j t _ hj ht => hstep i0 j t hi0 (by omega) ht)
      (fun t ht => hbad i0 j0 t hi0 hj0 ht hb)

end ariel

namespace ariel

/-! ## Loading -/

theorem isSquareRows_iff (n : Nat) (m : Matrix) :
    Graph.isSquareRows n m = true ↔ ∀ row ∈ m, row.length = n := by
  induction m with
  | nil => simp [Graph.isSquareRows]
  | cons row rest ih =>
    by_cases h : row.length = n
    · simp [Graph.isSquareRows, h, ih]
    · simp [Graph.isSquareRows, h]

theorem isSquareMatrix_iff (m : Matrix) :
    Graph.isSquareMatrix m = true ↔ IsSquare m m.length := by
  simp [Graph.isSquareMatrix, isSquareRows_iff, IsSquare]

theorem loadGraph_of_square (g : Graph) {m : Matrix} {n : Nat} (h : IsSquare m n) :
    g.loadGraph m = (.ok (), { graph := m, numVertices := n, adjacency_matrix := m }) := by
  have hl : m.length = n := h.1
  have : Graph.isSquareMatrix m = true := by
    rw [isSquareMatrix_iff, hl]; exact h
  simp [Graph.loadGraph, this, hl]

theorem loaded_of_square {m : Matrix} {n : Nat} (h : IsSquare m n) :
    loaded m = { graph := m, numVertices := n, adjacency_matrix := m } := by
  simp [loaded, loadGraph_of_square _ h]

/-! ## `operator+` on loaded graphs -/

theorem addCell_loaded {A B : Matrix} {n : Nat} (hA : IsSquare A n) (hB : IsSquare B n)
    {i j : Nat} (hi : i < n) (hj : j < n) {r : Matrix} (hr : IsSquare r n) :
    Graph.addCell (loaded A) (loaded B) i j r =
      if cell A i j > intSub INT_MAX (cell B i j)
      then (.error .overflow_error, setAt r i j (intAdd (cell A i j) (cell B i j)))
      else (.ok (), setAt r i j (intAdd (cell A i j) (cell B i j))) := by
  simp only [Graph.addCell, loaded_of_square hA, loaded_of_square hB,
    getCell_of_square hA hi hj, getCell_of_square hB hi hj, storeCell_of_square hr hi hj]

theorem operator_add_loaded_loop {A B : Matrix} {n : Nat} (hn : 1 ≤ n) (hA : IsSquare A n)
    (hB : IsSquare B n) :
    Graph.operator_add (loaded A) (loaded B) =
      match forEachCell n (Graph.addCell (loaded A) (loaded B))
          (List.replicate n (List.replicate n 0)) with
      | (.ok _, m) => .ok { Graph.ctor with adjacency_matrix := m }
      | (.error e, _) => .error e := by
  have hn0 : ¬ n = 0 := by omega
  have hloop : forUpTo
      (fun i r =>
        forUpTo (fun j r => Graph.addCell (loaded A) (loaded B) i j r)
          ((loaded A).adjacency_matrix.getD i []).length 0 r)
      n 0 (List.replicate n (List.replicate n 0))
      = forEachCell n (Graph.addCell (loaded A) (loaded B))
          (List.replicate n (List.replicate n 0)) := by
    unfold forEachCell
    apply forUpTo_congr
    intro i s _ hi
    obtain ⟨row, hr, hl⟩ := hA.row (by omega : i < n)
    simp only [loaded_of_square hA, List.getD_eq_getElem?_getD, hr, Option.getD_some, hl]
  have hlenA : (loaded A).adjacency_matrix.length = n := by
    rw [loaded_of_square hA]; exact hA.1
  have hlenB : (loaded B).adjacency_matrix.length = n := by
    rw [loaded_of_square hB]; exact hB.1
  have hvA : (loaded A).vertices = n := by rw [loaded_of_square hA]; rfl
  have hvB : (loaded B).vertices = n := by rw [loaded_of_square hB]; rfl
  unfold Graph.operator_add
  simp only [hlenA, hlenB, hvA, hvB, hloop]
  simp [hn0]

theorem operator_add_loaded_ok {A B : Matrix} {n : Nat} (hn : 1 ≤ n) (hA : IsSquare A n)
    (hB : IsSquare B n)
    (hno : ∀ i j, i < n → j < n → ¬ cell A i j > intSub INT_MAX (cell B i j)) :
    Graph.operator_add (loaded A) (loaded B) =
      .ok { Graph.ctor with
        adjacency_matrix := tabulate n (fun i j => intAdd (cell A i j) (cell B i j)) } := by
  rw [operator_add_loaded_loop hn hA hB,
    forEachCell_fill n _ _ (fun i j => intAdd (cell A i j) (cell B i j))
      (isSquare_replicate n 0)
      (fun i j s hi hj hs _ => by
        rw [addCell_loaded hA hB hi hj hs, if_neg (hno i j hi hj),
          storeCell_of_square hs hi hj])]

theorem operator_add_loaded_overflow {A B : Matrix} {n : Nat} (hn : 1 ≤ n)
    (hA : IsSquare A n) (hB : IsSquare B n)
    (hex : ∃ i j, i < n ∧ j < n ∧ cell A i j > intSub INT_MAX (cell B i j)) :
    Graph.operator_add (loaded A) (loaded B) = .error .overflow_error := by
  obtain ⟨s', hs'⟩ := forEachCell_error n (Graph.addCell (loaded A) (loaded B))
    (List.replicate n (List.replicate n 0))
    (fun i j => cell A i j > intSub INT_MAX (cell B i j)) .overflow_error
    (isSquare_replicate n 0)
    (fun i j s hi hj hs => by
      rw [addCell_loaded hA hB hi hj hs]
      by_cases h : cell A i j > intSub INT_MAX (cell B i j)
      · exact Or.inr ⟨_, by rw [if_pos h]⟩
      · exact Or.inl ⟨_, by rw [if_neg h], isSquare_setAt hs i j _⟩)
    (fun i j s hi hj hs h => ⟨_, by rw [addCell_loaded hA hB hi hj hs, if_pos h]⟩)
    hex
  rw [operator_add_loaded_loop hn hA hB, hs']

end ariel

namespace ariel

/-! ## `operator*` on loaded graphs -/

theorem wrapInt_add_right (a b : Int) : wrapInt (a + wrapInt b) = wrapInt (a + b) := by
  unfold wrapInt
  omega

theorem dotAcc_eq_sum (A B : Matrix) (i j n : Nat) :
    dotAcc A B i j n = wrapInt (∑ k in Finset.range n, cell A i k * cell B k j) := by
  induction n with
  | zero => simp [dotAcc, wrapInt]
  | succ k ih =>
    rw [dotAcc, ih, Finset.sum_range_succ, intAdd, intMul, wrapInt_add_left,
      wrapInt_add_right]

theorem setAt_setAt {r : Matrix} {n i j : Nat} (hr : IsSquare r n) (hi : i < n) (hj : j < n)
    (a b : Int) : setAt (setAt r i j a) i j b = setAt r i j b := by
  apply matrix_ext (isSquare_setAt (isSquare_setAt hr i j a) i j b) (isSquare_setAt hr i j b)
  intro x y _ _
  rw [cell_setAt (isSquare_setAt hr i j a) hi hj, cell_setAt hr hi hj, cell_setAt hr hi hj]
  by_cases h : x = i ∧ y = j <;> simp [h]

theorem mulCell_loaded {A B : Matrix} {n : Nat} (hA : IsSquare A n) (hB : IsSquare B n)
    {i j : Nat} (hi : i < n) (hj : j < n) {r : Matrix} (hr : IsSquare r n) :
    Graph.mulCell (loaded A) (loaded B) n i j r = storeCell r i j (dotAcc A B i j n) := by
  obtain ⟨s', hrun, hs'⟩ := forUpTo_ok
    (fun k r => Graph.mulAccCell (loaded A) (loaded B) i j k r)
    (fun k s => s = setAt r i j (dotAcc A B i j k))
    n 0 (setAt r i j 0) rfl
    (by
      intro k s _ hk hs
      have hk : k < n := by omega
      subst hs
      have hsq := isSquare_setAt hr i j (dotAcc A B i j k)
      refine ⟨_, ?_, rfl⟩
      show Graph.mulAccCell (loaded A) (loaded B) i j k _ = _
      simp only [Graph.mulAccCell, loaded_of_square hA, loaded_of_square hB,
        getCell_of_square hsq hi hj, getCell_of_square hA hi hk, getCell_of_square hB hk hj,
        storeCell_of_square hsq hi hj, cell_setAt hr hi hj, setAt_setAt hr hi hj]
      simp [dotAcc])
  simp only [Nat.zero_add] at hs'
  simp only [Graph.mulCell, storeCell_of_square hr hi hj, hrun, hs']

theorem operator_mul_loaded {A B : Matrix} {n : Nat} (hn : 1 ≤ n) (hA : IsSquare A n)
    (hB : IsSquare B n) :
    Graph.operator_mul (loaded A) (loaded B) =
      .ok { Graph.ctor with
        adjacency_matrix :=
          tabulate n (fun i j => wrapInt (∑ k in Finset.range n, cell A i k * cell B k j)) } := by
  have hn0 : ¬ n = 0 := by omega
  have hlenA : (loaded A).adjacency_matrix.length = n := by
    rw [loaded_of_square hA]; exact hA.1
  have hlenB : (loaded B).adjacency_matrix.length = n := by
    rw [loaded_of_square hB]; exact hB.1
  have hvA : (loaded A).vertices = n := by rw [loaded_of_square hA]; rfl
  have hvB : (loaded B).vertices = n := by rw [loaded_of_square hB]; rfl
  have hloop := forEachCell_fill n (Graph.mulCell (loaded A) (loaded B) n)
    (List.replicate n (List.replicate n 0))
    (fun i j => wrapInt (∑ k in Finset.range n, cell A i k * cell B k j))
    (isSquare_replicate n 0)
    (fun i j s hi hj hs _ => by rw [mulCell_loaded hA hB hi hj hs, dotAcc_eq_sum])
  unfold Graph.operator_mul
  simp only [hlenA, hlenB, hvA, hvB, hloop]
  simp [hn0]

end ariel

namespace ariel

/-! ## Which exceptions a loop can throw -/

theorem forUpTo_error_from_body {σ : Type} (body : Nat → σ → Except Exn Unit × σ) (e : Exn)
    (h : ∀ i s, (body i s).1 ≠ .error e) :
    ∀ (count start : Nat) (s : σ), (forUpTo body count start s).1 ≠ .error e := by
  intro count
  induction count with
  | zero => intro start s hc; cases hc
  | succ k ih =>
    intro start s
    have hb := h start s
    unfold forUpTo
    rcases hbs : body start s with ⟨out, s1⟩
    rw [hbs] at hb
    cases out with
    | error e' => simpa using hb
    | ok u => exact ih (start + 1) s1

theorem storeCell_error (m : Matrix) (i j : Nat) (v : Int) (e : Exn)
    (he : e ≠ .out_of_bounds) : (storeCell m i j v).1 ≠ .error e := by
  unfold storeCell
  split
  · simpa using fun h => he h.symm
  · split
    · simp
    · simpa using fun h => he h.symm

theorem addCell_not_logic_error (this other : Graph) (i j : Nat) (r : Matrix) :
    (Graph.addCell this other i j r).1 ≠ .error .logic_error := by
  unfold Graph.addCell
  split
  · next a b _ _ =>
    have hs := storeCell_error r i j (intAdd a b) .logic_error (by decide)
    rcases hst : storeCell r i j (intAdd a b) with ⟨out, r'⟩
    rw [hst] at hs
    cases out with
    | error e => exact hs
    | ok u =>
      simp only
      split
      · split <;> simp
      · simp
  · simp

theorem mulCell_not_logic_error (this other : Graph) (n i j : Nat) (r : Matrix) :
    (Graph.mulCell this other n i j r).1 ≠ .error .logic_error := by
  unfold Graph.mulCell
  have hs := storeCell_error r i j 0 .logic_error (by decide)
  rcases hst : storeCell r i j 0 with ⟨out, r'⟩
  rw [hst] at hs
  cases out with
  | error e => exact hs
  | ok u =>
    simp only
    apply forUpTo_error_from_body
    intro k s
    unfold Graph.mulAccCell
    split
    · exact storeCell_error _ _ _ _ _ (by decide)
    · simp

theorem operator_add_logic_error_iff (a b : Graph) :
    a.operator_add b = .error .logic_error ↔ a.vertices = 0 ∨ b.vertices = 0 := by
  constructor
  · intro h
    by_contra hne
    have hv : (a.vertices == 0 || b.vertices == 0) = false := by
      simpa using hne
    unfold Graph.operator_add at h
    simp only [hv, Bool.false_eq_true, if_false] at h
    split at h
    · cases h
    · have hl := forUpTo_error_from_body
        (fun i r =>
          forUpTo (fun j r => Graph.addCell a b i j r)
            (a.adjacency_matrix.getD i []).length 0 r)
        .logic_error
        (fun i s => forUpTo_error_from_body _ _
          (fun j t => addCell_not_logic_error a b i j t) _ _ _)
        a.adjacency_matrix.length 0
        (List.replicate a.adjacency_matrix.length
          (List.replicate a.adjacency_matrix.length 0))
      generalize forUpTo
        (fun i r =>
          forUpTo (fun j r => Graph.addCell a b i j r)
            (a.adjacency_matrix.getD i []).length 0 r)
        a.adjacency_matrix.length 0
        (List.replicate a.adjacency_matrix.length
          (List.replicate a.adjacency_matrix.length 0)) = res at h hl
      rcases res with ⟨out, m⟩
      cases out with
      | error e => simp only at h; cases h; exact hl rfl
      | ok u => simp at h
  · intro h
    unfold Graph.operator_add
    rcases h with h | h <;> simp [h]

theorem operator_mul_logic_error_iff (a b : Graph) :
    a.operator_mul b = .error .logic_error ↔ a.vertices = 0 ∨ b.vertices = 0 := by
  constructor
  · intro h
    by_contra hne
    have hv : (a.vertices == 0 || b.vertices == 0) = false := by
      simpa using hne
    unfold Graph.operator_mul at h
    simp only [hv, Bool.false_eq_true, if_false] at h
    split at h
    · cases h
    · have hl := forUpTo_error_from_body
        (fun i r =>
          forUpTo (fun j r => Graph.mulCell a b a.adjacency_matrix.length i j r)
            a.adjacency_matrix.length 0 r)
        .logic_error
        (fun i s => forUpTo_error_from_body _ _
          (fun j t => mulCell_not_logic_error a b _ i j t) _ _ _)
        a.adjacency_matrix.length 0
        (List.replicate a.adjacency_matrix.length
          (List.replicate a.adjacency_matrix.length 0))
      simp only [forEachCell] at h
      generalize forUpTo
        (fun i r =>
          forUpTo (fun j r => Graph.mulCell a b a.adjacency_matrix.length i j r)
            a.adjacency_matrix.length 0 r)
        a.adjacency_matrix.length 0
        (List.replicate a.adjacency_matrix.length
          (List.replicate a.adjacency_matrix.length 0)) = res at h hl
      rcases res with ⟨out, m⟩
      cases out with
      | error e => simp only at h; cases h; exact hl rfl
      | ok u => simp at h
  · intro h
    unfold Graph.operator_mul
    rcases h with h | h <;> simp [h]

end ariel

namespace ariel

/-! ## The element-wise operators on loaded graphs -/

theorem operator_add_assign_loaded {A B : Matrix} {n : Nat} (hA : IsSquare A n)
    (hB : IsSquare B n) :
    Graph.operator_add_assign (loaded A) (loaded B) =
      (.ok (), { graph := tabulate n (fun i j => intAdd (cell A i j) (cell B i j)),
                 numVertices := n, adjacency_matrix := A }) := by
  have hloop := forEachCell_fill n (Graph.addAssignCell (loaded B)) A
    (fun i j => intAdd (cell A i j) (cell B i j)) hA
    (fun i j s hi hj hs hc => by
      simp only [Graph.addAssignCell, loaded_of_square hB, getCell_of_square hs hi hj,
        getCell_of_square hB hi hj, hc])
  unfold Graph.operator_add_assign
  simp only [loaded_of_square hA] at hloop ⊢
  simp only [loaded_of_square hB] at hloop ⊢
  simp [hloop]

theorem operator_sub_assign_loaded {A B : Matrix} {n : Nat} (hA : IsSquare A n)
    (hB : IsSquare B n) :
    Graph.operator_sub_assign (loaded A) (loaded B) =
      (.ok (), { graph := tabulate n (fun i j => intSub (cell A i j) (cell B i j)),
                 numVertices := n, adjacency_matrix := A }) := by
  have hloop := forEachCell_fill n (Graph.subAssignCell (loaded B)) A
    (fun i j => intSub (cell A i j) (cell B i j)) hA
    (fun i j s hi hj hs hc => by
      simp only [Graph.subAssignCell, loaded_of_square hB, getCell_of_square hs hi hj,
        getCell_of_square hB hi hj, hc])
  unfold Graph.operator_sub_assign
  simp only [loaded_of_square hA] at hloop ⊢
  simp only [loaded_of_square hB] at hloop ⊢
  simp [hloop]

theorem operator_mul_assign_loaded {A B : Matrix} {n : Nat} (hA : IsSquare A n)
    (hB : IsSquare B n) :
    Graph.operator_mul_assign (loaded A) (loaded B) =
      (.ok (), { graph := tabulate n (fun i j => intMul (cell A i j) (cell B i j)),
                 numVertices := n, adjacency_matrix := A }) := by
  have hloop := forEachCell_fill n (Graph.mulAssignCell (loaded B)) A
    (fun i j => intMul (cell A i j) (cell B i j)) hA
    (fun i j s hi hj hs hc => by
      simp only [Graph.mulAssignCell, loaded_of_square hB, getCell_of_square hs hi hj,
        getCell_of_square hB hi hj, hc])
  unfold Graph.operator_mul_assign
  simp only [loaded_of_square hA] at hloop ⊢
  simp only [loaded_of_square hB] at hloop ⊢
  simp [hloop]

theorem operator_sub_loaded {A B : Matrix} {n : Nat} (hA : IsSquare A n)
    (hB : IsSquare B n) :
    Graph.operator_sub (loaded A) (loaded B) =
      .ok { graph := tabulate n (fun i j => intSub (cell A i j) (cell B i j)),
            numVertices := n, adjacency_matrix := [] } := by
  have hloop := forEachCell_fill n (Graph.subCell (loaded A) (loaded B))
    (List.replicate n (List.replicate n 0))
    (fun i j => intSub (cell A i j) (cell B i j)) (isSquare_replicate n 0)
    (fun i j s hi hj hs _ => by
      simp only [Graph.subCell, loaded_of_square hA, loaded_of_square hB,
        getCell_of_square hA hi hj, getCell_of_square hB hi hj])
  unfold Graph.operator_sub
  simp only [loaded_of_square hA] at hloop ⊢
  simp only [loaded_of_square hB] at hloop ⊢
  simp [hloop, Graph.ctor]

theorem getElem?_tabulate {n i : Nat} (f : Nat → Nat → Int) (hi : i < n) :
    (tabulate n f)[i]? = some ((List.range n).map (fun j => f i j)) := by
  simp [tabulate, List.getElem?_map, List.getElem?_range, hi]

end ariel

namespace ariel

/-- Where every cell of `B` is non-negative the overflow test of `operator+` is
exact: the sum throws `std::overflow_error` exactly when some exact cell sum exceeds
`INT_MAX`. -/
theorem operator_add_overflow_iff_of_nonneg {A B : Matrix} {n : Nat} (hn : 1 ≤ n)
    (hA : IsSquare A n) (hB : IsSquare B n)
    (hAr : ∀ i j, i < n → j < n → isInt32 (cell A i j))
    (hBr : ∀ i j, i < n → j < n → isInt32 (cell B i j) ∧ 0 ≤ cell B i j) :
    Graph.operator_add (loaded A) (loaded B) = .error .overflow_error ↔
      ∃ i j, i < n ∧ j < n ∧ cell A i j + cell B i j > INT_MAX := by
  have key : ∀ i j, i < n → j < n →
      (cell A i j > intSub INT_MAX (cell B i j) ↔ cell A i j + cell B i j > INT_MAX) := by
    intro i j hi hj
    have ha := hAr i j hi hj
    have hb := hBr i j hi hj
    unfold isInt32 INT_MIN INT_MAX at ha hb
    unfold intSub INT_MAX wrapInt
    omega
  by_cases hex : ∃ i j, i < n ∧ j < n ∧ cell A i j > intSub INT_MAX (cell B i j)
  · rw [operator_add_loaded_overflow hn hA hB hex]
    obtain ⟨i, j, hi, hj, h⟩ := hex
    simp only [true_iff]
    exact ⟨i, j, hi, hj, (key i j hi hj).1 h⟩
  · have hno : ∀ i j, i < n → j < n → ¬ cell A i j > intSub INT_MAX (cell B i j) :=
      fun i j hi hj h => hex ⟨i, j, hi, hj, h⟩
    rw [operator_add_loaded_ok hn hA hB hno]
    constructor
    · intro h; cases h
    · rintro ⟨i, j, hi, hj, h⟩
      exact absurd ((key i j hi hj).2 h) (hno i j hi hj)

end ariel

namespace ariel

/-! ## The claims -/

/-- C1: `loadGraph(M)` succeeds exactly when every row of `M` is as long as `M` has
rows, the 0x0 matrix included; on success `vertices()` is the number of rows of `M`
and `getGraph()` is `M`; otherwise the call fails with `std::invalid_argument`. -/
theorem C1_loadGraph_succeeds_iff_square (g : Graph) (M : Matrix) :
    ((g.loadGraph M).1 = .ok () ↔ ∀ row ∈ M, row.length = M.length) ∧
    (((g.loadGraph M).1 = .ok () ∧ (g.loadGraph M).2.vertices = M.length ∧
        (g.loadGraph M).2.getGraph = M) ∨
      (g.loadGraph M).1 = .error .invalid_argument) ∧
    (g.loadGraph []).1 = .ok () := by
  refine ⟨?_, ?_, rfl⟩
  · by_cases h : Graph.isSquareMatrix M = true
    · have h' := (isSquareMatrix_iff M).1 h
      simp only [Graph.loadGraph, h, Bool.not_true, Bool.false_eq_true, if_false, true_iff]
      exact h'.2
    · have h' : ¬ ∀ row ∈ M, row.length = M.length := fun hc =>
        h ((isSquareMatrix_iff M).2 ⟨rfl, hc⟩)
      simp [Graph.loadGraph, h, h']
  · by_cases h : Graph.isSquareMatrix M = true
    · left
      simp [Graph.loadGraph, h, Graph.vertices, Graph.getGraph]
    · right
      simp [Graph.loadGraph, h]

/-- What `operator+` returns when it returns: for graphs loaded from `n × n`
matrices `A` and `B` with `n ≥ 1`, the matrix that `printGraph()` renders for the
result holds at every position `(i, j)` the sum `A[i][j] + B[i][j]` reduced modulo
2^32 into the signed 32-bit range; that is the exact sum wherever `B[i][j]` is not
negative, the case in which the overflow test is sound; the two 3x3 matrices of the
test suite render as `"[0, 2, 1]\n[2, 0, 3]\n[1, 3, 0]"`. -/
theorem operator_add_ok_cells (A B : Matrix) (n : Nat) (hn : 1 ≤ n)
    (hA : IsSquare A n) (hB : IsSquare B n) (r : Graph)
    (hr : (loaded A).operator_add (loaded B) = .ok r) :
    r.adjacency_matrix = tabulate n (fun i j => intAdd (cell A i j) (cell B i j)) ∧
    r.printGraph =
      Graph.printRows (tabulate n (fun i j => intAdd (cell A i j) (cell B i j))) "" ∧
    (∀ i j, i < n → j < n → isInt32 (cell A i j) → isInt32 (cell B i j) → 0 ≤ cell B i j →
      cell r.adjacency_matrix i j = cell A i j + cell B i j) ∧
    ((loaded [[0, 1, 0], [1, 0, 1], [0, 1, 0]]).operator_add
        (loaded [[0, 1, 1], [1, 0, 2], [1, 2, 0]])).map Graph.printGraph
      = .ok "[0, 2, 1]\n[2, 0, 3]\n[1, 3, 0]" := by
  by_cases hex : ∃ i j, i < n ∧ j < n ∧ cell A i j > intSub INT_MAX (cell B i j)
  · rw [operator_add_loaded_overflow hn hA hB hex] at hr
    cases hr
  · have hno : ∀ i j, i < n → j < n → ¬ cell A i j > intSub INT_MAX (cell B i j) :=
      fun i j hi hj h => hex ⟨i, j, hi, hj, h⟩
    rw [operator_add_loaded_ok hn hA hB hno] at hr
    cases hr
    refine ⟨rfl, rfl, ?_, rfl⟩
    intro i j hi hj ha hb h0
    have h := hno i j hi hj
    rw [cell_tabulate _ hi hj]
    unfold isInt32 INT_MIN INT_MAX at ha hb
    unfold intSub INT_MAX wrapInt at h
    unfold intAdd wrapInt
    omega

/-- C2: the overflow test of `operator+`, `graph[i][j] > INT_MAX - other.graph[i][j]`
in 32-bit arithmetic, lets an underflow through.  At `A = [[INT_MIN]]`, `B = [[-1]]`
the difference `INT_MAX - (-1)` wraps to `INT_MIN` and `INT_MIN > INT_MIN` is false,
so `A + B` returns a result, for which `printGraph()` renders `2147483647` and not
the sum `INT_MIN + (-1)`. -/
theorem C2_add_returns_wrapped_sum :
    (loaded [[-2147483648]]).operator_add (loaded [[-1]])
      = .ok { Graph.ctor with adjacency_matrix := [[2147483647]] } ∧
    ((loaded [[-2147483648]]).operator_add (loaded [[-1]])).map Graph.printGraph
      = .ok "[2147483647]" ∧
    cell [[2147483647]] 0 0 ≠ cell [[-2147483648]] 0 0 + cell [[-1]] 0 0 ∧
    intSub INT_MAX (-1) = INT_MIN ∧
    int32Matrix [[-2147483648]] ∧ int32Matrix [[-1]] :=
  ⟨rfl, rfl, by decide, by decide, by decide, by decide⟩

/-- C3: for graphs loaded from `n × n` matrices `A` and `B` with `n ≥ 1`, `A * B`
returns a result, and the matrix that `printGraph()` renders for it holds at every
position `(i, j)` the sum over `k` of `A[i][k] * B[k][j]` in 32-bit wrap-around
arithmetic; the two 3x3 matrices of the test suite render as
`"[1, 0, 2]\n[1, 3, 1]\n[1, 0, 2]"`. -/
theorem C3_mul_is_matrix_product (A B : Matrix) (n : Nat) (hn : 1 ≤ n)
    (hA : IsSquare A n) (hB : IsSquare B n) :
    (∃ r, (loaded A).operator_mul (loaded B) = .ok r ∧
      r.adjacency_matrix =
        tabulate n (fun i j => wrapInt (∑ k in Finset.range n, cell A i k * cell B k j)) ∧
      r.printGraph =
        Graph.printRows
          (tabulate n (fun i j => wrapInt (∑ k in Finset.range n, cell A i k * cell B k j)))
          "") ∧
    ((loaded [[0, 1, 0], [1, 0, 1], [0, 1, 0]]).operator_mul
        (loaded [[0, 1, 1], [1, 0, 2], [1, 2, 0]])).map Graph.printGraph
      = .ok "[1, 0, 2]\n[1, 3, 1]\n[1, 0, 2]" :=
  ⟨⟨_, operator_mul_loaded hn hA hB, rfl, rfl⟩, rfl⟩

/-- C3, at the matrices of the test "Test graph multiplication". -/
theorem C3_mul_is_matrix_product_witness :
    ∃ r, (loaded [[0, 1, 0], [1, 0, 1], [0, 1, 0]]).operator_mul
        (loaded [[0, 1, 1], [1, 0, 2], [1, 2, 0]]) = .ok r ∧
      r.adjacency_matrix =
        tabulate 3 (fun i j => wrapInt (∑ k in Finset.range 3,
          cell [[0, 1, 0], [1, 0, 1], [0, 1, 0]] i k *
            cell [[0, 1, 1], [1, 0, 2], [1, 2, 0]] k j)) ∧
      r.printGraph = "[1, 0, 2]\n[1, 3, 1]\n[1, 0, 2]" := by
  obtain ⟨r, h1, h2, _⟩ := (C3_mul_is_matrix_product [[0, 1, 0], [1, 0, 1], [0, 1, 0]]
    [[0, 1, 1], [1, 0, 2], [1, 2, 0]] 3 (by decide) (by decide) (by decide)).1
  refine ⟨r, h1, h2, ?_⟩
  have h3 : (loaded [[0, 1, 0], [1, 0, 1], [0, 1, 0]]).operator_mul
      (loaded [[0, 1, 1], [1, 0, 2], [1, 2, 0]])
      = .ok { Graph.ctor with adjacency_matrix := [[1, 0, 2], [1, 3, 1], [1, 0, 2]] } := rfl
  rw [h3] at h1
  cases h1
  rfl

end ariel

namespace ariel

/-- C4: the overflow test of `operator+` is `graph[i][j] > INT_MAX - other.graph[i][j]`
in 32-bit arithmetic.  At `A = [[0]]`, `B = [[-1]]` the difference `INT_MAX - (-1)`
wraps to `INT_MIN`, so `A + B` throws `std::overflow_error` although the exact sum
`0 + (-1)` does not exceed `INT_MAX`. -/
theorem C4_add_throws_overflow_without_overflow :
    (loaded [[0]]).operator_add (loaded [[-1]]) = .error .overflow_error ∧
    ¬ ((0 : Int) + (-1) > INT_MAX) ∧
    intSub INT_MAX (-1) = INT_MIN ∧
    int32Matrix [[0]] ∧ int32Matrix [[-1]] :=
  ⟨rfl, by decide, by decide, by decide, by decide⟩

/-- C5: with `a = g1 - g1` and `b = g2 - g2`, for `g1` loaded from a 2x2 and `g2`
from a 3x3 matrix, `a.vertices()` is 2 and `b.vertices()` is 3, yet `a + b` and
`a * b` both return a result (an empty graph) instead of failing, whereas `a - b`,
`a += b`, `a -= b`, `a *= b`, `a == b` and `a < b` throw `std::invalid_argument`. -/
theorem C5_add_mul_accept_unequal_vertex_counts :
    ∃ a b,
      (loaded [[0, 1], [1, 0]]).operator_sub (loaded [[0, 1], [1, 0]]) = .ok a ∧
      (loaded [[0, 1, 1], [1, 0, 2], [1, 2, 0]]).operator_sub
        (loaded [[0, 1, 1], [1, 0, 2], [1, 2, 0]]) = .ok b ∧
      a.vertices = 2 ∧ b.vertices = 3 ∧
      a.operator_add b = .ok Graph.ctor ∧
      a.operator_mul b = .ok Graph.ctor ∧
      a.operator_sub b = .error .invalid_argument ∧
      a.operator_add_assign b = (.error .invalid_argument, a) ∧
      a.operator_sub_assign b = (.error .invalid_argument, a) ∧
      a.operator_mul_assign b = (.error .invalid_argument, a) ∧
      a.operator_eq b = .error .invalid_argument ∧
      a.operator_lt b = .error .invalid_argument :=
  ⟨_, _, rfl, rfl, rfl, rfl, rfl, rfl, rfl, rfl, rfl, rfl, rfl, rfl⟩

/-- C6: for every two graphs, `a + b` fails with `std::logic_error` exactly when
`a.vertices() == 0` or `b.vertices() == 0`, and so does `a * b`; the test comes
before the comparison of the sizes, so it wins when both would fail; for `g` loaded
from the 0x0 matrix `g + g` and `g * g` fail. -/
theorem C6_empty_operand_iff (a b : Graph) :
    (a.operator_add b = .error .logic_error ↔ a.vertices = 0 ∨ b.vertices = 0) ∧
    (a.operator_mul b = .error .logic_error ↔ a.vertices = 0 ∨ b.vertices = 0) ∧
    (loaded []).operator_add (loaded []) = .error .logic_error ∧
    (loaded []).operator_mul (loaded []) = .error .logic_error ∧
    (loaded []).operator_add (loaded [[1]]) = .error .logic_error ∧
    (loaded [[1]]).operator_mul (loaded []) = .error .logic_error :=
  ⟨operator_add_logic_error_iff a b, operator_mul_logic_error_iff a b, rfl, rfl, rfl, rfl⟩

/-- C7: for the two 3x3 graphs of the test suite, the result of `A + B` has
`vertices() == 0` and an empty `getGraph()` while `printGraph()` renders a 3x3
matrix; and after `A += B`, `getGraph()` holds the element-wise sum while
`printGraph()` still renders the matrix `A` was loaded from. -/
theorem C7_operators_split_the_two_matrices :
    (∃ r, (loaded [[0, 1, 0], [1, 0, 1], [0, 1, 0]]).operator_add
          (loaded [[0, 1, 1], [1, 0, 2], [1, 2, 0]]) = .ok r ∧
        r.vertices = 0 ∧ r.getGraph = [] ∧
        r.printGraph = "[0, 2, 1]\n[2, 0, 3]\n[1, 3, 0]") ∧
    (∃ g, (loaded [[0, 1, 0], [1, 0, 1], [0, 1, 0]]).operator_add_assign
          (loaded [[0, 1, 1], [1, 0, 2], [1, 2, 0]]) = (.ok (), g) ∧
        g.getGraph = [[0, 2, 1], [2, 0, 3], [1, 3, 0]] ∧
        g.printGraph = "[0, 1, 0]\n[1, 0, 1]\n[0, 1, 0]") :=
  ⟨⟨_, rfl, rfl, rfl, rfl⟩, ⟨_, rfl, rfl, rfl⟩⟩

/-- C8 as stated fails where a product leaves the range of `int`: for `A` and `B`
loaded from `[[65536]]`, `A *= B` leaves the cell 0, not the product 4294967296. -/
theorem C8_counterexample_product_wraps :
    (loaded [[65536]]).operator_mul_assign (loaded [[65536]])
      = (.ok (), { graph := [[0]], numVertices := 1, adjacency_matrix := [[65536]] }) ∧
    cell [[0]] 0 0 ≠ cell [[65536]] 0 0 * cell [[65536]] 0 0 ∧
    int32Matrix [[65536]] :=
  ⟨rfl, by decide, by decide⟩

/-- C8, amended: for graphs loaded from `n × n` matrices `A` and `B`, `A *= B` returns
normally, leaves `vertices()` at `n`, and leaves in `getGraph()` at every cell the
element-wise product `A[i][j] * B[i][j]` reduced modulo 2^32 into the signed 32-bit
range, which is that product whenever it is representable; for the 3x3 matrix with
zeros on the diagonal and ones elsewhere the cells after `*=` differ from the cells
that `printGraph()` renders for the binary `*`. -/
theorem C8_mul_assign_is_hadamard (A B : Matrix) (n : Nat) (hA : IsSquare A n)
    (hB : IsSquare B n) :
    (∃ g, (loaded A).operator_mul_assign (loaded B) = (.ok (), g) ∧
      g.vertices = n ∧
      g.getGraph = tabulate n (fun i j => wrapInt (cell A i j * cell B i j)) ∧
      (∀ i j, i < n → j < n → isInt32 (cell A i j * cell B i j) →
        cell g.getGraph i j = cell A i j * cell B i j)) ∧
    (∃ g r,
      (loaded [[0, 1, 1], [1, 0, 1], [1, 1, 0]]).operator_mul_assign
        (loaded [[0, 1, 1], [1, 0, 1], [1, 1, 0]]) = (.ok (), g) ∧
      (loaded [[0, 1, 1], [1, 0, 1], [1, 1, 0]]).operator_mul
        (loaded [[0, 1, 1], [1, 0, 1], [1, 1, 0]]) = .ok r ∧
      g.getGraph = [[0, 1, 1], [1, 0, 1], [1, 1, 0]] ∧
      r.adjacency_matrix = [[2, 1, 1], [1, 2, 1], [1, 1, 2]] ∧
      r.printGraph = "[2, 1, 1]\n[1, 2, 1]\n[1, 1, 2]" ∧
      g.getGraph ≠ r.adjacency_matrix) := by
  refine ⟨⟨_, operator_mul_assign_loaded hA hB, rfl, rfl, ?_⟩,
    ⟨_, _, rfl, rfl, rfl, rfl, rfl, by decide⟩⟩
  intro i j hi hj h
  show cell (tabulate n _) i j = _
  rw [cell_tabulate _ hi hj, intMul, wrapInt_of_isInt32 h]

/-- C8, at `A = [[1, 2], [3, 4]]` and `B = [[5, 6], [7, 8]]`. -/
theorem C8_mul_assign_is_hadamard_witness :
    ∃ g, (loaded [[1, 2], [3, 4]]).operator_mul_assign (loaded [[5, 6], [7, 8]])
        = (.ok (), g) ∧
      g.vertices = 2 ∧ g.getGraph = [[5, 12], [21, 32]] := by
  obtain ⟨g, h1, h2, h3, _⟩ := (C8_mul_assign_is_hadamard [[1, 2], [3, 4]]
    [[5, 6], [7, 8]] 2 (by decide) (by decide)).1
  exact ⟨g, h1, h2, h3.trans (by decide)⟩

/-- C9: for graphs loaded from `n × n` matrices `A` and `B` (any `n`, any cells),
`A += B` returns normally, leaves `vertices()` at `n`, and leaves in `getGraph()` at
every cell `A[i][j] + B[i][j]` reduced modulo 2^32 into the signed 32-bit range; when
some cell of `A` is `INT_MAX`, `A + A` throws `std::overflow_error` while `A += A`
returns normally. -/
theorem C9_add_assign_never_overflows (A B : Matrix) (n : Nat) (hA : IsSquare A n)
    (hB : IsSquare B n) :
    (∃ g, (loaded A).operator_add_assign (loaded B) = (.ok (), g) ∧
      g.vertices = n ∧
      g.getGraph = tabulate n (fun i j => wrapInt (cell A i j + cell B i j))) ∧
    ((∃ i j, i < n ∧ j < n ∧ cell A i j = INT_MAX) →
      (loaded A).operator_add (loaded A) = .error .overflow_error ∧
      ((loaded A).operator_add_assign (loaded A)).1 = .ok ()) := by
  refine ⟨⟨_, operator_add_assign_loaded hA hB, rfl, rfl⟩, ?_⟩
  rintro ⟨i, j, hi, hj, hmax⟩
  refine ⟨?_, by rw [operator_add_assign_loaded hA hA]⟩
  apply operator_add_loaded_overflow (by omega) hA hA
  refine ⟨i, j, hi, hj, ?_⟩
  rw [hmax]
  decide

/-- C9, at the matrix of the test "Graphs with maximum integer weights". -/
theorem C9_add_assign_never_overflows_witness :
    (∃ g, (loaded [[0, 2147483647], [2147483647, 0]]).operator_add_assign
        (loaded [[0, 2147483647], [2147483647, 0]]) = (.ok (), g) ∧
      g.vertices = 2 ∧ g.getGraph = [[0, -2], [-2, 0]]) ∧
    (loaded [[0, 2147483647], [2147483647, 0]]).operator_add
        (loaded [[0, 2147483647], [2147483647, 0]]) = .error .overflow_error := by
  have h := C9_add_assign_never_overflows [[0, 2147483647], [2147483647, 0]]
    [[0, 2147483647], [2147483647, 0]] 2 (by decide) (by decide)
  obtain ⟨g, h1, h2, h3⟩ := h.1
  exact ⟨⟨g, h1, h2, h3.trans (by decide)⟩,
    (h.2 ⟨0, 1, by decide, by decide, by decide⟩).1⟩

/-- C10 as stated fails where a difference leaves the range of `int`: for `A` loaded
from `[[INT_MIN]]` and `B` from `[[1]]`, `A - B` and `A -= B` hold the cell
2147483647, not the difference -2147483649. -/
theorem C10_counterexample_difference_wraps :
    (loaded [[-2147483648]]).operator_sub (loaded [[1]])
      = .ok { graph := [[2147483647]], numVertices := 1, adjacency_matrix := [] } ∧
    (loaded [[-2147483648]]).operator_sub_assign (loaded [[1]])
      = (.ok (), { graph := [[2147483647]], numVertices := 1,
                   adjacency_matrix := [[-2147483648]] }) ∧
    cell [[2147483647]] 0 0 ≠ cell [[-2147483648]] 0 0 - cell [[1]] 0 0 ∧
    int32Matrix [[-2147483648]] ∧ int32Matrix [[1]] :=
  ⟨rfl, rfl, by decide, by decide, by decide⟩

/-- C10, amended: for graphs loaded from `n × n` matrices `A` and `B`, `n ≥ 0`,
`A - B` returns a graph with `vertices() == n` whose cell `(i, j)`, in `getGraph()`
and in `adj(i)`, is the difference `A[i][j] - B[i][j]` reduced modulo 2^32 into the
signed 32-bit range, which is that difference whenever it is representable;
`A -= B` leaves the same cells in `A`; for `n = 0` the result is an empty graph and
no exception is thrown. -/
theorem C10_sub_is_cellwise (A B : Matrix) (n : Nat) (hA : IsSquare A n)
    (hB : IsSquare B n) :
    (∃ r g, (loaded A).operator_sub (loaded B) = .ok r ∧
      r.vertices = n ∧
      r.getGraph = tabulate n (fun i j => wrapInt (cell A i j - cell B i j)) ∧
      (∀ i : Nat, i < n →
        r.adj (i : Int) =
          .ok ((List.range n).map (fun j => wrapInt (cell A i j - cell B i j)))) ∧
      (∀ i j, i < n → j < n → isInt32 (cell A i j - cell B i j) →
        cell r.getGraph i j = cell A i j - cell B i j) ∧
      (loaded A).operator_sub_assign (loaded B) = (.ok (), g) ∧
      g.getGraph = r.getGraph) ∧
    (loaded []).operator_sub (loaded []) = .ok Graph.ctor := by
  refine ⟨⟨_, _, operator_sub_loaded hA hB, rfl, rfl, ?_, ?_,
    operator_sub_assign_loaded hA hB, rfl⟩, rfl⟩
  · intro i hi
    have h0 : ¬ ((i : Int) < 0) := by omega
    have h1 : ¬ ((i : Int).toNat ≥ n) := by simpa using hi
    simp only [Graph.adj, h0, h1, Int.toNat_ofNat, getElem?_tabulate _ hi]
    simp [hi, intSub]
  · intro i j hi hj h
    show cell (tabulate n _) i j = _
    rw [cell_tabulate _ hi hj, intSub, wrapInt_of_isInt32 h]

/-- C10, at the 2x2 and at the first two rows and columns of the 3x3 matrix of the
test "Subtraction with different sizes". -/
theorem C10_sub_is_cellwise_witness :
    ∃ r, (loaded [[0, 1], [1, 0]]).operator_sub (loaded [[0, 1], [1, 0]]) = .ok r ∧
      r.vertices = 2 ∧ r.getGraph = [[0, 0], [0, 0]] ∧ r.adj 1 = .ok [0, 0] := by
  obtain ⟨r, g, h1, h2, h3, h4, _⟩ := (C10_sub_is_cellwise [[0, 1], [1, 0]]
    [[0, 1], [1, 0]] 2 (by decide) (by decide)).1
  exact ⟨r, h1, h2, h3.trans (by decide), (h4 1 (by decide)).trans rfl⟩

end ariel

namespace ariel

/-! ## Loops whose invariant depends on the position -/

/-- A loop whose iteration `i` either takes the invariant from `i` to `i + 1` or
throws `e` does the same as a whole. -/
theorem forUpTo_ok_or_error_at {σ : Type} (body : Nat → σ → Except Exn Unit × σ)
    (P : Nat → σ → Prop) (e : Exn) :
    ∀ (count start : Nat) (s : σ), P start s →
      (∀ i s, start ≤ i → i < start + count → P i s →
        (∃ s', body i s = (.ok (), s') ∧ P (i + 1) s') ∨ ∃ s', body i s = (.error e, s')) →
      (∃ s', forUpTo body count start s = (.ok (), s') ∧ P (start + count) s') ∨
        ∃ s', forUpTo body count start s = (.error e, s') := by
  intro count
  induction count with
  | zero => intro start s h _; exact Or.inl ⟨s, rfl, by simpa using h⟩
  | succ k ih =>
    intro start s h hstep
    rcases hstep start s (le_refl _) (by omega) h with ⟨s1, hb, hP⟩ | ⟨s1, hb⟩
    · have := ih (start + 1) s1 hP (fun i t h1 h2 hp => hstep i t (by omega) (by omega) hp)
      have hsum : start + 1 + k = start + (k + 1) := by omega
      rw [hsum] at this
      simpa only [forUpTo, hb] using this
    · exact Or.inr ⟨s1, by simp only [forUpTo, hb]⟩

/-- A loop with an iteration `k` that throws `e` whenever it is reached under the
invariant, and whose other iterations advance the invariant or throw `e`, throws
`e`. -/
theorem forUpTo_error_at {σ : Type} (body : Nat → σ → Except Exn Unit × σ)
    (P : Nat → σ → Prop) (e : Exn) (k : Nat) :
    ∀ (count start : Nat) (s : σ), P start s → start ≤ k → k < start + count →
      (∀ i s, start ≤ i → i < start + count → P i s →
        (∃ s', body i s = (.ok (), s') ∧ P (i + 1) s') ∨ ∃ s', body i s = (.error e, s')) →
      (∀ s, P k s → ∃ s', body k s = (.error e, s')) →
      ∃ s', forUpTo body count start s = (.error e, s') := by
  intro count
  induction count with
  | zero => intro start s _ h1 h2; omega
  | succ c ih =>
    intro start s h h1 h2 hstep hk
    by_cases hs : start = k
    · subst hs
      obtain ⟨s1, hb⟩ := hk s h
      exact ⟨s1, by simp only [forUpTo, hb]⟩
    · rcases hstep start s (le_refl _) (by omega) h with ⟨s1, hb, hP⟩ | ⟨s1, hb⟩
      · have := ih (start + 1) s1 hP (by omega) (by omega)
          (fun i t h1 h2 hp => hstep i t (by omega) (by omega) hp) hk
        simpa only [forUpTo, hb] using this
      · exact ⟨s1, by simp only [forUpTo, hb]⟩

theorem untouched_row_step {old : Matrix} {n i : Nat} (hi : i < n)
    (body : Nat → Nat → Matrix → Except Exn Unit × Matrix) (e : Exn)
    (hstep : ∀ i j s, i < n → j < n → IsSquare s n → cell s i j = cell old i j →
      (∃ v, body i j s = storeCell s i j v) ∨ ∃ s', body i j s = (.error e, s'))
    (j : Nat) (t : Matrix) (hj : j < n) (ht : Untouched old n i j t) :
    (∃ t', body i j t = (.ok (), t') ∧ Untouched old n i (j + 1) t') ∨
      ∃ t', body i j t = (.error e, t') := by
  have hcur : cell t i j = cell old i j := ht.2 i j hi hj (Or.inr ⟨rfl, le_refl _⟩)
  rcases hstep i j t hi hj ht.1 hcur with ⟨v, hv⟩ | herr
  · left
    refine ⟨setAt t i j v, by rw [hv, storeCell_of_square ht.1 hi hj],
      isSquare_setAt ht.1 i j v, ?_⟩
    intro a b ha hb hab
    rw [cell_setAt ht.1 hi hj, if_neg (by omega)]
    exact ht.2 a b ha hb (by omega)
  · exact Or.inr herr

/-- A double loop that rewrites a square matrix in place, reading at `(i, j)` the
cell it is about to assign: when the body throws `e` at every cell flagged `bad`,
judged on the value the matrix held at the start, the loop throws `e` as soon as one
cell is flagged. -/
theorem forEachCell_error_inplace (n : Nat)
    (body : Nat → Nat → Matrix → Except Exn Unit × Matrix)
    (old : Matrix) (bad : Nat → Nat → Prop) (e : Exn) (hsq : IsSquare old n)
    (hstep : ∀ i j s, i < n → j < n → IsSquare s n → cell s i j = cell old i j →
      (∃ v, body i j s = storeCell s i j v) ∨ ∃ s', body i j s = (.error e, s'))
    (hbad : ∀ i j s, i < n → j < n → IsSquare s n → cell s i j = cell old i j → bad i j →
      ∃ s', body i j s = (.error e, s'))
    (hex : ∃ i j, i < n ∧ j < n ∧ bad i j) :
    ∃ s', forEachCell n body old = (.error e, s') := by
  obtain ⟨i0, j0, hi0, hj0, hb⟩ := hex
  refine forUpTo_error_at (fun i s => forUpTo (fun j s => body i j s) n 0 s)
    (fun i s => Untouched old n i 0 s) e i0 n 0 old
    ⟨hsq, fun _ _ _ _ _ => rfl⟩ (Nat.zero_le _) (by omega) ?_ ?_
  · intro i s _ hi hs
    have hi : i < n := by omega
    rcases forUpTo_ok_or_error_at (fun j s => body i j s)
        (fun j s => Untouched old n i j s) e n 0 s hs
        (fun j t _ hj ht => untouched_row_step hi body e hstep j t (by omega) ht) with
      ⟨t, hrun, ht⟩ | herr
    · left
      refine ⟨t, hrun, ht.1, ?_⟩
      intro a b ha hb hab
      exact ht.2 a b ha hb (by omega)
    · exact Or.inr herr
  · intro s hs
    exact forUpTo_error_at (fun j s => body i0 j s)
      (fun j s => Untouched old n i0 j s) e j0 n 0 s hs (Nat.zero_le _) (by omega)
      (fun j t _ hj ht => untouched_row_step hi0 body e hstep j t (by omega) ht)
      (fun t ht => hbad i0 j0 t hi0 hj0 ht.1
        (ht.2 i0 j0 hi0 hj0 (Or.inr ⟨rfl, le_refl _⟩)) hb)

/-- A loop whose body keeps `P`, whatever its outcome, and throws only errors in
`Q`, does the same as a whole. -/
theorem forUpTo_keeps {σ : Type} (body : Nat → σ → Except Exn Unit × σ)
    (P : σ → Prop) (Q : Exn → Prop) :
    ∀ (count start : Nat) (s : σ), P s →
      (∀ i s, start ≤ i → i < start + count → P s →
        P (body i s).2 ∧ ∀ e, (body i s).1 = .error e → Q e) →
      P (forUpTo body count start s).2 ∧
        ∀ e, (forUpTo body count start s).1 = .error e → Q e := by
  intro count
  induction count with
  | zero => intro start s h _; exact ⟨h, fun e he => by cases he⟩
  | succ k ih =>
    intro start s h hbody
    have hb := hbody start s (le_refl _) (by omega) h
    rcases hbs : body start s with ⟨out, s1⟩
    rw [hbs] at hb
    cases out with
    | ok u =>
      simp only [forUpTo, hbs]
      exact ih (start + 1) s1 hb.1 (fun i t h1 h2 ht => hbody i t (by omega) (by omega) ht)
    | error e =>
      simp only [forUpTo, hbs]
      exact hb

theorem forEachCell_keeps (n : Nat) (body : Nat → Nat → Matrix → Except Exn Unit × Matrix)
    (P : Matrix → Prop) (Q : Exn → Prop)
    (hbody : ∀ i j s, i < n → j < n → P s →
      P (body i j s).2 ∧ ∀ e, (body i j s).1 = .error e → Q e)
    (s : Matrix) (hs : P s) :
    P (forEachCell n body s).2 ∧ ∀ e, (forEachCell n body s).1 = .error e → Q e :=
  forUpTo_keeps (fun i s => forUpTo (fun j s => body i j s) n 0 s) P Q n 0 s hs
    (fun i t _ hi ht => forUpTo_keeps (fun j s => body i j s) P Q n 0 t ht
      (fun j u _ hj hu => hbody i j u (by omega) (by omega) hu))

/-! ## Scalar division -/

theorem intDiv_ok {a b : Int} (hb : b ≠ 0) (h : ¬ (a = INT_MIN ∧ b = -1)) :
    intDiv a b = .ok (Int.tdiv a b) := by
  unfold intDiv
  rw [if_neg]
  rintro (h0 | h1)
  · exact hb h0
  · exact h h1

theorem intDiv_ok_or_fault (a b : Int) :
    (∃ q, intDiv a b = .ok q) ∨ intDiv a b = .error .sigfpe := by
  unfold intDiv
  split
  · exact Or.inr rfl
  · exact Or.inl ⟨_, rfl⟩

theorem isInt32_cell {M : Matrix} {n i j : Nat} (hM : IsSquare M n) (hint : int32Matrix M)
    (hi : i < n) (hj : j < n) : isInt32 (cell M i j) := by
  obtain ⟨row, hr, hl⟩ := hM.row hi
  have hil : i < M.length := by rw [hM.1]; exact hi
  have hjl : j < row.length := by omega
  have hrow : row ∈ M := by
    rw [List.getElem?_eq_getElem hil] at hr
    cases hr
    exact List.getElem_mem hil
  have hc : cell M i j = row[j] := by
    simp [cell_eq, hr, List.getElem?_eq_getElem hjl]
  rw [hc]
  exact hint row hrow _ (List.getElem_mem hjl)

/-- Away from the fault the quotient of two `int` values is an `int`. -/
theorem isInt32_tdiv {a b : Int} (ha : isInt32 a) (hb : b ≠ 0)
    (h : ¬ (a = INT_MIN ∧ b = -1)) : isInt32 (Int.tdiv a b) := by
  have hnat : (Int.tdiv a b).natAbs = a.natAbs / b.natAbs := Int.natAbs_tdiv a b
  have hbpos : 0 < b.natAbs := Int.natAbs_pos.2 hb
  have hle : (Int.tdiv a b).natAbs ≤ a.natAbs := by
    rw [hnat]; exact Nat.div_le_self _ _
  unfold isInt32 INT_MIN INT_MAX at ha ⊢
  unfold INT_MIN at h
  by_cases hb1 : b = -1
  · subst hb1
    have : Int.tdiv a (-1) = -a := by simp
    rw [this]
    have : a ≠ -2147483648 := fun e => h ⟨e, rfl⟩
    omega
  · by_cases hb2 : b = 1
    · subst hb2
      simp
      omega
    · have h2 : 2 ≤ b.natAbs := by omega
      have : a.natAbs / b.natAbs ≤ a.natAbs / 2 := Nat.div_le_div_left h2 (by decide)
      omega

theorem divCell_sq {a : Graph} {n : Nat} (ha : IsSquare a.graph n) (k : Int) {i j : Nat}
    (hi : i < n) (hj : j < n) {r : Matrix} (hr : IsSquare r n) :
    Graph.divCell a k i j r =
      match intDiv (cell a.graph i j) k with
      | .ok q => (.ok (), setAt r i j q)
      | .error e => (.error e, r) := by
  simp only [Graph.divCell, getCell_of_square ha hi hj]
  cases intDiv (cell a.graph i j) k with
  | ok q => exact storeCell_of_square hr hi hj q
  | error e => rfl

theorem divAssignCell_sq (k : Int) {n i j : Nat} (hi : i < n) (hj : j < n) {g : Matrix}
    (hg : IsSquare g n) :
    Graph.divAssignCell k i j g =
      match intDiv (cell g i j) k with
      | .ok q => (.ok (), setAt g i j q)
      | .error e => (.error e, g) := by
  simp only [Graph.divAssignCell, getCell_of_square hg hi hj]
  cases intDiv (cell g i j) k with
  | ok q => exact storeCell_of_square hg hi hj q
  | error e => rfl

/-- On a graph whose `graph` is square, `g / k` with `k ≠ 0` that meets no
`INT_MIN / -1` returns the table of the truncated quotients. -/
theorem operator_div_sq {a : Graph} {n : Nat} (ha : IsSquare a.graph n)
    (hna : a.numVertices = n) {k : Int} (hk : k ≠ 0)
    (hq : ∀ i j, i < n → j < n → ¬ (cell a.graph i j = INT_MIN ∧ k = -1)) :
    a.operator_div k =
      .ok { graph := tabulate n (fun i j => Int.tdiv (cell a.graph i j) k),
            numVertices := n, adjacency_matrix := [] } := by
  have hloop := forEachCell_fill n (Graph.divCell a k)
    (List.replicate n (List.replicate n 0))
    (fun i j => Int.tdiv (cell a.graph i j) k) (isSquare_replicate n 0)
    (fun i j s hi hj hs _ => by
      simp only [Graph.divCell, getCell_of_square ha hi hj, intDiv_ok hk (hq i j hi hj)])
  unfold Graph.operator_div
  simp [hna, hloop, Graph.ctor, hk]

theorem operator_div_assign_sq {a : Graph} {n : Nat} (ha : IsSquare a.graph n)
    (hna : a.numVertices = n) {k : Int} (hk : k ≠ 0)
    (hq : ∀ i j, i < n → j < n → ¬ (cell a.graph i j = INT_MIN ∧ k = -1)) :
    a.operator_div_assign k =
      (.ok (), { a with graph := tabulate n (fun i j => Int.tdiv (cell a.graph i j) k) }) := by
  have hloop := forEachCell_fill n (Graph.divAssignCell k) a.graph
    (fun i j => Int.tdiv (cell a.graph i j) k) ha
    (fun i j s hi hj hs hc => by
      simp only [Graph.divAssignCell, getCell_of_square hs hi hj, hc,
        intDiv_ok hk (hq i j hi hj)])
  unfold Graph.operator_div_assign
  simp [hna, hloop, hk]

/-- On a graph whose `graph` is square and holds `INT_MIN` in some cell, `g / -1`
does not return: the division faults. -/
theorem operator_div_fault {a : Graph} {n : Nat} (ha : IsSquare a.graph n)
    (hna : a.numVertices = n) (hex : ∃ i j, i < n ∧ j < n ∧ cell a.graph i j = INT_MIN) :
    a.operator_div (-1) = .error .sigfpe := by
  obtain ⟨s', hs'⟩ := forEachCell_error n (Graph.divCell a (-1))
    (List.replicate n (List.replicate n 0)) (fun i j => cell a.graph i j = INT_MIN)
    .sigfpe (isSquare_replicate n 0)
    (fun i j s hi hj hs => by
      rw [divCell_sq ha (-1) hi hj hs]
      rcases intDiv_ok_or_fault (cell a.graph i j) (-1) with ⟨q, hq⟩ | hf
      · rw [hq]; exact Or.inl ⟨_, rfl, isSquare_setAt hs i j q⟩
      · rw [hf]; exact Or.inr ⟨_, rfl⟩)
    (fun i j s hi hj hs hb => by
      rw [divCell_sq ha (-1) hi hj hs, hb]
      exact ⟨_, rfl⟩)
    hex
  unfold Graph.operator_div
  simp [hna, hs']

theorem operator_div_assign_fault {a : Graph} {n : Nat} (ha : IsSquare a.graph n)
    (hna : a.numVertices = n) (hex : ∃ i j, i < n ∧ j < n ∧ cell a.graph i j = INT_MIN) :
    (a.operator_div_assign (-1)).1 = .error .sigfpe := by
  obtain ⟨s', hs'⟩ := forEachCell_error_inplace n (Graph.divAssignCell (-1))
    a.graph (fun i j => cell a.graph i j = INT_MIN) .sigfpe ha
    (fun i j s hi hj hs _ => by
      simp only [Graph.divAssignCell, getCell_of_square hs hi hj]
      rcases intDiv_ok_or_fault (cell s i j) (-1) with ⟨q, hq⟩ | hf
      · rw [hq]; exact Or.inl ⟨q, rfl⟩
      · rw [hf]; exact Or.inr ⟨_, rfl⟩)
    (fun i j s hi hj hs hc hb => by
      rw [divAssignCell_sq (-1) hi hj hs, hc, hb]
      exact ⟨_, rfl⟩)
    hex
  unfold Graph.operator_div_assign
  simp [hna, hs']

/-- Whatever the cells, `g / k` with `k ≠ 0` on a square `graph` returns a graph
of the same shape or faults. -/
theorem operator_div_shape {a : Graph} {n : Nat} (ha : IsSquare a.graph n)
    (hna : a.numVertices = n) {k : Int} (hk : k ≠ 0) :
    (∃ g, a.operator_div k = .ok { graph := g, numVertices := n, adjacency_matrix := [] } ∧
      IsSquare g n) ∨
    a.operator_div k = .error .sigfpe := by
  have h := forEachCell_keeps n (Graph.divCell a k) (fun s => IsSquare s n)
    (fun e => e = .sigfpe)
    (fun i j s hi hj hs => by
      rw [divCell_sq ha k hi hj hs]
      rcases intDiv_ok_or_fault (cell a.graph i j) k with ⟨q, hq⟩ | hf
      · rw [hq]; exact ⟨isSquare_setAt hs i j q, fun e he => by cases he⟩
      · rw [hf]
        refine ⟨hs, fun e he => ?_⟩
        cases he
        rfl)
    (List.replicate n (List.replicate n 0)) (isSquare_replicate n 0)
  unfold Graph.operator_div
  rw [hna]
  rcases hrun : forEachCell n (Graph.divCell a k)
    (List.replicate n (List.replicate n 0)) with ⟨out, g⟩
  rw [hrun] at h
  cases out with
  | ok u =>
    left
    exact ⟨g, by simp [hk, Graph.ctor], h.1⟩
  | error e =>
    right
    have he : e = .sigfpe := h.2 e rfl
    simp [hk, he]

/-- Whatever the cells, `g /= k` with `k ≠ 0` on a square `graph` returns or
faults, and leaves a square `graph` also when it stops on the fault. -/
theorem operator_div_assign_shape {a : Graph} {n : Nat} (ha : IsSquare a.graph n)
    (hna : a.numVertices = n) {k : Int} (hk : k ≠ 0) :
    ((a.operator_div_assign k).1 = .ok () ∨ (a.operator_div_assign k).1 = .error .sigfpe) ∧
    ∃ g, (a.operator_div_assign k).2 = { a with graph := g } ∧ IsSquare g n := by
  have h := forEachCell_keeps n (Graph.divAssignCell k) (fun s => IsSquare s n)
    (fun e => e = .sigfpe)
    (fun i j s hi hj hs => by
      rw [divAssignCell_sq k hi hj hs]
      rcases intDiv_ok_or_fault (cell s i j) k with ⟨q, hq⟩ | hf
      · rw [hq]; exact ⟨isSquare_setAt hs i j q, fun e he => by cases he⟩
      · rw [hf]
        refine ⟨hs, fun e he => ?_⟩
        cases he
        rfl)
    a.graph ha
  unfold Graph.operator_div_assign
  rw [hna]
  rcases hrun : forEachCell n (Graph.divAssignCell k) a.graph with ⟨out, g⟩
  rw [hrun] at h
  simp only [hk, beq_iff_eq, if_false]
  refine ⟨?_, g, rfl, h.1⟩
  cases out with
  | ok u => exact Or.inl rfl
  | error e =>
    have he : e = .sigfpe := h.2 e rfl
    rw [he]
    exact Or.inr rfl

end ariel

namespace ariel

/-! ## The comparison scans -/

theorem anyUpTo_ok (p : Nat → Except Exn Bool) (q : Nat → Bool) :
    ∀ (count start : Nat), (∀ i, start ≤ i → i < start + count → p i = .ok (q i)) →
      anyUpTo p count start = .ok ((List.range' start count).any q) := by
  intro count
  induction count with
  | zero => intro start _; rfl
  | succ k ih =>
    intro start h
    have h0 := h start (le_refl _) (by omega)
    have hrest := ih (start + 1) (fun i h1 h2 => h i (by omega) (by omega))
    simp only [anyUpTo, h0, List.range'_succ, List.any_cons]
    cases hq : q start
    · simpa using hrest
    · simp

theorem anyCell_ok (n : Nat) (p : Nat → Nat → Except Exn Bool) (q : Nat → Nat → Bool)
    (h : ∀ i j, i < n → j < n → p i j = .ok (q i j)) :
    ∃ b, anyUpTo (fun i => anyUpTo (fun j => p i j) n 0) n 0 = .ok b ∧
      (b = true ↔ ∃ i j, i < n ∧ j < n ∧ q i j = true) := by
  refine ⟨(List.range' 0 n).any (fun i => (List.range' 0 n).any (q i)), ?_, ?_⟩
  · apply anyUpTo_ok
    intro i _ hi
    exact anyUpTo_ok (fun j => p i j) (q i) n 0 (fun j _ hj => h i j (by omega) (by omega))
  · simp only [List.any_eq_true, List.mem_range'_1]
    constructor
    · rintro ⟨i, ⟨_, hi⟩, j, ⟨_, hj⟩, hq⟩
      exact ⟨i, j, by omega, by omega, hq⟩
    · rintro ⟨i, j, hi, hj, hq⟩
      exact ⟨i, ⟨by omega, by omega⟩, j, ⟨by omega, by omega⟩, hq⟩

theorem operator_eq_loaded {A B : Matrix} {n : Nat} (hA : IsSquare A n) (hB : IsSquare B n) :
    ∃ b, Graph.operator_eq (loaded A) (loaded B) = .ok b ∧
      (b = true ↔ ∀ i j, i < n → j < n → cell A i j = cell B i j) := by
  obtain ⟨f, hf, hiff⟩ := anyCell_ok n (Graph.cellsDiffer (loaded A) (loaded B))
    (fun i j => cell A i j != cell B i j)
    (fun i j hi hj => by
      simp only [Graph.cellsDiffer, loaded_of_square hA, loaded_of_square hB,
        getCell_of_square hA hi hj, getCell_of_square hB hi hj])
  refine ⟨!f, ?_, ?_⟩
  · unfold Graph.operator_eq
    simp only [loaded_of_square hA] at hf ⊢
    simp only [loaded_of_square hB] at hf ⊢
    simp [hf]
  · constructor
    · intro hb i j hi hj
      by_contra hne
      have : f = true := hiff.2 ⟨i, j, hi, hj, by simpa using hne⟩
      rw [this] at hb
      cases hb
    · intro hall
      cases hfv : f
      · rfl
      · obtain ⟨i, j, hi, hj, hq⟩ := hiff.1 hfv
        exact absurd (hall i j hi hj) (by simpa using hq)

theorem operator_lt_loaded {A B : Matrix} {n : Nat} (hA : IsSquare A n) (hB : IsSquare B n) :
    ∃ b, Graph.operator_lt (loaded A) (loaded B) = .ok b ∧
      (b = true ↔ ∀ i j, i < n → j < n → cell A i j < cell B i j) := by
  obtain ⟨f, hf, hiff⟩ := anyCell_ok n (Graph.cellNotLess (loaded A) (loaded B))
    (fun i j => decide (cell A i j ≥ cell B i j))
    (fun i j hi hj => by
      simp only [Graph.cellNotLess, loaded_of_square hA, loaded_of_square hB,
        getCell_of_square hA hi hj, getCell_of_square hB hi hj])
  refine ⟨!f, ?_, ?_⟩
  · unfold Graph.operator_lt
    simp only [loaded_of_square hA] at hf ⊢
    simp only [loaded_of_square hB] at hf ⊢
    simp [hf]
  · constructor
    · intro hb i j hi hj
      by_contra hne
      have : f = true := hiff.2 ⟨i, j, hi, hj, by simpa using hne⟩
      rw [this] at hb
      cases hb
    · intro hall
      cases hfv : f
      · rfl
      · obtain ⟨i, j, hi, hj, hq⟩ := hiff.1 hfv
        have := hall i j hi hj
        simp only [ge_iff_le, decide_eq_true_eq] at hq
        omega

theorem operator_eq_size_mismatch {A B : Matrix} {n m : Nat} (hA : IsSquare A n)
    (hB : IsSquare B m) (hnm : n ≠ m) :
    Graph.operator_eq (loaded A) (loaded B) = .error .invalid_argument := by
  unfold Graph.operator_eq
  simp [loaded_of_square hA, loaded_of_square hB, hnm]

theorem operator_lt_size_mismatch {A B : Matrix} {n m : Nat} (hA : IsSquare A n)
    (hB : IsSquare B m) (hnm : n ≠ m) :
    Graph.operator_lt (loaded A) (loaded B) = .error .invalid_argument := by
  unfold Graph.operator_lt
  simp [loaded_of_square hA, loaded_of_square hB, hnm]

end ariel

namespace ariel

/-! ## Rendering -/

theorem intercalate_go_snoc (sep x : String) (l : List String) :
    ∀ acc, String.intercalate.go acc sep (l ++ [x]) = String.intercalate.go acc sep l ++ sep ++ x := by
  induction l with
  | nil => intro acc; rfl
  | cons a as ih =>
    intro acc
    show String.intercalate.go (acc ++ sep ++ a) sep (as ++ [x]) = _
    rw [ih]
    rfl

theorem intercalate_snoc (sep x : String) (l : List String) (hl : l ≠ []) :
    String.intercalate sep (l ++ [x]) = String.intercalate sep l ++ sep ++ x := by
  cases l with
  | nil => exact absurd rfl hl
  | cons a as => simp only [List.cons_append, String.intercalate, intercalate_go_snoc]

/-- A loop that appends `get j` for `j = 0 .. L - 1`, and `sep` after each but the
last, appends the items joined by `sep`. -/
theorem foldl_sep (L : Nat) (get : Nat → String) (sep : String)
    (step : String → Nat → String)
    (hstep : ∀ oss j, step oss j = if j != L - 1 then oss ++ get j ++ sep else oss ++ get j)
    (oss : String) :
    (List.range L).foldl step oss = oss ++ String.intercalate sep ((List.range L).map get) := by
  have key : ∀ k, k + 1 ≤ L →
      (List.range (k + 1)).foldl step oss =
        oss ++ String.intercalate sep ((List.range (k + 1)).map get) ++
          (if k + 1 < L then sep else "") := by
    intro k
    induction k with
    | zero =>
      intro hL
      have : List.range (0 + 1) = [0] := rfl
      rw [this]
      simp only [List.foldl_cons, List.foldl_nil, List.map_cons, List.map_nil, hstep,
        String.intercalate, String.intercalate.go]
      by_cases h : 0 + 1 < L
      · have h' : (0 != L - 1) = true := by simp; omega
        simp [h, h']
      · have h' : (0 != L - 1) = false := by simp; omega
        simp [h, h']
    | succ k ih =>
      intro hL
      have ihk := ih (by omega)
      have hlt : k + 1 < L := by omega
      rw [List.range_succ, List.foldl_append, ihk, List.map_append, List.map_singleton,
        intercalate_snoc _ _ _ (by simp [List.range_succ])]
      simp only [List.foldl_cons, List.foldl_nil, hstep, hlt, if_true]
      by_cases h : k + 1 + 1 < L
      · have h' : (k + 1 != L - 1) = true := by simp; omega
        simp [h, h', String.append_assoc]
      · have h' : (k + 1 != L - 1) = false := by simp; omega
        simp [h, h', String.append_assoc]
  cases L with
  | zero => simp [String.intercalate]
  | succ k =>
    rw [key k (le_refl _)]
    simp

theorem range_map_getD {α β : Type} (l : List α) (d : α) (f : α → β) :
    (List.range l.length).map (fun j => f (l.getD j d)) = l.map f := by
  apply List.ext_getElem?
  intro i
  by_cases hi : i < l.length
  · simp [List.getElem?_map, List.getElem?_range, hi, List.getD_eq_getElem?_getD,
      List.getElem?_eq_getElem hi]
  · have hle : l.length ≤ i := not_lt.mp hi
    simp [List.getElem?_map, List.getElem?_eq_none hle, hi, hle]

theorem printCells_eq (row : List Int) (oss : String) :
    Graph.printCells row oss = oss ++ String.intercalate ", " (row.map toString) := by
  unfold Graph.printCells
  rw [foldl_sep row.length (fun j => toString (row.getD j 0)) ", " _ (fun oss j => by
    by_cases h : (j != row.length - 1) = true <;> simp [h]), range_map_getD]

theorem printRows_eq (m : Matrix) (oss : String) :
    Graph.printRows m oss =
      oss ++ String.intercalate "\n"
        (m.map (fun row => "[" ++ String.intercalate ", " (row.map toString) ++ "]")) := by
  unfold Graph.printRows
  rw [foldl_sep m.length
    (fun i => "[" ++ String.intercalate ", " ((m.getD i []).map toString) ++ "]") "\n" _
    (fun oss i => by
      by_cases h : (i != m.length - 1) = true <;>
        simp [h, printCells_eq, String.append_assoc]),
    range_map_getD m []
      (fun row => "[" ++ String.intercalate ", " (row.map toString) ++ "]")]

end ariel

namespace ariel

/-! ## Decimal numerals -/

theorem digitChar_spec (d : Nat) (hd : d < 10) :
    isdigit (Nat.digitChar d) = true ∧ digitVal (Nat.digitChar d) = d := by
  interval_cases d <;> decide

theorem toDigitsCore_spec : ∀ (fuel n : Nat) (ds : List Char), n < fuel →
    ∃ pre, Nat.toDigitsCore 10 fuel n ds = pre ++ ds ∧ pre ≠ [] ∧
      (∀ c ∈ pre, isdigit c = true) ∧ parseDigits 0 pre = n := by
  intro fuel
  induction fuel with
  | zero => intro n ds h; omega
  | succ f ih =>
    intro n ds h
    have hd := digitChar_spec (n % 10) (Nat.mod_lt _ (by decide))
    by_cases h0 : n / 10 = 0
    · refine ⟨[Nat.digitChar (n % 10)], ?_, by simp, ?_, ?_⟩
      · simp [Nat.toDigitsCore, h0]
      · intro c hc
        rw [List.mem_singleton] at hc
        rw [hc]; exact hd.1
      · simp only [parseDigits, List.foldl_cons, List.foldl_nil, hd.2]
        omega
    · obtain ⟨pre, hpre, _, hdig, hval⟩ := ih (n / 10) (Nat.digitChar (n % 10) :: ds)
        (by omega)
      refine ⟨pre ++ [Nat.digitChar (n % 10)], ?_, by simp, ?_, ?_⟩
      · simp [Nat.toDigitsCore, h0, hpre]
      · intro c hc
        rcases List.mem_append.1 hc with hc | hc
        · exact hdig c hc
        · rw [List.mem_singleton] at hc
          rw [hc]; exact hd.1
      · have : parseDigits 0 (pre ++ [Nat.digitChar (n % 10)])
            = 10 * parseDigits 0 pre + digitVal (Nat.digitChar (n % 10)) := by
          simp [parseDigits, List.foldl_append]
        rw [this, hval, hd.2]
        omega

/-- The decimal numeral of a natural number: digits only, at least one, and they
write the number. -/
theorem toString_nat_spec (n : Nat) :
    (toString n).data ≠ [] ∧ (∀ c ∈ (toString n).data, isdigit c = true) ∧
      parseDigits 0 (toString n).data = n := by
  obtain ⟨pre, hpre, hne, hdig, hval⟩ := toDigitsCore_spec (n + 1) n [] (by omega)
  have : (toString n).data = pre := by
    show (Nat.repr n).data = pre
    simp [Nat.repr, Nat.toDigits, hpre, List.asString]
  rw [this]
  exact ⟨hne, hdig, hval⟩

theorem toString_nat_injective {a b : Nat} (h : toString a = toString b) : a = b := by
  rw [← (toString_nat_spec a).2.2, ← (toString_nat_spec b).2.2, h]

theorem append_cons_inj {α : Type} (x : α) :
    ∀ (l1 l2 r1 r2 : List α), x ∉ l1 → x ∉ l2 → l1 ++ x :: r1 = l2 ++ x :: r2 →
      l1 = l2 ∧ r1 = r2 := by
  intro l1
  induction l1 with
  | nil =>
    intro l2 r1 r2 _ h2 h
    cases l2 with
    | nil => simpa using h
    | cons y ys =>
      simp only [List.nil_append, List.cons_append, List.cons.injEq] at h
      exact absurd (by rw [h.1]; exact List.mem_cons_self _ _) h2
  | cons y ys ih =>
    intro l2 r1 r2 h1 h2 h
    cases l2 with
    | nil =>
      simp only [List.nil_append, List.cons_append, List.cons.injEq] at h
      exact absurd (by rw [← h.1]; exact List.mem_cons_self _ _) h1
    | cons z zs =>
      simp only [List.cons_append, List.cons.injEq] at h
      obtain ⟨hl, hr⟩ := ih zs r1 r2 (fun hm => h1 (List.mem_cons_of_mem _ hm))
        (fun hm => h2 (List.mem_cons_of_mem _ hm)) h.2
      exact ⟨by rw [h.1, hl], hr⟩

theorem dash_not_digit {l : List Char} (h : ∀ c ∈ l, isdigit c = true) : '-' ∉ l := by
  intro hm
  have := h _ hm
  revert this
  decide

theorem edgeKey_injective {i j a b : Nat} (h : Graph.edgeKey i j = Graph.edgeKey a b) :
    i = a ∧ j = b := by
  have hd : (toString i).data ++ '-' :: (toString j).data
      = (toString a).data ++ '-' :: (toString b).data := by
    have := congrArg String.data h
    simpa [Graph.edgeKey, String.data_append] using this
  obtain ⟨h1, h2⟩ := append_cons_inj '-' _ _ _ _
    (dash_not_digit (toString_nat_spec i).2.1) (dash_not_digit (toString_nat_spec a).2.1) hd
  exact ⟨toString_nat_injective (String.ext h1), toString_nat_injective (String.ext h2)⟩

end ariel

namespace ariel

/-! ## The scan of `edges` -/

theorem visited_succ (n i j : Nat) : visited n i (j + 1) = visited n i j ++ [(i, j)] := by
  simp [visited, List.range_succ, List.map_append]

theorem visited_row (n i : Nat) : visited n (i + 1) 0 = visited n i n := by
  simp [visited, List.range_succ, List.product, List.flatMap_append]

theorem edgeInv_skip {M : Matrix} {n i j : Nat} {s : EdgeScan} (h : EdgeInv M n i j s)
    (hk : keptAt M (i, j) = false) : EdgeInv M n i (j + 1) s := by
  refine ⟨?_, ?_⟩
  · rw [visited_succ, List.filter_append, h.1]
    simp [List.filter_cons, hk]
  · intro a b
    rw [h.2 a b]
    constructor
    · rintro ⟨h1, h2, h3, h4⟩
      exact ⟨by omega, h2, h3, h4⟩
    · rintro ⟨h1, h2, h3, h4⟩
      refine ⟨?_, h2, h3, h4⟩
      by_cases hab : a = i ∧ b = j
      · rw [hab.1, hab.2, hk] at h4
        cases h4
      · omega

theorem edgeInv_keep {M : Matrix} {n i j : Nat} {s : EdgeScan} (h : EdgeInv M n i j s)
    (hi : i < n) (hj : j < n) (hk : keptAt M (i, j) = true) :
    EdgeInv M n i (j + 1)
      { edgeList := s.edgeList ++ [(i, j, cell M i j)],
        uniqueEdges := Graph.edgeKey i j :: s.uniqueEdges } := by
  refine ⟨?_, ?_⟩
  · rw [visited_succ, List.filter_append, List.map_append, h.1]
    simp [List.filter_cons, hk, tripleAt]
  · intro a b
    rw [List.mem_cons, h.2 a b]
    constructor
    · rintro (hkey | ⟨h1, h2, h3, h4⟩)
      · obtain ⟨rfl, rfl⟩ := edgeKey_injective hkey
        exact ⟨by omega, hi, hj, hk⟩
      · exact ⟨by omega, h2, h3, h4⟩
    · rintro ⟨h1, h2, h3, h4⟩
      by_cases hab : a = i ∧ b = j
      · left; rw [hab.1, hab.2]
      · right; exact ⟨by omega, h2, h3, h4⟩

theorem edgeCell_step {M : Matrix} {n i j : Nat} (hM : IsSquare M n) (hi : i < n)
    (hj : j < n) {s : EdgeScan} (h : EdgeInv M n i j s) :
    ∃ s', Graph.edgeCell (loaded M) i j s = (.ok (), s') ∧ EdgeInv M n i (j + 1) s' := by
  have hget : getCell (loaded M).graph i j = some (cell M i j) := by
    rw [loaded_of_square hM]; exact getCell_of_square hM hi hj
  have hcont : s.uniqueEdges.contains (Graph.edgeKey j i) = true ↔
      (j < i ∧ keptAt M (j, i) = true) := by
    rw [List.contains_iff_exists_mem_beq]
    constructor
    · rintro ⟨x, hx, hbeq⟩
      have hxe : Graph.edgeKey j i = x := by simpa using hbeq
      rw [← hxe] at hx
      have := (h.2 j i).1 hx
      exact ⟨by omega, this.2.2.2⟩
    · rintro ⟨hlt, hk⟩
      exact ⟨_, (h.2 j i).2 ⟨Or.inl hlt, hj, hi, hk⟩, by simp⟩
  unfold Graph.edgeCell
  simp only [hget]
  by_cases hw : cell M i j = 0
  · have hk : keptAt M (i, j) = false := by simp [keptAt, hw]
    exact ⟨s, by simp [hw], edgeInv_skip h hk⟩
  · have hw' : (cell M i j != 0) = true := by simpa using hw
    simp only [hw', if_true]
    by_cases hc : s.uniqueEdges.contains (Graph.edgeKey j i) = true
    · obtain ⟨hlt, hkr⟩ := hcont.1 hc
      have hkr' : cell M j i ≠ 0 := by
        simp only [keptAt, decide_eq_true_eq] at hkr
        exact hkr.1
      have hk : keptAt M (i, j) = false := by
        simp only [keptAt, decide_eq_false_iff_not]
        rintro ⟨_, h1 | h1⟩
        · omega
        · exact hkr' h1
      exact ⟨s, by rw [hc]; rfl, edgeInv_skip h hk⟩
    · have hk : keptAt M (i, j) = true := by
        simp only [keptAt, decide_eq_true_eq]
        refine ⟨hw, ?_⟩
        by_cases hle : i ≤ j
        · exact Or.inl hle
        · right
          by_contra hne
          apply hc
          apply hcont.2
          refine ⟨by omega, ?_⟩
          simp only [keptAt, decide_eq_true_eq]
          exact ⟨hne, Or.inl (by omega)⟩
      refine ⟨_, ?_, edgeInv_keep h hi hj hk⟩
      rw [Bool.eq_false_iff.2 hc]
      rfl

theorem edges_loaded {M : Matrix} {n : Nat} (hM : IsSquare M n) :
    Graph.edges (loaded M) = .ok (((positions n).filter (keptAt M)).map (tripleAt M)) := by
  obtain ⟨s', hrun, hs'⟩ := forUpTo_ok
    (fun i s => forUpTo (fun j s => Graph.edgeCell (loaded M) i j s) n 0 s)
    (fun i s => EdgeInv M n i 0 s) n 0 { edgeList := [], uniqueEdges := [] }
    (by
      refine ⟨by simp [visited, List.product], ?_⟩
      intro a b
      simp)
    (by
      intro i s _ hi hs
      have hi : i < n := by omega
      obtain ⟨t, hrun, ht⟩ := forUpTo_ok (fun j s => Graph.edgeCell (loaded M) i j s)
        (fun j s => EdgeInv M n i j s) n 0 s hs
        (fun j t _ hj ht => edgeCell_step hM hi (by omega) ht)
      refine ⟨t, hrun, ?_⟩
      simp only [Nat.zero_add] at ht
      refine ⟨by rw [visited_row]; exact ht.1, ?_⟩
      intro a b
      rw [ht.2 a b]
      constructor
      · rintro ⟨h1, h2, h3, h4⟩
        exact ⟨by omega, h2, h3, h4⟩
      · rintro ⟨h1, h2, h3, h4⟩
        exact ⟨by omega, h2, h3, h4⟩)
  have hv : visited n (0 + n) 0 = positions n := by
    simp [visited, positions]
  have hnv : (loaded M).numVertices = n := by rw [loaded_of_square hM]
  unfold Graph.edges
  rw [hnv]
  unfold forEachCell
  rw [hrun]
  simp only
  rw [hs'.1, hv]

end ariel

namespace ariel

theorem mem_positions {n : Nat} {p : Nat × Nat} : p ∈ positions n ↔ p.1 < n ∧ p.2 < n := by
  obtain ⟨a, b⟩ := p
  simp [positions, List.mem_product]

theorem nodup_positions (n : Nat) : (positions n).Nodup :=
  List.Nodup.product (List.nodup_range n) (List.nodup_range n)

theorem keptAt_iff {M : Matrix} {p : Nat × Nat} :
    keptAt M p = true ↔ cell M p.1 p.2 ≠ 0 ∧ (p.1 ≤ p.2 ∨ cell M p.2 p.1 = 0) := by
  simp [keptAt]

theorem pairAt_iff {M : Matrix} {p : Nat × Nat} :
    pairAt M p = true ↔ p.1 ≤ p.2 ∧ (cell M p.1 p.2 ≠ 0 ∨ cell M p.2 p.1 ≠ 0) := by
  simp [pairAt]

/-- The kept positions and the unordered pairs with a non-zero cell are equally
many: sorting the two indices is a bijection between them. -/
theorem kept_count_eq_pair_count (M : Matrix) (n : Nat) :
    ((positions n).filter (keptAt M)).length = ((positions n).filter (pairAt M)).length := by
  have hnd : (((positions n).filter (keptAt M)).map sortPair).Nodup := by
    apply List.Nodup.map_on _ ((nodup_positions n).filter _)
    intro p hp q hq hpq
    obtain ⟨_, hpk⟩ := List.mem_filter.1 hp
    obtain ⟨_, hqk⟩ := List.mem_filter.1 hq
    rw [keptAt_iff] at hpk hqk
    obtain ⟨p1, p2⟩ := p
    obtain ⟨q1, q2⟩ := q
    simp only [sortPair] at hpq
    simp only at hpk hqk
    by_cases h1 : p1 ≤ p2 <;> by_cases h2 : q1 ≤ q2 <;>
      simp only [h1, h2, if_true, if_false, Prod.mk.injEq] at hpq
    · rw [hpq.1, hpq.2]
    · obtain ⟨rfl, rfl⟩ := hpq
      rcases hqk.2 with h | h
      · exact absurd h h2
      · exact absurd h hpk.1
    · obtain ⟨rfl, rfl⟩ := hpq
      rcases hpk.2 with h | h
      · exact absurd h h1
      · exact absurd h hqk.1
    · rw [hpq.1, hpq.2]
  have hperm : (((positions n).filter (keptAt M)).map sortPair).Perm
      ((positions n).filter (pairAt M)) := by
    rw [List.perm_ext_iff_of_nodup hnd ((nodup_positions n).filter _)]
    rintro ⟨a, b⟩
    simp only [List.mem_map, List.mem_filter, mem_positions, keptAt_iff, pairAt_iff]
    constructor
    · rintro ⟨⟨p1, p2⟩, ⟨⟨hp1, hp2⟩, hk⟩, hs⟩
      simp only at hp1 hp2 hk
      simp only [sortPair] at hs
      by_cases h1 : p1 ≤ p2
      · simp only [h1, if_true, Prod.mk.injEq] at hs
        obtain ⟨rfl, rfl⟩ := hs
        exact ⟨⟨hp1, hp2⟩, h1, Or.inl hk.1⟩
      · simp only [h1, if_false, Prod.mk.injEq] at hs
        obtain ⟨rfl, rfl⟩ := hs
        exact ⟨⟨hp2, hp1⟩, by omega, Or.inr hk.1⟩
    · rintro ⟨⟨ha, hb⟩, hle, hnz⟩
      by_cases hab : cell M a b ≠ 0
      · exact ⟨(a, b), ⟨⟨ha, hb⟩, hab, Or.inl hle⟩, by simp [sortPair, hle]⟩
      · have hab0 : cell M a b = 0 := by simpa using hab
        have hba : cell M b a ≠ 0 := by
          rcases hnz with h | h
          · exact absurd h hab
          · exact h
        refine ⟨(b, a), ⟨⟨hb, ha⟩, hba, Or.inr hab0⟩, ?_⟩
        by_cases hba' : b ≤ a
        · have : a = b := by omega
          subst this
          simp [sortPair]
        · simp [sortPair, hba']
  rw [← hperm.length_eq, List.length_map]

end ariel

namespace ariel

/-! ## Stream input: the loops end within their fuel -/

theorem length_dropWhile_le {α : Type} (p : α → Bool) (l : List α) :
    (l.dropWhile p).length ≤ l.length :=
  (List.dropWhile_suffix p).length_le

theorem length_dropWhile_lt {α : Type} (p : α → Bool) (l : List α)
    (h : l.takeWhile p ≠ []) : (l.dropWhile p).length < l.length := by
  have h1 := congrArg List.length (List.takeWhile_append_dropWhile p l)
  rw [List.length_append] at h1
  have h2 : 0 < (l.takeWhile p).length := List.length_pos.2 h
  omega

theorem stripSign_length_le (s : List Char) : (stripSign s).2.length ≤ s.length := by
  unfold stripSign
  split <;> simp

theorem extractInt_eq (s : List Char) :
    extractInt s =
      if ((stripSign (s.dropWhile isspace)).2.takeWhile isdigit).isEmpty then none
      else if signedValue (stripSign (s.dropWhile isspace)).1
            ((stripSign (s.dropWhile isspace)).2.takeWhile isdigit) < INT_MIN ∨
          signedValue (stripSign (s.dropWhile isspace)).1
            ((stripSign (s.dropWhile isspace)).2.takeWhile isdigit) > INT_MAX then none
      else some (signedValue (stripSign (s.dropWhile isspace)).1
            ((stripSign (s.dropWhile isspace)).2.takeWhile isdigit),
          (stripSign (s.dropWhile isspace)).2.dropWhile isdigit) := rfl

theorem extractInt_length {s rest : List Char} {v : Int}
    (h : extractInt s = some (v, rest)) : rest.length < s.length := by
  rw [extractInt_eq] at h
  by_cases hds : ((stripSign (s.dropWhile isspace)).2.takeWhile isdigit).isEmpty = true
  · rw [if_pos hds] at h; cases h
  · rw [if_neg hds] at h
    split at h
    · cases h
    · simp only [Option.some.injEq, Prod.mk.injEq] at h
      rw [← h.2]
      have hne : (stripSign (s.dropWhile isspace)).2.takeWhile isdigit ≠ [] := by
        intro hc
        exact hds (by rw [hc]; rfl)
      have h1 := length_dropWhile_lt isdigit _ hne
      have h2 := length_dropWhile_le isspace s
      have h3 := stripSign_length_le (s.dropWhile isspace)
      omega

theorem readRow_total : ∀ (fuel : Nat) (s : List Char) (row : List Int),
    s.length < fuel → ∃ r, readRow fuel s row = some r := by
  intro fuel
  induction fuel with
  | zero => intro s row h; omega
  | succ f ih =>
    intro s row h
    unfold readRow
    cases he : extractInt s with
    | none => exact ⟨row, rfl⟩
    | some p =>
      obtain ⟨v, rest⟩ := p
      have := extractInt_length he
      exact ih rest _ (by omega)

theorem readRow_mono : ∀ (fuel : Nat) (s : List Char) (row r : List Int),
    readRow fuel s row = some r → ∀ k, readRow (fuel + k) s row = some r := by
  intro fuel
  induction fuel with
  | zero => intro s row r h; cases h
  | succ f ih =>
    intro s row r h k
    have hk : f + 1 + k = (f + k) + 1 := by omega
    rw [hk]
    unfold readRow at h ⊢
    cases he : extractInt s with
    | none => rw [he] at h; exact h
    | some p =>
      obtain ⟨v, rest⟩ := p
      rw [he] at h
      exact ih rest _ r h k

theorem takeLine_length_le : ∀ (is : List Char), (takeLine is).2.length ≤ is.length := by
  intro is
  induction is with
  | nil => simp [takeLine]
  | cons c cs ih =>
    unfold takeLine
    split
    · simp
    · simp only [List.length_cons]
      omega

theorem getline_length {is line rest : List Char} (h : getline is = some (line, rest)) :
    rest.length < is.length := by
  cases is with
  | nil => cases h
  | cons c cs =>
    simp only [getline, Option.some.injEq] at h
    have hr : rest = (takeLine (c :: cs)).2 := by rw [h]
    rw [hr]
    unfold takeLine
    split
    · simp
    · have := takeLine_length_le cs
      simp only [List.length_cons]
      omega

theorem readLines_total : ∀ (fuel : Nat) (is : List Char) (t : Matrix),
    is.length < fuel → ∃ r, readLines fuel is t = some r := by
  intro fuel
  induction fuel with
  | zero => intro is t h; omega
  | succ f ih =>
    intro is t h
    unfold readLines
    cases hg : getline is with
    | none => exact ⟨t, rfl⟩
    | some p =>
      obtain ⟨line, rest⟩ := p
      obtain ⟨row, hrow⟩ := readRow_total (line.length + 1) line [] (by omega)
      have := getline_length hg
      simp only [hrow]
      exact ih rest _ (by omega)

theorem readLines_mono : ∀ (fuel : Nat) (is : List Char) (t r : Matrix),
    readLines fuel is t = some r → ∀ k, readLines (fuel + k) is t = some r := by
  intro fuel
  induction fuel with
  | zero => intro is t r h; cases h
  | succ f ih =>
    intro is t r h k
    have hk : f + 1 + k = (f + k) + 1 := by omega
    rw [hk]
    unfold readLines at h ⊢
    cases hg : getline is with
    | none => rw [hg] at h; exact h
    | some p =>
      obtain ⟨line, rest⟩ := p
      rw [hg] at h
      simp only at h ⊢
      cases hrow : readRow (line.length + 1) line [] with
      | none => rw [hrow] at h; cases h
      | some row =>
        rw [hrow] at h
        exact ih rest _ r h k

/-- The lines read with some fuel are the lines read with the fuel of
`operator>>`. -/
theorem readLines_of_fuel {fuel : Nat} {is : List Char} {t r : Matrix}
    (h : readLines fuel is t = some r) : readLines (is.length + 1) is t = some r := by
  obtain ⟨r', hr'⟩ := readLines_total (is.length + 1) is t (by omega)
  have h1 := readLines_mono _ _ _ _ h (is.length + 1)
  have h2 := readLines_mono _ _ _ _ hr' fuel
  have : fuel + (is.length + 1) = is.length + 1 + fuel := by omega
  rw [this, h2] at h1
  rw [hr', h1]

theorem readRow_of_fuel {fuel : Nat} {s : List Char} {row r : List Int}
    (h : readRow fuel s row = some r) : readRow (s.length + 1) s row = some r := by
  obtain ⟨r', hr'⟩ := readRow_total (s.length + 1) s row (by omega)
  have h1 := readRow_mono _ _ _ _ h (s.length + 1)
  have h2 := readRow_mono _ _ _ _ hr' fuel
  have : fuel + (s.length + 1) = s.length + 1 + fuel := by omega
  rw [this, h2] at h1
  rw [hr', h1]

/-- The friend `operator>>` always returns or throws: its loops end within their
fuel. -/
theorem operator_shr_total (is : String) (g : Graph) :
    ∃ r, Graph.operator_shr is g = some r := by
  obtain ⟨t, ht⟩ := readLines_total (is.length + 1) is.data [] (by
    show is.data.length < is.data.length + 1
    omega)
  unfold Graph.operator_shr
  rw [ht]
  simp only
  split
  · exact ⟨_, rfl⟩
  · exact ⟨_, rfl⟩

end ariel

namespace ariel

/-! ## Stream output -/

theorem forUpTo_eq_foldl {σ : Type} (body : Nat → σ → Except Exn Unit × σ)
    (step : σ → Nat → σ) :
    ∀ (count start : Nat) (s : σ),
      (∀ i s, start ≤ i → i < start + count → body i s = (.ok (), step s i)) →
      forUpTo body count start s = (.ok (), (List.range' start count).foldl step s) := by
  intro count
  induction count with
  | zero => intro start s _; rfl
  | succ k ih =>
    intro start s h
    simp only [forUpTo, h start s (le_refl _) (by omega), List.range'_succ, List.foldl_cons]
    exact ih (start + 1) _ (fun i t h1 h2 => h i t (by omega) (by omega))

/-- A `forUpTo` loop that appends `get j` for `j = 0 .. L - 1`, and `sep` after each
but the last, appends the items joined by `sep`. -/
theorem forUpTo_sep (L : Nat) (get : Nat → String) (sep : String)
    (body : Nat → String → Except Exn Unit × String)
    (hbody : ∀ j os, j < L →
      body j os = (.ok (), if j < L - 1 then os ++ get j ++ sep else os ++ get j))
    (os : String) :
    forUpTo body L 0 os = (.ok (), os ++ String.intercalate sep ((List.range L).map get)) := by
  rw [forUpTo_eq_foldl body
    (fun os j => if j != L - 1 then os ++ get j ++ sep else os ++ get j) L 0 os
    (fun j os _ hj => by
      have hj : j < L := by omega
      rw [hbody j os hj]
      by_cases h : j < L - 1
      · have h' : (j != L - 1) = true := by simp; omega
        simp [h, h']
      · have h' : (j != L - 1) = false := by simp; omega
        simp [h, h']),
    ← List.range_eq_range', foldl_sep L get sep _ (fun _ _ => rfl)]

theorem operator_shl_loaded {M : Matrix} {n : Nat} (hM : IsSquare M n) (os : String) :
    Graph.operator_shl os (loaded M) =
      (.ok (), os ++ String.intercalate "\n"
        (M.map (fun row => "[" ++ String.intercalate " " (row.map toString) ++ "]"))) := by
  have hrow : ∀ i os, i < n →
      Graph.shlRow (loaded M) i os =
        (.ok (), if i < n - 1
          then os ++ ("[" ++ String.intercalate " " ((M.getD i []).map toString) ++ "]") ++ "\n"
          else os ++ ("[" ++ String.intercalate " " ((M.getD i []).map toString) ++ "]")) := by
    intro i os hi
    obtain ⟨row, hr, hl⟩ := hM.row hi
    have hcells := forUpTo_sep n (fun j => toString (cell M i j)) " "
      (fun j os => Graph.shlCell (loaded M) i j os)
      (fun j os hj => by
        simp only [Graph.shlCell, loaded_of_square hM, getCell_of_square hM hi hj])
      (os ++ "[")
    have hmap : (List.range n).map (fun j => toString (cell M i j))
        = (M.getD i []).map toString := by
      have hlen : (M.getD i []).length = n := by
        rw [List.getD_eq_getElem?_getD, hr]; exact hl
      have := range_map_getD (M.getD i []) (0 : Int) (fun x => toString x)
      rw [hlen] at this
      exact this
    rw [hmap] at hcells
    have hnv : (loaded M).numVertices = n := by rw [loaded_of_square hM]
    unfold Graph.shlRow
    rw [hnv, hcells]
    by_cases h : i < n - 1 <;> simp [h, String.append_assoc]
  have hnv : (loaded M).numVertices = n := by rw [loaded_of_square hM]
  unfold Graph.operator_shl
  rw [hnv, forUpTo_sep n
    (fun i => "[" ++ String.intercalate " " ((M.getD i []).map toString) ++ "]") "\n"
    (fun i os => Graph.shlRow (loaded M) i os) (fun i os hi => hrow i os hi) os]
  have hmap := range_map_getD M []
    (fun row => "[" ++ String.intercalate " " (row.map toString) ++ "]")
  rw [hM.1] at hmap
  rw [hmap]

end ariel

namespace ariel

/-! ## Stream input: reading decimal numerals back -/

theorem intercalate_go_append (a sep : String) (l : List String) :
    ∀ t, String.intercalate.go (a ++ t) sep l = a ++ String.intercalate.go t sep l := by
  induction l with
  | nil => intro t; rfl
  | cons x xs ih =>
    intro t
    show String.intercalate.go (a ++ t ++ sep ++ x) sep xs
      = a ++ String.intercalate.go (t ++ sep ++ x) sep xs
    rw [← ih]
    simp only [String.append_assoc]

theorem intercalate_cons_cons (sep a b : String) (l : List String) :
    String.intercalate sep (a :: b :: l) = a ++ sep ++ String.intercalate sep (b :: l) := by
  show String.intercalate.go (a ++ sep ++ b) sep l = a ++ sep ++ String.intercalate.go b sep l
  rw [intercalate_go_append]

theorem isdigit_not_isspace {c : Char} (h : isdigit c = true) : isspace c = false := by
  simp only [isdigit, isspace, decide_eq_true_eq, decide_eq_false_iff_not] at *
  omega

theorem stripSign_digit {c : Char} (t : List Char) (h : isdigit c = true) :
    stripSign (c :: t) = (false, c :: t) := by
  have h1 : c ≠ '-' := by
    rintro rfl
    revert h
    decide
  have h2 : c ≠ '+' := by
    rintro rfl
    revert h
    decide
  unfold stripSign
  split <;> simp_all

theorem takeWhile_digits {pre rest : List Char} (hpre : ∀ c ∈ pre, isdigit c = true)
    (hrest : ∀ c t, rest = c :: t → isdigit c = false) :
    (pre ++ rest).takeWhile isdigit = pre ∧ (pre ++ rest).dropWhile isdigit = rest := by
  rw [List.takeWhile_append_of_pos hpre, List.dropWhile_append_of_pos hpre]
  cases rest with
  | nil => simp
  | cons c t => simp [List.takeWhile_cons, List.dropWhile_cons, hrest c t rfl]

theorem extractInt_digits {ds rest : List Char} (hne : ds ≠ [])
    (hds : ∀ c ∈ ds, isdigit c = true) (hrest : ∀ c t, rest = c :: t → isdigit c = false)
    (hmax : (parseDigits 0 ds : Int) ≤ INT_MAX) :
    extractInt (ds ++ rest) = some ((parseDigits 0 ds : Int), rest) := by
  obtain ⟨d, ds', rfl⟩ := List.exists_cons_of_ne_nil hne
  have hd := hds d (List.mem_cons_self _ _)
  have hdrop : ((d :: ds') ++ rest).dropWhile isspace = (d :: ds') ++ rest := by
    simp [List.dropWhile_cons, isdigit_not_isspace hd]
  have hsign : stripSign ((d :: ds') ++ rest) = (false, (d :: ds') ++ rest) :=
    stripSign_digit _ hd
  obtain ⟨htake, hdropd⟩ := takeWhile_digits hds hrest
  rw [extractInt_eq, hdrop, hsign]
  simp only [htake, hdropd, signedValue]
  have h1 : ¬ ((parseDigits 0 (d :: ds') : Int) < INT_MIN ∨
      (parseDigits 0 (d :: ds') : Int) > INT_MAX) := by
    unfold INT_MIN
    unfold INT_MAX at hmax ⊢
    omega
  simp [h1]

theorem extractInt_minus_digits {ds rest : List Char} (hne : ds ≠ [])
    (hds : ∀ c ∈ ds, isdigit c = true) (hrest : ∀ c t, rest = c :: t → isdigit c = false)
    (hmin : INT_MIN ≤ -(parseDigits 0 ds : Int)) :
    extractInt ('-' :: (ds ++ rest)) = some (-(parseDigits 0 ds : Int), rest) := by
  have hdrop : ('-' :: (ds ++ rest)).dropWhile isspace = '-' :: (ds ++ rest) := by
    rw [List.dropWhile_cons]
    have : isspace '-' = false := by decide
    simp [this]
  have hsign : stripSign ('-' :: (ds ++ rest)) = (true, ds ++ rest) := rfl
  obtain ⟨htake, hdropd⟩ := takeWhile_digits hds hrest
  rw [extractInt_eq, hdrop, hsign]
  simp only [htake, hdropd, signedValue]
  have h1 : ¬ (-(parseDigits 0 ds : Int) < INT_MIN ∨ -(parseDigits 0 ds : Int) > INT_MAX) := by
    unfold INT_MAX
    unfold INT_MIN at hmin ⊢
    omega
  have h2 : ds.isEmpty = false := by
    cases ds with
    | nil => exact absurd rfl hne
    | cons _ _ => rfl
  simp [h1, h2]

/-- The characters of the decimal numeral of an `int`. -/
theorem toString_int_data (x : Int) :
    ∃ ds, ds ≠ [] ∧ (∀ c ∈ ds, isdigit c = true) ∧
      ((0 ≤ x ∧ (toString x).data = ds ∧ (parseDigits 0 ds : Int) = x) ∨
       (x < 0 ∧ (toString x).data = '-' :: ds ∧ -(parseDigits 0 ds : Int) = x)) := by
  cases x with
  | ofNat m =>
    obtain ⟨h1, h2, h3⟩ := toString_nat_spec m
    refine ⟨(toString m).data, h1, h2, Or.inl ⟨Int.ofNat_nonneg m, rfl, ?_⟩⟩
    rw [h3]; rfl
  | negSucc m =>
    obtain ⟨h1, h2, h3⟩ := toString_nat_spec (m + 1)
    refine ⟨(toString (m + 1)).data, h1, h2, Or.inr ⟨Int.negSucc_lt_zero m, ?_, ?_⟩⟩
    · show ("-" ++ toString (m + 1)).data = _
      rw [String.data_append]; rfl
    · rw [h3]; rfl

/-- Extracting an `int` from its decimal numeral, followed by the end of the input
or by a character that is not a digit, yields the value and leaves the rest. -/
theorem extractInt_toString {x : Int} (hx : isInt32 x) {rest : List Char}
    (hrest : ∀ c t, rest = c :: t → isdigit c = false) :
    extractInt ((toString x).data ++ rest) = some (x, rest) := by
  obtain ⟨ds, hne, hds, h | h⟩ := toString_int_data x
  · obtain ⟨_, hdata, hval⟩ := h
    rw [hdata, extractInt_digits hne hds hrest (by rw [hval]; exact hx.2), hval]
  · obtain ⟨_, hdata, hval⟩ := h
    rw [hdata, List.cons_append,
      extractInt_minus_digits hne hds hrest (by rw [hval]; exact hx.1), hval]

theorem extractInt_space (s : List Char) : extractInt (' ' :: s) = extractInt s := by
  have : (' ' :: s).dropWhile isspace = s.dropWhile isspace := by
    rw [List.dropWhile_cons]
    have : isspace ' ' = true := by decide
    simp [this]
  rw [extractInt_eq, extractInt_eq, this]

theorem extractInt_nil : extractInt [] = none := rfl

theorem readRow_space (fuel : Nat) (s : List Char) (row : List Int) :
    readRow fuel (' ' :: s) row = readRow fuel s row := by
  cases fuel with
  | zero => rfl
  | succ f => simp only [readRow, extractInt_space]

/-- Reading a row back from its values written in decimal and separated by single
spaces. -/
theorem readRow_joined : ∀ (row : List Int), row ≠ [] → (∀ x ∈ row, isInt32 x) →
    ∀ acc, ∃ fuel,
      readRow fuel (String.intercalate " " (row.map toString)).data acc = some (acc ++ row) := by
  intro row
  induction row with
  | nil => intro h; exact absurd rfl h
  | cons x xs ih =>
    intro _ hall acc
    have hx := hall x (List.mem_cons_self _ _)
    cases xs with
    | nil =>
      refine ⟨2, ?_⟩
      have hd : (String.intercalate " " ([x].map toString)).data
          = (toString x).data ++ [] := by
        simp [String.intercalate, String.intercalate.go]
      have he := @extractInt_toString x hx [] (fun c t h => by simp at h)
      rw [hd]
      simp only [readRow, he, extractInt_nil]
    | cons y ys =>
      obtain ⟨fuel, hfuel⟩ := ih (by simp)
        (fun z hz => hall z (List.mem_cons_of_mem _ hz)) (acc ++ [x])
      refine ⟨fuel + 1, ?_⟩
      have hd : (String.intercalate " " ((x :: y :: ys).map toString)).data
          = (toString x).data ++
            (' ' :: (String.intercalate " " ((y :: ys).map toString)).data) := by
        simp only [List.map_cons, intercalate_cons_cons, String.data_append]
        simp
      have he := @extractInt_toString x hx
        (' ' :: (String.intercalate " " ((y :: ys).map toString)).data)
        (fun c t h => by
          simp only [List.cons.injEq] at h
          rw [← h.1]; decide)
      rw [hd]
      simp only [readRow, he]
      rw [readRow_space, hfuel]
      simp

end ariel

namespace ariel

/-! ## Stream input: reading lines back -/

theorem toString_int_chars (x : Int) :
    (toString x).data ≠ [] ∧ ∀ c ∈ (toString x).data, c ≠ '\n' := by
  obtain ⟨ds, hne, hds, h | h⟩ := toString_int_data x
  · rw [h.2.1]
    refine ⟨hne, ?_⟩
    rintro c hc rfl
    have := hds _ hc
    revert this
    decide
  · rw [h.2.1]
    refine ⟨by simp, ?_⟩
    rintro c hc rfl
    rcases List.mem_cons.1 hc with hc | hc
    · revert hc; decide
    · have := hds _ hc
      revert this
      decide

theorem joined_chars : ∀ (row : List Int), row ≠ [] →
    (String.intercalate " " (row.map toString)).data ≠ [] ∧
      ∀ c ∈ (String.intercalate " " (row.map toString)).data, c ≠ '\n' := by
  intro row
  induction row with
  | nil => intro h; exact absurd rfl h
  | cons x xs ih =>
    intro _
    obtain ⟨hxne, hx⟩ := toString_int_chars x
    cases xs with
    | nil =>
      have hd : (String.intercalate " " ([x].map toString)).data = (toString x).data := by
        simp [String.intercalate, String.intercalate.go]
      rw [hd]
      exact ⟨hxne, hx⟩
    | cons y ys =>
      obtain ⟨_, hrest⟩ := ih (by simp)
      have hd : (String.intercalate " " ((x :: y :: ys).map toString)).data
          = (toString x).data ++
            (' ' :: (String.intercalate " " ((y :: ys).map toString)).data) := by
        simp only [List.map_cons, intercalate_cons_cons, String.data_append]
        simp
      rw [hd]
      refine ⟨by simp [hxne], ?_⟩
      intro c hc
      rcases List.mem_append.1 hc with hc | hc
      · exact hx c hc
      · rcases List.mem_cons.1 hc with hc | hc
        · rw [hc]; decide
        · exact hrest c hc

theorem takeLine_append : ∀ (l rest : List Char), (∀ c ∈ l, c ≠ '\n') →
    takeLine (l ++ '\n' :: rest) = (l, rest) := by
  intro l
  induction l with
  | nil => intro rest _; simp [takeLine]
  | cons c cs ih =>
    intro rest h
    have hc : c ≠ '\n' := h c (List.mem_cons_self _ _)
    have := ih rest (fun d hd => h d (List.mem_cons_of_mem _ hd))
    simp [takeLine, hc, this]

theorem takeLine_no_newline : ∀ (l : List Char), (∀ c ∈ l, c ≠ '\n') →
    takeLine l = (l, []) := by
  intro l
  induction l with
  | nil => intro _; rfl
  | cons c cs ih =>
    intro h
    have hc : c ≠ '\n' := h c (List.mem_cons_self _ _)
    have := ih (fun d hd => h d (List.mem_cons_of_mem _ hd))
    simp [takeLine, hc, this]

theorem getline_nil : getline [] = none := rfl

theorem getline_of_ne_nil {is : List Char} (h : is ≠ []) : getline is = some (takeLine is) := by
  cases is with
  | nil => exact absurd rfl h
  | cons _ _ => rfl

/-- Reading a matrix back from its rows written one per line. -/
theorem readLines_text : ∀ (M : Matrix), M ≠ [] →
    (∀ row ∈ M, row ≠ [] ∧ ∀ x ∈ row, isInt32 x) →
    ∀ t, ∃ fuel,
      readLines fuel
        (String.intercalate "\n"
          (M.map (fun row => String.intercalate " " (row.map toString)))).data t
        = some (t ++ M) := by
  intro M
  induction M with
  | nil => intro h; exact absurd rfl h
  | cons r rs ih =>
    intro _ hall t
    obtain ⟨hrne, hrint⟩ := hall r (List.mem_cons_self _ _)
    obtain ⟨hlne, hlchars⟩ := joined_chars r hrne
    obtain ⟨f0, hf0⟩ := readRow_joined r hrne hrint []
    have hrow := readRow_of_fuel hf0
    simp only [List.nil_append] at hrow
    cases rs with
    | nil =>
      refine ⟨2, ?_⟩
      have hd : (String.intercalate "\n"
          ([r].map (fun row => String.intercalate " " (row.map toString)))).data
          = (String.intercalate " " (r.map toString)).data := by
        simp [String.intercalate, String.intercalate.go]
      rw [hd]
      simp only [readLines, getline_of_ne_nil hlne, takeLine_no_newline _ hlchars, hrow,
        getline_nil]
    | cons r2 rs2 =>
      obtain ⟨fuel, hfuel⟩ := ih (by simp)
        (fun z hz => hall z (List.mem_cons_of_mem _ hz)) (t ++ [r])
      refine ⟨fuel + 1, ?_⟩
      have hd : (String.intercalate "\n"
          ((r :: r2 :: rs2).map (fun row => String.intercalate " " (row.map toString)))).data
          = (String.intercalate " " (r.map toString)).data ++
            ('\n' :: (String.intercalate "\n"
              ((r2 :: rs2).map
                (fun row => String.intercalate " " (row.map toString)))).data) := by
        simp only [List.map_cons, intercalate_cons_cons, String.data_append]
        simp
      rw [hd]
      simp only [readLines, getline_of_ne_nil (List.append_ne_nil_of_left_ne_nil hlne _),
        takeLine_append _ _ hlchars, hrow, hfuel]
      simp

theorem operator_shr_text {M : Matrix} {n : Nat} (hn : 1 ≤ n) (hM : IsSquare M n)
    (hint : int32Matrix M) (g : Graph) :
    Graph.operator_shr
        (String.intercalate "\n"
          (M.map (fun row => String.intercalate " " (row.map toString)))) g
      = some (.ok (), { graph := M, numVertices := n, adjacency_matrix := M }) := by
  have hne : M ≠ [] := by
    intro h
    have := hM.1
    rw [h] at this
    simp at this
    omega
  obtain ⟨fuel, hfuel⟩ := readLines_text M hne
    (fun row hrow => ⟨by
      intro h
      have := hM.2 row hrow
      rw [h] at this
      simp at this
      omega, hint row hrow⟩) []
  have hread := readLines_of_fuel hfuel
  simp only [List.nil_append] at hread
  have hsq : Graph.isSquareMatrix M = true := by
    rw [isSquareMatrix_iff, hM.1]; exact hM
  unfold Graph.operator_shr
  rw [show (String.intercalate "\n"
      (M.map (fun row => String.intercalate " " (row.map toString)))).length
    = (String.intercalate "\n"
      (M.map (fun row => String.intercalate " " (row.map toString)))).data.length from rfl,
    hread]
  simp [hsq, loadGraph_of_square g hM]

/-! ## Stream input: a line that starts with a bracket -/

theorem readLines_prefix : ∀ (fuel : Nat) (is : List Char) (t r : Matrix),
    readLines fuel is t = some r → ∃ more, r = t ++ more := by
  intro fuel
  induction fuel with
  | zero => intro is t r h; cases h
  | succ f ih =>
    intro is t r h
    unfold readLines at h
    cases hg : getline is with
    | none =>
      rw [hg] at h
      simp only [Option.some.injEq] at h
      exact ⟨[], by simp [h]⟩
    | some p =>
      obtain ⟨line, rest⟩ := p
      rw [hg] at h
      simp only at h
      cases hrow : readRow (line.length + 1) line [] with
      | none => rw [hrow] at h; cases h
      | some row =>
        rw [hrow] at h
        obtain ⟨more, hmore⟩ := ih rest _ r h
        exact ⟨row :: more, by simp [hmore]⟩

theorem extractInt_bracket (l : List Char) : extractInt ('[' :: l) = none := by
  have hdrop : ('[' :: l).dropWhile isspace = '[' :: l := by
    rw [List.dropWhile_cons]
    have : isspace '[' = false := by decide
    simp [this]
  have htake : ('[' :: l).takeWhile isdigit = [] := by
    rw [List.takeWhile_cons]
    have : isdigit '[' = false := by decide
    simp [this]
  rw [extractInt_eq, hdrop]
  have hs : stripSign ('[' :: l) = (false, '[' :: l) := rfl
  rw [hs]
  simp [htake]

theorem takeLine_bracket (l : List Char) :
    ∃ line rest, takeLine ('[' :: l) = ('[' :: line, rest) := by
  have : ('[' : Char) ≠ '\n' := by decide
  exact ⟨(takeLine l).1, (takeLine l).2, by simp [takeLine, this]⟩

/-- A text whose first character is `'['` is read as rows the first of which is
empty, and is rejected as not square. -/
theorem operator_shr_bracket (is : String) (l : List Char) (h : is.data = '[' :: l)
    (g : Graph) : Graph.operator_shr is g = some (.error .invalid_argument, g) := by
  obtain ⟨t, ht⟩ := readLines_total (is.length + 1) is.data [] (by
    show is.data.length < is.data.length + 1
    omega)
  have hfirst : ∃ more, t = [] :: more := by
    have ht' := ht
    rw [h] at ht'
    unfold readLines at ht'
    obtain ⟨line, rest, hline⟩ := takeLine_bracket l
    simp only [getline, hline] at ht'
    have hrow : readRow (('[' :: line).length + 1) ('[' :: line) [] = some [] := by
      simp only [readRow, extractInt_bracket]
    rw [hrow] at ht'
    simp only [List.nil_append] at ht'
    obtain ⟨more, hmore⟩ := readLines_prefix _ _ _ _ ht'
    exact ⟨more, by simp [hmore]⟩
  obtain ⟨more, rfl⟩ := hfirst
  have hsq : Graph.isSquareMatrix ([] :: more) = false := by
    simp [Graph.isSquareMatrix, Graph.isSquareRows]
  unfold Graph.operator_shr
  rw [ht]
  simp [hsq]

theorem rendered_bracket (M : Matrix) (hne : M ≠ []) (sep : String) :
    ∃ l, (String.intercalate "\n"
      (M.map (fun row => "[" ++ String.intercalate sep (row.map toString) ++ "]"))).data
      = '[' :: l := by
  cases M with
  | nil => exact absurd rfl hne
  | cons r rs =>
    refine ⟨((String.intercalate.go (String.intercalate sep (r.map toString) ++ "]") "\n"
      (rs.map (fun row => "[" ++ String.intercalate sep (row.map toString) ++ "]")))).data, ?_⟩
    simp only [List.map_cons, String.intercalate]
    rw [String.append_assoc, intercalate_go_append, String.data_append]
    rfl

end ariel

namespace ariel

/-- C11 as stated fails at `INT_MIN / -1`: for `g` loaded from `[[INT_MIN]]` the
scalar `-1` is not zero, yet neither `g / -1` nor `g /= -1` returns a graph: the
quotient 2147483648 is no `int` and the division faults. -/
theorem C11_counterexample_int_min_by_minus_one :
    (loaded [[-2147483648]]).operator_div (-1) = .error .sigfpe ∧
    ((loaded [[-2147483648]]).operator_div_assign (-1)).1 = .error .sigfpe ∧
    (-1 : Int) ≠ 0 ∧ int32Matrix [[-2147483648]] ∧ isInt32 (-1) ∧
    Int.tdiv (-2147483648) (-1) = 2147483648 ∧ ¬ isInt32 (Int.tdiv (-2147483648) (-1)) :=
  ⟨rfl, rfl, by decide, by decide, by decide, by decide, by decide⟩

/-- C11, amended: for a graph `g` loaded from an `n × n` matrix and every `k`, `g / k`
and `g /= k` throw `std::invalid_argument` exactly when `k == 0`; when `k != 0` and
not (`k == -1` while some cell of `g` is `INT_MIN`), both return, the vertex count
stays `n`, and every cell of `getGraph()` is the quotient `g[i][j] / k` truncated
toward zero (`-7 / 2 == -3`), which for `int` operands is an `int`; when `k == -1`
and some cell of `g` is `INT_MIN`, neither returns or throws: the division faults.
`operator/` is a const member: it returns a new graph and has no access to assign to
the receiver. -/
theorem C11_division_unless_int_min_by_minus_one (A : Matrix) (n : Nat)
    (hA : IsSquare A n) (k : Int) :
    ((loaded A).operator_div k = .error .invalid_argument ↔ k = 0) ∧
    (((loaded A).operator_div_assign k).1 = .error .invalid_argument ↔ k = 0) ∧
    (k ≠ 0 → (∀ i j, i < n → j < n → ¬ (cell A i j = INT_MIN ∧ k = -1)) →
      ∃ r g,
        (loaded A).operator_div k = .ok r ∧ r.vertices = n ∧
        r.getGraph = tabulate n (fun i j => Int.tdiv (cell A i j) k) ∧
        (loaded A).operator_div_assign k = (.ok (), g) ∧ g.vertices = n ∧
        g.getGraph = tabulate n (fun i j => Int.tdiv (cell A i j) k) ∧
        (int32Matrix A → ∀ i j, i < n → j < n → isInt32 (cell r.getGraph i j))) ∧
    ((∃ i j, i < n ∧ j < n ∧ cell A i j = INT_MIN) →
      (loaded A).operator_div (-1) = .error .sigfpe ∧
      ((loaded A).operator_div_assign (-1)).1 = .error .sigfpe) ∧
    Int.tdiv (-7) 2 = -3 ∧ intDiv (-7) 2 = .ok (-3) := by
  have hL := loaded_of_square hA
  have hG : IsSquare (loaded A).graph n := by rw [hL]; exact hA
  have hN : (loaded A).numVertices = n := by rw [hL]
  have hgr : (loaded A).graph = A := by rw [hL]
  refine ⟨?_, ?_, ?_, ?_, by decide, rfl⟩
  · constructor
    · intro h
      by_contra hk
      rcases operator_div_shape hG hN hk with ⟨g, hg, _⟩ | hf
      · rw [hg] at h; cases h
      · rw [hf] at h; cases h
    · intro hk
      simp [Graph.operator_div, hk]
  · constructor
    · intro h
      by_contra hk
      rcases (operator_div_assign_shape hG hN hk).1 with hg | hf
      · rw [hg] at h; cases h
      · rw [hf] at h; cases h
    · intro hk
      simp [Graph.operator_div_assign, hk]
  · intro hk hq
    have hq' : ∀ i j, i < n → j < n → ¬ (cell (loaded A).graph i j = INT_MIN ∧ k = -1) := by
      rw [hgr]; exact hq
    refine ⟨_, _, operator_div_sq hG hN hk hq', rfl, by rw [hgr]; rfl,
      operator_div_assign_sq hG hN hk hq', hN, by rw [hgr]; rfl, ?_⟩
    intro hint i j hi hj
    show isInt32 (cell (tabulate n _) i j)
    rw [cell_tabulate _ hi hj, hgr]
    exact isInt32_tdiv (isInt32_cell hA hint hi hj) hk (hq i j hi hj)
  · intro hex
    have hex' : ∃ i j, i < n ∧ j < n ∧ cell (loaded A).graph i j = INT_MIN := by
      rw [hgr]; exact hex
    exact ⟨operator_div_fault hG hN hex', operator_div_assign_fault hG hN hex'⟩

/-- C11, at the matrix of the test "Division by zero" and at a matrix with negative
cells. -/
theorem C11_division_unless_int_min_by_minus_one_witness :
    (loaded [[2, 4], [6, 8]]).operator_div 0 = .error .invalid_argument ∧
    (∃ r, (loaded [[-7, 7], [6, -8]]).operator_div 2 = .ok r ∧ r.vertices = 2 ∧
      r.getGraph = [[-3, 3], [3, -4]]) := by
  refine ⟨(C11_division_unless_int_min_by_minus_one [[2, 4], [6, 8]] 2
    (by decide) 0).1.2 rfl, ?_⟩
  obtain ⟨r, g, h1, h2, h3, _⟩ :=
    (C11_division_unless_int_min_by_minus_one [[-7, 7], [6, -8]] 2 (by decide) 2).2.2.1
      (by decide) (fun _ _ _ _ h => absurd h.2 (by decide))
  exact ⟨r, h1, h2, h3.trans (by decide)⟩

/-- C12: for graphs loaded from an `n × n` matrix `A` and an `m × m` matrix `B`:
when `n ≠ m`, `a == b` and `a != b` throw `std::invalid_argument`; when `n = m`,
`a == b` returns true exactly when every cell of `A` equals the cell of `B` at the
same position, and `a != b` returns the negation. -/
theorem C12_equality (A B : Matrix) (n m : Nat) (hA : IsSquare A n) (hB : IsSquare B m) :
    (n ≠ m →
      (loaded A).operator_eq (loaded B) = .error .invalid_argument ∧
      (loaded A).operator_ne (loaded B) = .error .invalid_argument) ∧
    (n = m → ∃ b,
      (loaded A).operator_eq (loaded B) = .ok b ∧
      (b = true ↔ ∀ i j, i < n → j < n → cell A i j = cell B i j) ∧
      (loaded A).operator_ne (loaded B) = .ok (!b)) := by
  constructor
  · intro hnm
    have h := operator_eq_size_mismatch hA hB hnm
    exact ⟨h, by simp [Graph.operator_ne, h]⟩
  · intro hnm
    subst hnm
    obtain ⟨b, hb, hiff⟩ := operator_eq_loaded hA hB
    exact ⟨b, hb, hiff, by simp [Graph.operator_ne, hb]⟩

/-- C12, at two equal 2x2 matrices and at a 2x2 against a 3x3 matrix. -/
theorem C12_equality_witness :
    (loaded [[0, 1], [1, 0]]).operator_eq (loaded [[0, 1, 1], [1, 0, 2], [1, 2, 0]])
      = .error .invalid_argument ∧
    (loaded [[0, 1], [1, 0]]).operator_eq (loaded [[0, 1], [1, 0]]) = .ok true ∧
    (loaded [[0, 1], [1, 0]]).operator_ne (loaded [[0, 1], [1, 0]]) = .ok false := by
  refine ⟨((C12_equality [[0, 1], [1, 0]] [[0, 1, 1], [1, 0, 2], [1, 2, 0]] 2 3
    (by decide) (by decide)).1 (by decide)).1, rfl, ?_⟩
  obtain ⟨b, h1, _, h3⟩ := (C12_equality [[0, 1], [1, 0]] [[0, 1], [1, 0]] 2 2
    (by decide) (by decide)).2 rfl
  have hb : (loaded [[0, 1], [1, 0]]).operator_eq (loaded [[0, 1], [1, 0]]) = .ok true := rfl
  rw [hb] at h1
  cases h1
  exact h3

/-- C13: for graphs loaded from an `n × n` matrix `A` and an `m × m` matrix `B`:
when `n ≠ m` the four operators `<`, `<=`, `>`, `>=` throw `std::invalid_argument`;
when `n = m`, `a < b` holds exactly when every cell of `A` is strictly less than the
cell of `B` at the same position, `a <= b` is `(a < b) || (a == b)`, `a > b` is
`!(a <= b)` and `a >= b` is `!(a < b)`; for `a = [[0,1],[1,0]]`, `b = [[0,2],[2,0]]`
every cell of `a` is at most that of `b`, yet `a <= b` is false. -/
theorem C13_ordering (A B : Matrix) (n m : Nat) (hA : IsSquare A n) (hB : IsSquare B m) :
    (n ≠ m →
      (loaded A).operator_lt (loaded B) = .error .invalid_argument ∧
      (loaded A).operator_le (loaded B) = .error .invalid_argument ∧
      (loaded A).operator_gt (loaded B) = .error .invalid_argument ∧
      (loaded A).operator_ge (loaded B) = .error .invalid_argument) ∧
    (n = m → ∃ lt eq,
      (loaded A).operator_lt (loaded B) = .ok lt ∧
      (loaded A).operator_eq (loaded B) = .ok eq ∧
      (lt = true ↔ ∀ i j, i < n → j < n → cell A i j < cell B i j) ∧
      (eq = true ↔ ∀ i j, i < n → j < n → cell A i j = cell B i j) ∧
      (loaded A).operator_le (loaded B) = .ok (lt || eq) ∧
      (loaded A).operator_gt (loaded B) = .ok (!(lt || eq)) ∧
      (loaded A).operator_ge (loaded B) = .ok (!lt)) ∧
    ((∀ i j, i < 2 → j < 2 → cell [[0, 1], [1, 0]] i j ≤ cell [[0, 2], [2, 0]] i j) ∧
      (loaded [[0, 1], [1, 0]]).operator_le (loaded [[0, 2], [2, 0]]) = .ok false) := by
  refine ⟨?_, ?_,
    by intro i j hi hj; interval_cases i <;> interval_cases j <;> decide, rfl⟩
  · intro hnm
    have h := operator_lt_size_mismatch hA hB hnm
    refine ⟨h, ?_, ?_, ?_⟩ <;> simp [Graph.operator_gt, Graph.operator_le, Graph.operator_ge, h]
  · intro hnm
    subst hnm
    obtain ⟨lt, hlt, hltiff⟩ := operator_lt_loaded hA hB
    obtain ⟨eq, heq, heqiff⟩ := operator_eq_loaded hA hB
    have hle : (loaded A).operator_le (loaded B) = .ok (lt || eq) := by
      cases lt <;> simp [Graph.operator_le, hlt, heq]
    refine ⟨lt, eq, hlt, heq, hltiff, heqiff, hle, ?_, ?_⟩
    · simp [Graph.operator_gt, hle]
    · simp [Graph.operator_ge, hlt]

/-- C13, at a 2x2 against a 3x3 matrix and at the pair `[[0,1],[1,0]]`,
`[[1,2],[2,1]]`. -/
theorem C13_ordering_witness :
    (loaded [[0, 1], [1, 0]]).operator_le (loaded [[0, 1, 1], [1, 0, 2], [1, 2, 0]])
      = .error .invalid_argument ∧
    (∃ lt eq, (loaded [[0, 1], [1, 0]]).operator_lt (loaded [[1, 2], [2, 1]]) = .ok lt ∧
      (loaded [[0, 1], [1, 0]]).operator_eq (loaded [[1, 2], [2, 1]]) = .ok eq ∧
      (loaded [[0, 1], [1, 0]]).operator_gt (loaded [[1, 2], [2, 1]]) = .ok (!(lt || eq))) := by
  refine ⟨((C13_ordering [[0, 1], [1, 0]] [[0, 1, 1], [1, 0, 2], [1, 2, 0]] 2 3
    (by decide) (by decide)).1 (by decide)).2.1, ?_⟩
  obtain ⟨lt, eq, h1, h2, _, _, _, h6, _⟩ := (C13_ordering [[0, 1], [1, 0]]
    [[1, 2], [2, 1]] 2 2 (by decide) (by decide)).2.1 rfl
  exact ⟨lt, eq, h1, h2, h6⟩

/-- C14 as stated fails on an asymmetric matrix: for `m = [[0,0],[5,0]]` the list of
triples over the positions with `i <= j` and `m[i][j] != 0` is empty, while `edges()`
returns the triple `(1, 0, 5)`, whose first index exceeds the second. -/
theorem C14_counterexample_asymmetric :
    Graph.edges (loaded [[0, 0], [5, 0]]) = .ok [(1, 0, 5)] ∧
    ((positions 2).filter (upperAt [[0, 0], [5, 0]])).map (tripleAt [[0, 0], [5, 0]]) = [] ∧
    Graph.edges (loaded [[0, 0], [5, 0]]) ≠
      .ok (((positions 2).filter (upperAt [[0, 0], [5, 0]])).map
        (tripleAt [[0, 0], [5, 0]])) := by
  refine ⟨rfl, by decide, ?_⟩
  intro h
  have e : Graph.edges (loaded [[0, 0], [5, 0]]) = .ok [(1, 0, 5)] := rfl
  rw [e] at h
  have h' := Except.ok.inj h
  revert h'
  decide

/-- C14, amended: for a graph loaded from a square matrix `m`, `edges()` returns
exactly the list, in row-major order, of the triples `(i, j, m[i][j])` over the
positions with `m[i][j] != 0` and (`i <= j` or `m[j][i] == 0`); every emitted triple
carries the non-zero weight stored at `m[i][j]`; when `m` is symmetric these are
the positions with `i <= j` and `m[i][j] != 0`. -/
theorem C14_edges_row_major (M : Matrix) (n : Nat) (hM : IsSquare M n) :
    Graph.edges (loaded M) = .ok (((positions n).filter (keptAt M)).map (tripleAt M)) ∧
    (∀ e ∈ ((positions n).filter (keptAt M)).map (tripleAt M),
      e.1 < n ∧ e.2.1 < n ∧ e.2.2 = cell M e.1 e.2.1 ∧ e.2.2 ≠ 0 ∧
        (e.1 ≤ e.2.1 ∨ cell M e.2.1 e.1 = 0)) ∧
    ((∀ i j, i < n → j < n → cell M i j = cell M j i) →
      Graph.edges (loaded M) = .ok (((positions n).filter (upperAt M)).map (tripleAt M))) := by
  refine ⟨edges_loaded hM, ?_, ?_⟩
  · intro e he
    obtain ⟨p, hp, rfl⟩ := List.mem_map.1 he
    obtain ⟨hpos, hk⟩ := List.mem_filter.1 hp
    rw [keptAt_iff] at hk
    rw [mem_positions] at hpos
    exact ⟨hpos.1, hpos.2, rfl, hk.1, hk.2⟩
  · intro hsym
    rw [edges_loaded hM]
    congr 2
    apply List.filter_congr
    intro p hp
    rw [mem_positions] at hp
    have hs := hsym p.1 p.2 hp.1 hp.2
    rw [Bool.eq_iff_iff, keptAt_iff]
    simp only [upperAt, decide_eq_true_eq]
    constructor
    · rintro ⟨h1, h2 | h2⟩
      · exact ⟨h2, h1⟩
      · exact absurd (hs.trans h2) h1
    · rintro ⟨h1, h2⟩
      exact ⟨h2, Or.inl h1⟩

/-- C14 amended, at the symmetric 3x3 matrix of the test suite. -/
theorem C14_edges_row_major_witness :
    Graph.edges (loaded [[0, 1, 0], [1, 0, 1], [0, 1, 0]]) = .ok [(0, 1, 1), (1, 2, 1)] :=
  (C14_edges_row_major [[0, 1, 0], [1, 0, 1], [0, 1, 0]] 3 (by decide)).1.trans rfl

/-- C15: for a graph loaded from a square matrix `m`, `edges()` holds no triple
twice and at most one triple per unordered pair `{i, j}` (self-loops included);
`countEdges()` is the number of unordered pairs with `m[i][j] != 0` or
`m[j][i] != 0` (converted to `int`); and the triple kept for a pair `i <= j` is
`(i, j, m[i][j])` when that cell is not zero, else `(j, i, m[j][i])`: the one met
first in row-major order. -/
theorem C15_edges_one_per_pair (M : Matrix) (n : Nat) (hM : IsSquare M n) :
    ∃ es, Graph.edges (loaded M) = .ok es ∧
      es.Nodup ∧
      (∀ e1 ∈ es, ∀ e2 ∈ es,
        ((e1.1 = e2.1 ∧ e1.2.1 = e2.2.1) ∨ (e1.1 = e2.2.1 ∧ e1.2.1 = e2.1)) → e1 = e2) ∧
      es.length = ((positions n).filter (pairAt M)).length ∧
      Graph.countEdges (loaded M)
        = .ok (wrapInt (((positions n).filter (pairAt M)).length : Int)) ∧
      ((((positions n).filter (pairAt M)).length : Int) ≤ INT_MAX →
        Graph.countEdges (loaded M) = .ok (((positions n).filter (pairAt M)).length : Int)) ∧
      (∀ i j, i ≤ j → j < n →
        (cell M i j ≠ 0 → (i, j, cell M i j) ∈ es) ∧
        (cell M i j = 0 → cell M j i ≠ 0 → (j, i, cell M j i) ∈ es)) := by
  have hlen : (((positions n).filter (keptAt M)).map (tripleAt M)).length
      = ((positions n).filter (pairAt M)).length := by
    rw [List.length_map, kept_count_eq_pair_count]
  have hcount : Graph.countEdges (loaded M)
      = .ok (wrapInt (((positions n).filter (pairAt M)).length : Int)) := by
    simp only [Graph.countEdges, edges_loaded hM, hlen]
  refine ⟨_, edges_loaded hM, ?_, ?_, hlen, hcount, ?_, ?_⟩
  · apply List.Nodup.map_on _ ((nodup_positions n).filter _)
    intro p _ q _ hpq
    simp only [tripleAt, Prod.mk.injEq] at hpq
    exact Prod.ext hpq.1 hpq.2.1
  · intro e1 h1 e2 h2 hsame
    obtain ⟨p, hp, rfl⟩ := List.mem_map.1 h1
    obtain ⟨q, hq, rfl⟩ := List.mem_map.1 h2
    have hpk := keptAt_iff.1 (List.mem_filter.1 hp).2
    have hqk := keptAt_iff.1 (List.mem_filter.1 hq).2
    obtain ⟨p1, p2⟩ := p
    obtain ⟨q1, q2⟩ := q
    simp only [tripleAt] at hsame hpk hqk ⊢
    rcases hsame with ⟨rfl, rfl⟩ | ⟨rfl, rfl⟩
    · rfl
    · by_cases hd : p1 = p2
      · subst hd; rfl
      · exfalso
        rcases hpk.2 with h | h
        · rcases hqk.2 with h' | h'
          · omega
          · exact hpk.1 h'
        · exact hqk.1 h
  · intro hle
    rw [hcount, wrapInt_of_isInt32]
    unfold isInt32 INT_MIN
    exact ⟨by omega, hle⟩
  · intro i j hij hj
    constructor
    · intro hnz
      exact List.mem_map.2 ⟨(i, j), List.mem_filter.2
        ⟨mem_positions.2 ⟨by simp only; omega, hj⟩, keptAt_iff.2 ⟨hnz, Or.inl hij⟩⟩, rfl⟩
    · intro hz hnz
      exact List.mem_map.2 ⟨(j, i), List.mem_filter.2
        ⟨mem_positions.2 ⟨hj, by simp only; omega⟩, keptAt_iff.2 ⟨hnz, Or.inr hz⟩⟩, rfl⟩

/-- C15, at an asymmetric 2x2 matrix: three non-zero cells, two unordered pairs. -/
theorem C15_edges_one_per_pair_witness :
    Graph.edges (loaded [[1, 2], [3, 0]]) = .ok [(0, 0, 1), (0, 1, 2)] ∧
    Graph.countEdges (loaded [[1, 2], [3, 0]]) = .ok 2 := by
  obtain ⟨es, h1, _, _, _, _, h6, _⟩ := C15_edges_one_per_pair [[1, 2], [3, 0]] 2 (by decide)
  exact ⟨rfl, (h6 (by decide)).trans rfl⟩

/-- C16: for every graph and every index, `adj(index)` throws `std::out_of_range`
exactly when `index < 0` or `index >= vertices()`, hence for every index when there
are no vertices, and for index 2 on a 2-vertex graph; otherwise it returns row
`index` of `graph`, which for a graph loaded from an `n × n` matrix `M` is row
`index` of `M`. -/
theorem C16_adj_row_or_out_of_range (g : Graph) (index : Int) (M : Matrix) (n : Nat)
    (hM : IsSquare M n) :
    (g.adj index = .error .out_of_range ↔ index < 0 ∨ (g.vertices : Int) ≤ index) ∧
    (g.vertices = 0 → g.adj index = .error .out_of_range) ∧
    (∀ row, 0 ≤ index → index < (g.vertices : Int) → g.graph[index.toNat]? = some row →
      g.adj index = .ok row) ∧
    (0 ≤ index → index < (n : Int) →
      ∃ row, M[index.toNat]? = some row ∧ (loaded M).adj index = .ok row) ∧
    (loaded [[0, 1], [1, 0]]).adj 2 = .error .out_of_range := by
  have hoor : (index < 0 ∨ (g.vertices : Int) ≤ index) → g.adj index = .error .out_of_range := by
    intro h
    have : index < 0 ∨ g.numVertices ≤ index.toNat := by
      rcases h with h | h
      · exact Or.inl h
      · by_cases h0 : index < 0
        · exact Or.inl h0
        · right
          simp only [Graph.vertices] at h
          omega
    simp [Graph.adj, this]
  have hin : ∀ o, 0 ≤ index → index < (g.vertices : Int) → g.graph[index.toNat]? = o →
      g.adj index = match o with
        | some row => .ok row
        | none => .error .out_of_bounds := by
    intro o h0 h1 ho
    have h0' : ¬ index < 0 := by omega
    have h1' : ¬ g.numVertices ≤ index.toNat := by
      simp only [Graph.vertices] at h1
      omega
    cases o <;> simp [Graph.adj, h0', h1', ho]
  refine ⟨⟨?_, hoor⟩, ?_, ?_, ?_, rfl⟩
  · intro h
    by_contra hc
    have h0 : 0 ≤ index := by omega
    have h1 : index < (g.vertices : Int) := by omega
    rw [hin _ h0 h1 rfl] at h
    split at h <;> cases h
  · intro hv
    apply hoor
    rw [hv]
    omega
  · intro row h0 h1 hrow
    rw [hin _ h0 h1 hrow]
  · intro h0 h1
    have hi : index.toNat < n := by omega
    obtain ⟨row, hrow, _⟩ := hM.row hi
    refine ⟨row, hrow, ?_⟩
    have h0' : ¬ index < 0 := by omega
    have h1' : ¬ n ≤ index.toNat := by omega
    simp [Graph.adj, loaded_of_square hM, h0', h1', hrow]

/-- C16, at the graph of the test "Invalid vertex index". -/
theorem C16_adj_row_or_out_of_range_witness :
    (loaded [[0, 1], [1, 0]]).adj 2 = .error .out_of_range ∧
    (loaded [[0, 1], [1, 0]]).adj 1 = .ok [1, 0] ∧
    (loaded [[0, 1], [1, 0]]).adj (-1) = .error .out_of_range := by
  have h := C16_adj_row_or_out_of_range (loaded [[0, 1], [1, 0]]) 2 [[0, 1], [1, 0]] 2
    (by decide)
  have h' := C16_adj_row_or_out_of_range (loaded [[0, 1], [1, 0]]) (-1) [[0, 1], [1, 0]] 2
    (by decide)
  exact ⟨h.1.2 (Or.inr (by decide)), rfl, h'.1.2 (Or.inl (by decide))⟩

/-- C17: for a graph loaded from an `n × n` matrix `M`, `printGraph()` is the rows of
`M`, each rendered as `"["`, its decimal values joined by `", "`, and `"]"`, joined by
a newline, with no trailing newline: the empty string for `n = 0`, `"[0]"` for
`[[0]]`, `"[0, 0]\n[0, 0]"` for the 2x2 zero matrix. -/
theorem C17_printGraph_format (M : Matrix) (n : Nat) (hM : IsSquare M n) :
    (loaded M).printGraph =
      String.intercalate "\n"
        (M.map (fun row => "[" ++ String.intercalate ", " (row.map toString) ++ "]")) ∧
    (loaded []).printGraph = "" ∧
    (loaded [[0]]).printGraph = "[0]" ∧
    (loaded [[0, 0], [0, 0]]).printGraph = "[0, 0]\n[0, 0]" := by
  refine ⟨?_, rfl, rfl, rfl⟩
  rw [Graph.printGraph, loaded_of_square hM, printRows_eq]
  simp

/-- C17, at the matrix of the test "Graphs with maximum integer weights". -/
theorem C17_printGraph_format_witness :
    (loaded [[0, 2147483647], [2147483647, 0]]).printGraph
      = "[0, 2147483647]\n[2147483647, 0]" :=
  (C17_printGraph_format [[0, 2147483647], [2147483647, 0]] 2 (by decide)).1.trans
    (by decide)

/-- C18: for an `n × n` matrix `M` of `int` values with `n ≥ 1`, `operator>>` on the
text made of the rows of `M`, each written as its decimal values separated by single
spaces, the rows separated by newlines, loads exactly `M` (whatever the graph held
before); `operator<<` on the resulting graph writes each row as `"["`, its values
joined by a single space, and `"]"`, the rows joined by a newline with no trailing
newline; the input `"0 1\n1 0"` gives the output `"[0 1]\n[1 0]"`. -/
theorem C18_stream_read_then_write (M : Matrix) (n : Nat) (hn : 1 ≤ n) (hM : IsSquare M n)
    (hint : int32Matrix M) (g : Graph) :
    (∃ g',
      Graph.operator_shr
        (String.intercalate "\n"
          (M.map (fun row => String.intercalate " " (row.map toString)))) g
        = some (.ok (), g') ∧
      g'.vertices = n ∧ g'.getGraph = M ∧ g' = loaded M ∧
      Graph.operator_shl "" g' =
        (.ok (), String.intercalate "\n"
          (M.map (fun row => "[" ++ String.intercalate " " (row.map toString) ++ "]")))) ∧
    (∃ g', Graph.operator_shr "0 1\n1 0" Graph.ctor = some (.ok (), g') ∧
      Graph.operator_shl "" g' = (.ok (), "[0 1]\n[1 0]")) := by
  refine ⟨⟨_, operator_shr_text hn hM hint g, rfl, rfl, (loaded_of_square hM).symm, ?_⟩,
    ⟨_, rfl, rfl⟩⟩
  rw [← loaded_of_square hM, operator_shl_loaded hM]
  simp

/-- C18, at the matrix `[[0, -1], [2147483647, 0]]`. -/
theorem C18_stream_read_then_write_witness :
    ∃ g', Graph.operator_shr "0 -1\n2147483647 0" Graph.ctor = some (.ok (), g') ∧
      g'.getGraph = [[0, -1], [2147483647, 0]] ∧
      Graph.operator_shl "" g' = (.ok (), "[0 -1]\n[2147483647 0]") := by
  obtain ⟨g', h1, _, h3, _, h5⟩ := (C18_stream_read_then_write [[0, -1], [2147483647, 0]] 2
    (by decide) (by decide) (by decide) Graph.ctor).1
  have ht : String.intercalate "\n"
      (([[0, -1], [2147483647, 0]] : Matrix).map
        (fun row => String.intercalate " " (row.map toString)))
      = "0 -1\n2147483647 0" := by decide
  rw [ht] at h1
  exact ⟨g', h1, h3, h5.trans rfl⟩

/-- C19 as stated fails: for the graph loaded from `[[0]]`, `operator<<` writes
`"[0]"`, and `operator>>` on that text reads one empty row, throws
`std::invalid_argument` and leaves the fresh graph empty. -/
theorem C19_counterexample_single_vertex :
    Graph.operator_shl "" (loaded [[0]]) = (.ok (), "[0]") ∧
    Graph.operator_shr "[0]" Graph.ctor = some (.error .invalid_argument, Graph.ctor) ∧
    readLines 4 "[0]".data [] = some [[]] :=
  ⟨rfl, rfl, rfl⟩

/-- C19, amended: for a graph loaded from an `n × n` matrix, `operator<<` writes a
text; for `n ≥ 1` that text starts with `'['`, and `operator>>` reading it into a
fresh graph throws `std::invalid_argument` and leaves the fresh graph empty; for
`n = 0` the text is empty, `operator>>` returns normally and the fresh graph equals
the written one. -/
theorem C19_round_trip_only_when_empty (M : Matrix) (n : Nat) (hM : IsSquare M n) :
    ∃ text, Graph.operator_shl "" (loaded M) = (.ok (), text) ∧
      (1 ≤ n →
        Graph.operator_shr text Graph.ctor = some (.error .invalid_argument, Graph.ctor)) ∧
      (n = 0 →
        Graph.operator_shr text Graph.ctor = some (.ok (), Graph.ctor) ∧
        loaded M = Graph.ctor) := by
  refine ⟨_, operator_shl_loaded hM "", ?_, ?_⟩
  · intro hn
    have hne : M ≠ [] := by
      intro h
      have := hM.1
      rw [h] at this
      simp at this
      omega
    obtain ⟨l, hl⟩ := rendered_bracket M hne " "
    exact operator_shr_bracket _ l (by simpa using hl) _
  · intro hn
    have hnil : M = [] := List.length_eq_zero.1 (hM.1.trans hn)
    subst hnil
    exact ⟨rfl, rfl⟩

/-- C19 amended, at the 2x2 matrix of the test "Input/output test". -/
theorem C19_round_trip_only_when_empty_witness :
    Graph.operator_shl "" (loaded [[0, 1], [1, 0]]) = (.ok (), "[0 1]\n[1 0]") ∧
    Graph.operator_shr "[0 1]\n[1 0]" Graph.ctor
      = some (.error .invalid_argument, Graph.ctor) := by
  obtain ⟨text, h1, h2, _⟩ := C19_round_trip_only_when_empty [[0, 1], [1, 0]] 2 (by decide)
  have ht : Graph.operator_shl "" (loaded [[0, 1], [1, 0]]) = (.ok (), "[0 1]\n[1 0]") := rfl
  rw [ht] at h1
  have : text = "[0 1]\n[1 0]" := (Prod.mk.inj h1).2.symm
  subst this
  exact ⟨ht, h2 (by decide)⟩

/-- C20: whenever a mutating member fails in one of the ways the code provides for,
the receiver is left exactly as it was (vertex count and both matrices):
`loadGraph` and `operator>>` with a matrix that is not square, `+=`, `-=` and `*=`
with a graph of another vertex count, `/=` with zero. -/
theorem C20_failure_leaves_receiver_unchanged (g h : Graph) (M : Matrix) (is : String) :
    (Graph.isSquareMatrix M = false → g.loadGraph M = (.error .invalid_argument, g)) ∧
    ((g.loadGraph M).1 ≠ .ok () → (g.loadGraph M).2 = g) ∧
    (∃ r, Graph.operator_shr is g = some r ∧ (r.1 ≠ .ok () → r = (.error .invalid_argument, g))) ∧
    (g.vertices ≠ h.vertices →
      g.operator_add_assign h = (.error .invalid_argument, g) ∧
      g.operator_sub_assign h = (.error .invalid_argument, g) ∧
      g.operator_mul_assign h = (.error .invalid_argument, g)) ∧
    g.operator_div_assign 0 = (.error .invalid_argument, g) ∧
    (loaded [[7]]).loadGraph [[1, 2], [3, 4], [5, 6]]
      = (.error .invalid_argument, loaded [[7]]) ∧
    Graph.operator_shr "1 2\n3" (loaded [[7]])
      = some (.error .invalid_argument, loaded [[7]]) ∧
    (loaded [[7]]).operator_add_assign (loaded [[0, 1], [1, 0]])
      = (.error .invalid_argument, loaded [[7]]) := by
  refine ⟨?_, ?_, ?_, ?_, ?_, rfl, rfl, rfl⟩
  · intro hsq
    simp [Graph.loadGraph, hsq]
  · intro hfail
    by_cases hsq : Graph.isSquareMatrix M = true
    · exact absurd (by simp [Graph.loadGraph, hsq]) hfail
    · simp [Graph.loadGraph, hsq]
  · obtain ⟨t, ht⟩ := readLines_total (is.length + 1) is.data [] (by
      show is.data.length < is.data.length + 1
      omega)
    by_cases hsq : Graph.isSquareMatrix t = true
    · refine ⟨g.loadGraph t, by simp [Graph.operator_shr, ht, hsq], ?_⟩
      intro hfail
      exact absurd (by simp [Graph.loadGraph, hsq]) hfail
    · refine ⟨(.error .invalid_argument, g), by simp [Graph.operator_shr, ht, hsq], ?_⟩
      intro _
      rfl
  · intro hne
    have hne' : g.numVertices ≠ h.numVertices := hne
    refine ⟨?_, ?_, ?_⟩
    · simp [Graph.operator_add_assign, hne']
    · simp [Graph.operator_sub_assign, hne']
    · simp [Graph.operator_mul_assign, hne']
  · simp [Graph.operator_div_assign]

end ariel

namespace ariel

/-! ## The operators on graphs whose `graph` field is square -/

theorem operator_add_assign_sq {a b : Graph} {n : Nat} (ha : IsSquare a.graph n)
    (hna : a.numVertices = n) (hb : IsSquare b.graph n) (hnb : b.numVertices = n) :
    a.operator_add_assign b =
      (.ok (), { a with
        graph := tabulate n (fun i j => intAdd (cell a.graph i j) (cell b.graph i j)) }) := by
  have hloop := forEachCell_fill n (Graph.addAssignCell b) a.graph
    (fun i j => intAdd (cell a.graph i j) (cell b.graph i j)) ha
    (fun i j s hi hj hs hc => by
      simp only [Graph.addAssignCell, getCell_of_square hs hi hj, getCell_of_square hb hi hj,
        hc])
  unfold Graph.operator_add_assign
  simp [hna, hnb, hloop]

theorem operator_sub_assign_sq {a b : Graph} {n : Nat} (ha : IsSquare a.graph n)
    (hna : a.numVertices = n) (hb : IsSquare b.graph n) (hnb : b.numVertices = n) :
    a.operator_sub_assign b =
      (.ok (), { a with
        graph := tabulate n (fun i j => intSub (cell a.graph i j) (cell b.graph i j)) }) := by
  have hloop := forEachCell_fill n (Graph.subAssignCell b) a.graph
    (fun i j => intSub (cell a.graph i j) (cell b.graph i j)) ha
    (fun i j s hi hj hs hc => by
      simp only [Graph.subAssignCell, getCell_of_square hs hi hj, getCell_of_square hb hi hj,
        hc])
  unfold Graph.operator_sub_assign
  simp [hna, hnb, hloop]

theorem operator_mul_assign_sq {a b : Graph} {n : Nat} (ha : IsSquare a.graph n)
    (hna : a.numVertices = n) (hb : IsSquare b.graph n) (hnb : b.numVertices = n) :
    a.operator_mul_assign b =
      (.ok (), { a with
        graph := tabulate n (fun i j => intMul (cell a.graph i j) (cell b.graph i j)) }) := by
  have hloop := forEachCell_fill n (Graph.mulAssignCell b) a.graph
    (fun i j => intMul (cell a.graph i j) (cell b.graph i j)) ha
    (fun i j s hi hj hs hc => by
      simp only [Graph.mulAssignCell, getCell_of_square hs hi hj, getCell_of_square hb hi hj,
        hc])
  unfold Graph.operator_mul_assign
  simp [hna, hnb, hloop]

theorem operator_sub_sq {a b : Graph} {n : Nat} (ha : IsSquare a.graph n)
    (hna : a.numVertices = n) (hb : IsSquare b.graph n) (hnb : b.numVertices = n) :
    a.operator_sub b =
      .ok { graph := tabulate n (fun i j => intSub (cell a.graph i j) (cell b.graph i j)),
            numVertices := n, adjacency_matrix := [] } := by
  have hloop := forEachCell_fill n (Graph.subCell a b)
    (List.replicate n (List.replicate n 0))
    (fun i j => intSub (cell a.graph i j) (cell b.graph i j)) (isSquare_replicate n 0)
    (fun i j s hi hj hs _ => by
      simp only [Graph.subCell, getCell_of_square ha hi hj, getCell_of_square hb hi hj])
  unfold Graph.operator_sub
  simp [hna, hnb, hloop, Graph.ctor]

theorem operator_mul_scalar_sq {a : Graph} {n : Nat} (ha : IsSquare a.graph n)
    (hna : a.numVertices = n) (k : Int) :
    a.operator_mul_scalar k =
      .ok { graph := tabulate n (fun i j => intMul (cell a.graph i j) k),
            numVertices := n, adjacency_matrix := [] } := by
  have hloop := forEachCell_fill n (Graph.scaleCell a k)
    (List.replicate n (List.replicate n 0))
    (fun i j => intMul (cell a.graph i j) k) (isSquare_replicate n 0)
    (fun i j s hi hj hs _ => by
      simp only [Graph.scaleCell, getCell_of_square ha hi hj])
  unfold Graph.operator_mul_scalar
  simp [hna, hloop, Graph.ctor]

theorem operator_neg_sq {a : Graph} {n : Nat} (ha : IsSquare a.graph n)
    (hna : a.numVertices = n) :
    a.operator_neg =
      .ok { graph := tabulate n (fun i j => intNeg (cell a.graph i j)),
            numVertices := n, adjacency_matrix := [] } := by
  have hloop := forEachCell_fill n (Graph.negCell a)
    (List.replicate n (List.replicate n 0))
    (fun i j => intNeg (cell a.graph i j)) (isSquare_replicate n 0)
    (fun i j s hi hj hs _ => by
      simp only [Graph.negCell, getCell_of_square ha hi hj])
  unfold Graph.operator_neg
  simp [hna, hloop, Graph.ctor]

theorem operator_mul_assign_scalar_sq {a : Graph} {n : Nat} (ha : IsSquare a.graph n)
    (hna : a.numVertices = n) (k : Int) :
    a.operator_mul_assign_scalar k =
      (.ok (), { a with graph := tabulate n (fun i j => intMul (cell a.graph i j) k) }) := by
  have hloop := forEachCell_fill n (Graph.scaleAssignCell k) a.graph
    (fun i j => intMul (cell a.graph i j) k) ha
    (fun i j s hi hj hs hc => by
      simp only [Graph.scaleAssignCell, getCell_of_square hs hi hj, hc])
  unfold Graph.operator_mul_assign_scalar
  simp [hna, hloop]

theorem operator_pre_inc_sq {a : Graph} {n : Nat} (ha : IsSquare a.graph n)
    (hna : a.numVertices = n) :
    a.operator_pre_inc =
      (.ok (), { a with graph := tabulate n (fun i j => intAdd (cell a.graph i j) 1) }) := by
  have hloop := forEachCell_fill n Graph.incCell a.graph
    (fun i j => intAdd (cell a.graph i j) 1) ha
    (fun i j s hi hj hs hc => by
      simp only [Graph.incCell, getCell_of_square hs hi hj, hc])
  unfold Graph.operator_pre_inc
  simp [hna, hloop]

theorem operator_pre_dec_sq {a : Graph} {n : Nat} (ha : IsSquare a.graph n)
    (hna : a.numVertices = n) :
    a.operator_pre_dec =
      (.ok (), { a with graph := tabulate n (fun i j => intSub (cell a.graph i j) 1) }) := by
  have hloop := forEachCell_fill n Graph.decCell a.graph
    (fun i j => intSub (cell a.graph i j) 1) ha
    (fun i j s hi hj hs hc => by
      simp only [Graph.decCell, getCell_of_square hs hi hj, hc])
  unfold Graph.operator_pre_dec
  simp [hna, hloop]

theorem operator_post_inc_sq {a : Graph} {n : Nat} (ha : IsSquare a.graph n)
    (hna : a.numVertices = n) :
    a.operator_post_inc =
      (.ok (Graph.copy a),
        { a with graph := tabulate n (fun i j => intAdd (cell a.graph i j) 1) }) := by
  unfold Graph.operator_post_inc
  simp [operator_pre_inc_sq ha hna]

theorem operator_post_dec_sq {a : Graph} {n : Nat} (ha : IsSquare a.graph n)
    (hna : a.numVertices = n) :
    a.operator_post_dec =
      (.ok (Graph.copy a),
        { a with graph := tabulate n (fun i j => intSub (cell a.graph i j) 1) }) := by
  unfold Graph.operator_post_dec
  simp [operator_pre_dec_sq ha hna]

/-! ## Members that read only `graph` and `numVertices` -/

theorem loaded_graph {g : Graph} {n : Nat} (hg : IsSquare g.graph n)
    (hn : g.numVertices = n) :
    loaded g.graph = { g with adjacency_matrix := g.graph } := by
  rw [loaded_of_square hg, hn]

theorem operator_eq_sq {a b : Graph} {n m : Nat} (ha : IsSquare a.graph n)
    (hna : a.numVertices = n) (hb : IsSquare b.graph m) (hnb : b.numVertices = m) :
    a.operator_eq b = (loaded a.graph).operator_eq (loaded b.graph) := by
  rw [loaded_graph ha hna, loaded_graph hb hnb]
  rfl

theorem operator_lt_sq {a b : Graph} {n m : Nat} (ha : IsSquare a.graph n)
    (hna : a.numVertices = n) (hb : IsSquare b.graph m) (hnb : b.numVertices = m) :
    a.operator_lt b = (loaded a.graph).operator_lt (loaded b.graph) := by
  rw [loaded_graph ha hna, loaded_graph hb hnb]
  rfl

theorem edges_sq {a : Graph} {n : Nat} (ha : IsSquare a.graph n) (hna : a.numVertices = n) :
    a.edges = (loaded a.graph).edges := by
  rw [loaded_graph ha hna]
  rfl

theorem operator_shl_sq {a : Graph} {n : Nat} (ha : IsSquare a.graph n)
    (hna : a.numVertices = n) (os : String) :
    Graph.operator_shl os a = Graph.operator_shl os (loaded a.graph) := by
  rw [loaded_graph ha hna]
  rfl

end ariel

namespace ariel

/-! ## `operator+` and `operator*` on well-formed graphs -/

theorem forEachCell_ok_or_error (n : Nat)
    (body : Nat → Nat → Matrix → Except Exn Unit × Matrix) (s0 : Matrix) (e : Exn)
    (h0 : IsSquare s0 n)
    (hstep : ∀ i j s, i < n → j < n → IsSquare s n →
      (∃ s', body i j s = (.ok (), s') ∧ IsSquare s' n) ∨ ∃ s', body i j s = (.error e, s')) :
    (∃ s', forEachCell n body s0 = (.ok (), s') ∧ IsSquare s' n) ∨
      ∃ s', forEachCell n body s0 = (.error e, s') :=
  forUpTo_ok_or_error (fun i s => forUpTo (fun j s => body i j s) n 0 s)
    (fun s => IsSquare s n) e n 0 s0 h0
    (fun i s _ hi hs =>
      forUpTo_ok_or_error (fun j s => body i j s) (fun s => IsSquare s n) e n 0 s hs
        (fun j t _ hj ht => hstep i j t (by omega) (by omega) ht))

theorem addCell_sq {a b : Graph} {n : Nat} (haA : IsSquare a.adjacency_matrix n)
    (hbA : IsSquare b.adjacency_matrix n) (haG : IsSquare a.graph n)
    (hbG : IsSquare b.graph n) {i j : Nat} (hi : i < n) (hj : j < n) {r : Matrix}
    (hr : IsSquare r n) :
    Graph.addCell a b i j r =
      if cell a.graph i j > intSub INT_MAX (cell b.graph i j)
      then (.error .overflow_error,
        setAt r i j (intAdd (cell a.adjacency_matrix i j) (cell b.adjacency_matrix i j)))
      else (.ok (),
        setAt r i j (intAdd (cell a.adjacency_matrix i j) (cell b.adjacency_matrix i j))) := by
  simp only [Graph.addCell, getCell_of_square haA hi hj, getCell_of_square hbA hi hj,
    getCell_of_square haG hi hj, getCell_of_square hbG hi hj, storeCell_of_square hr hi hj]

theorem mulCell_sq {a b : Graph} {n : Nat} (haA : IsSquare a.adjacency_matrix n)
    (hbA : IsSquare b.adjacency_matrix n) {i j : Nat} (hi : i < n) (hj : j < n)
    {r : Matrix} (hr : IsSquare r n) :
    Graph.mulCell a b n i j r =
      storeCell r i j (dotAcc a.adjacency_matrix b.adjacency_matrix i j n) := by
  obtain ⟨s', hrun, hs'⟩ := forUpTo_ok
    (fun k r => Graph.mulAccCell a b i j k r)
    (fun k s => s = setAt r i j (dotAcc a.adjacency_matrix b.adjacency_matrix i j k))
    n 0 (setAt r i j 0) rfl
    (by
      intro k s _ hk hs
      have hk : k < n := by omega
      subst hs
      have hsq := isSquare_setAt hr i j (dotAcc a.adjacency_matrix b.adjacency_matrix i j k)
      refine ⟨_, ?_, rfl⟩
      show Graph.mulAccCell a b i j k _ = _
      simp only [Graph.mulAccCell, getCell_of_square hsq hi hj, getCell_of_square haA hi hk,
        getCell_of_square hbA hk hj, storeCell_of_square hsq hi hj, cell_setAt hr hi hj,
        setAt_setAt hr hi hj]
      simp [dotAcc])
  simp only [Nat.zero_add] at hs'
  simp only [Graph.mulCell, storeCell_of_square hr hi hj, hrun, hs']

/-- On a well-formed graph with vertices and a non-empty `adjacency_matrix`, both
matrices are `n × n` for the same `n`. -/
theorem WellFormed.both_square {g : Graph} (w : WellFormed g) {n : Nat}
    (hv : g.numVertices ≠ 0) (hlen : g.adjacency_matrix.length = n) (hn : n ≠ 0) :
    IsSquare g.adjacency_matrix n ∧ IsSquare g.graph n := by
  have hne : g.adjacency_matrix ≠ [] := by
    intro h
    rw [h] at hlen
    exact hn hlen.symm
  have h3 := w.2.2 (Nat.pos_of_ne_zero hv) hne
  have h2 := w.2.1
  have h1 := w.1
  rw [hlen] at h2 h3
  rw [← h3] at h1
  exact ⟨h2, h1⟩

theorem operator_add_wf {a b : Graph} (wa : WellFormed a) (wb : WellFormed b) :
    (∃ r, a.operator_add b = .ok r ∧ r.graph = [] ∧ r.numVertices = 0 ∧
        IsSquare r.adjacency_matrix a.adjacency_matrix.length) ∨
      ∃ e, a.operator_add b = .error e ∧ e ≠ .out_of_bounds := by
  by_cases hv : a.vertices = 0 ∨ b.vertices = 0
  · right
    exact ⟨.logic_error, (operator_add_logic_error_iff a b).2 hv, by decide⟩
  · have hva : a.numVertices ≠ 0 := fun h => hv (Or.inl h)
    have hvb : b.numVertices ≠ 0 := fun h => hv (Or.inr h)
    have hvv : (a.vertices == 0 || b.vertices == 0) = false := by simpa using hv
    by_cases hlen : a.adjacency_matrix.length = b.adjacency_matrix.length
    · by_cases hn : a.adjacency_matrix.length = 0
      · left
        refine ⟨{ Graph.ctor with adjacency_matrix := [] }, ?_, rfl, rfl, ?_⟩
        · unfold Graph.operator_add
          simp [hvv, hlen.symm, hn, forUpTo]
        · rw [hn]
          exact ⟨rfl, fun row hrow => by cases hrow⟩
      · obtain ⟨haA, haG⟩ := wa.both_square hva rfl hn
        obtain ⟨hbA, hbG⟩ := wb.both_square hvb hlen.symm hn
        have hloop : forUpTo
            (fun i r =>
              forUpTo (fun j r => Graph.addCell a b i j r)
                (a.adjacency_matrix.getD i []).length 0 r)
            a.adjacency_matrix.length 0
            (List.replicate a.adjacency_matrix.length
              (List.replicate a.adjacency_matrix.length 0))
            = forEachCell a.adjacency_matrix.length (Graph.addCell a b)
              (List.replicate a.adjacency_matrix.length
                (List.replicate a.adjacency_matrix.length 0)) := by
          unfold forEachCell
          apply forUpTo_congr
          intro i s _ hi
          obtain ⟨row, hr, hl⟩ := haA.row (by omega : i < a.adjacency_matrix.length)
          simp only [List.getD_eq_getElem?_getD, hr, Option.getD_some, hl]
        have hrun := forEachCell_ok_or_error a.adjacency_matrix.length (Graph.addCell a b)
          (List.replicate a.adjacency_matrix.length
            (List.replicate a.adjacency_matrix.length 0)) .overflow_error
          (isSquare_replicate _ 0)
          (fun i j s hi hj hs => by
            rw [addCell_sq haA hbA haG hbG hi hj hs]
            by_cases h : cell a.graph i j > intSub INT_MAX (cell b.graph i j)
            · exact Or.inr ⟨_, by rw [if_pos h]⟩
            · exact Or.inl ⟨_, by rw [if_neg h], isSquare_setAt hs i j _⟩)
        have hlen' : ¬ (a.adjacency_matrix.length != b.adjacency_matrix.length) = true := by
          simpa using hlen
        unfold Graph.operator_add
        simp only [hvv, Bool.false_eq_true, if_false, hlen', hloop]
        rcases hrun with ⟨s', hs', hsq⟩ | ⟨s', hs'⟩
        · left
          rw [hs']
          exact ⟨_, rfl, rfl, rfl, hsq⟩
        · right
          rw [hs']
          exact ⟨_, rfl, by decide⟩
    · right
      refine ⟨.invalid_argument, ?_, by decide⟩
      unfold Graph.operator_add
      simp [hvv, hlen]

theorem operator_mul_wf {a b : Graph} (wa : WellFormed a) (wb : WellFormed b) :
    (∃ r, a.operator_mul b = .ok r ∧ r.graph = [] ∧ r.numVertices = 0 ∧
        IsSquare r.adjacency_matrix a.adjacency_matrix.length) ∨
      ∃ e, a.operator_mul b = .error e ∧ e ≠ .out_of_bounds := by
  by_cases hv : a.vertices = 0 ∨ b.vertices = 0
  · right
    exact ⟨.logic_error, (operator_mul_logic_error_iff a b).2 hv, by decide⟩
  · have hva : a.numVertices ≠ 0 := fun h => hv (Or.inl h)
    have hvb : b.numVertices ≠ 0 := fun h => hv (Or.inr h)
    have hvv : (a.vertices == 0 || b.vertices == 0) = false := by simpa using hv
    by_cases hlen : a.adjacency_matrix.length = b.adjacency_matrix.length
    · left
      have hlen' : ¬ (a.adjacency_matrix.length != b.adjacency_matrix.length) = true := by
        simpa using hlen
      by_cases hn : a.adjacency_matrix.length = 0
      · refine ⟨{ Graph.ctor with adjacency_matrix := [] }, ?_, rfl, rfl, ?_⟩
        · unfold Graph.operator_mul
          simp [hvv, hlen.symm, hn, forEachCell, forUpTo]
        · rw [hn]
          exact ⟨rfl, fun row hrow => by cases hrow⟩
      · obtain ⟨haA, _⟩ := wa.both_square hva rfl hn
        obtain ⟨hbA, _⟩ := wb.both_square hvb hlen.symm hn
        have hrun := forEachCell_fill a.adjacency_matrix.length
          (Graph.mulCell a b a.adjacency_matrix.length)
          (List.replicate a.adjacency_matrix.length
            (List.replicate a.adjacency_matrix.length 0))
          (fun i j => dotAcc a.adjacency_matrix b.adjacency_matrix i j
            a.adjacency_matrix.length)
          (isSquare_replicate _ 0)
          (fun i j s hi hj hs _ => mulCell_sq haA hbA hi hj hs)
        unfold Graph.operator_mul
        simp only [hvv, Bool.false_eq_true, if_false, hlen', hrun]
        exact ⟨_, rfl, rfl, rfl, isSquare_tabulate _ _⟩
    · right
      refine ⟨.invalid_argument, ?_, by decide⟩
      unfold Graph.operator_mul
      simp [hvv, hlen]

end ariel

namespace ariel

/-! ## Well-formedness is kept by every operation -/

theorem wellFormed_ctor : WellFormed Graph.ctor :=
  ⟨⟨rfl, fun _ h => by cases h⟩, ⟨rfl, fun _ h => by cases h⟩, fun h => by cases h⟩

theorem wellFormed_copy {g : Graph} (w : WellFormed g) : WellFormed (Graph.copy g) := w

theorem wellFormed_loadGraph {g : Graph} (w : WellFormed g) (m : Matrix) :
    WellFormed (g.loadGraph m).2 := by
  by_cases hsq : Graph.isSquareMatrix m = true
  · have h := (isSquareMatrix_iff m).1 hsq
    rw [loadGraph_of_square g h]
    exact ⟨h, h, fun _ _ => rfl⟩
  · have : g.loadGraph m = (.error .invalid_argument, g) := by
      simp [Graph.loadGraph, hsq]
    rw [this]
    exact w

theorem wellFormed_shr {g : Graph} (w : WellFormed g) {is : String}
    {r : Except Exn Unit × Graph} (h : Graph.operator_shr is g = some r) :
    WellFormed r.2 := by
  unfold Graph.operator_shr at h
  cases ht : readLines (is.length + 1) is.data [] with
  | none => rw [ht] at h; cases h
  | some t =>
    rw [ht] at h
    simp only at h
    split at h
    · cases h
      exact w
    · cases h
      exact wellFormed_loadGraph w t

theorem wellFormed_graph_update {a : Graph} (w : WellFormed a) {n : Nat}
    (hn : a.numVertices = n) (f : Nat → Nat → Int) :
    WellFormed { a with graph := tabulate n f } := by
  refine ⟨?_, w.2.1, w.2.2⟩
  show IsSquare (tabulate n f) a.numVertices
  rw [hn]
  exact isSquare_tabulate n f

theorem wellFormed_fresh (n : Nat) (f : Nat → Nat → Int) :
    WellFormed { graph := tabulate n f, numVertices := n, adjacency_matrix := [] } :=
  ⟨isSquare_tabulate n f, ⟨rfl, fun _ h => by cases h⟩, fun _ h => absurd rfl h⟩

theorem wellFormed_graph_square {a : Graph} (w : WellFormed a) {g : Matrix}
    (hg : IsSquare g a.numVertices) : WellFormed { a with graph := g } :=
  ⟨hg, w.2.1, w.2.2⟩

theorem wellFormed_fresh_square {n : Nat} {g : Matrix} (hg : IsSquare g n) :
    WellFormed { graph := g, numVertices := n, adjacency_matrix := [] } :=
  ⟨hg, ⟨rfl, fun _ h => by cases h⟩, fun _ h => absurd rfl h⟩

theorem wellFormed_adjacency_only {r : Graph} {k : Nat} (hg : r.graph = [])
    (hv : r.numVertices = 0) (hsq : IsSquare r.adjacency_matrix k) : WellFormed r := by
  refine ⟨?_, ?_, ?_⟩
  · rw [hg, hv]
    exact ⟨rfl, fun _ h => by cases h⟩
  · rw [hsq.1]
    exact hsq
  · intro h
    rw [hv] at h
    cases h

/-- The three in-place operators with a graph operand: never out of bounds, and the
receiver stays well-formed. -/
theorem inplace_binary_wf {a b : Graph} (wa : WellFormed a) (wb : WellFormed b) :
    ((a.operator_add_assign b).1 ≠ .error .out_of_bounds ∧
      WellFormed (a.operator_add_assign b).2) ∧
    ((a.operator_sub_assign b).1 ≠ .error .out_of_bounds ∧
      WellFormed (a.operator_sub_assign b).2) ∧
    ((a.operator_mul_assign b).1 ≠ .error .out_of_bounds ∧
      WellFormed (a.operator_mul_assign b).2) := by
  by_cases hn : a.numVertices = b.numVertices
  · have hb : IsSquare b.graph a.numVertices := by rw [hn]; exact wb.1
    rw [operator_add_assign_sq wa.1 rfl hb hn.symm, operator_sub_assign_sq wa.1 rfl hb hn.symm,
      operator_mul_assign_sq wa.1 rfl hb hn.symm]
    exact ⟨⟨by simp, wellFormed_graph_update wa rfl _⟩,
      ⟨by simp, wellFormed_graph_update wa rfl _⟩,
      ⟨by simp, wellFormed_graph_update wa rfl _⟩⟩
  · have h1 : a.operator_add_assign b = (.error .invalid_argument, a) := by
      simp [Graph.operator_add_assign, hn]
    have h2 : a.operator_sub_assign b = (.error .invalid_argument, a) := by
      simp [Graph.operator_sub_assign, hn]
    have h3 : a.operator_mul_assign b = (.error .invalid_argument, a) := by
      simp [Graph.operator_mul_assign, hn]
    rw [h1, h2, h3]
    exact ⟨⟨by simp, wa⟩, ⟨by simp, wa⟩, ⟨by simp, wa⟩⟩

/-- The in-place operators without a graph operand. -/
theorem inplace_unary_wf {a : Graph} (wa : WellFormed a) (k : Int) :
    ((a.operator_mul_assign_scalar k).1 ≠ .error .out_of_bounds ∧
      WellFormed (a.operator_mul_assign_scalar k).2) ∧
    ((a.operator_div_assign k).1 ≠ .error .out_of_bounds ∧
      WellFormed (a.operator_div_assign k).2) ∧
    (a.operator_pre_inc.1 ≠ .error .out_of_bounds ∧ WellFormed a.operator_pre_inc.2) ∧
    (a.operator_pre_dec.1 ≠ .error .out_of_bounds ∧ WellFormed a.operator_pre_dec.2) ∧
    (a.operator_post_inc.1 ≠ .error .out_of_bounds ∧ WellFormed a.operator_post_inc.2 ∧
      ∀ r, a.operator_post_inc.1 = .ok r → WellFormed r) ∧
    (a.operator_post_dec.1 ≠ .error .out_of_bounds ∧ WellFormed a.operator_post_dec.2 ∧
      ∀ r, a.operator_post_dec.1 = .ok r → WellFormed r) := by
  refine ⟨?_, ?_, ?_, ?_, ?_, ?_⟩
  · rw [operator_mul_assign_scalar_sq wa.1 rfl]
    exact ⟨by simp, wellFormed_graph_update wa rfl _⟩
  · by_cases hk : k = 0
    · have : a.operator_div_assign k = (.error .invalid_argument, a) := by
        simp [Graph.operator_div_assign, hk]
      rw [this]
      exact ⟨by simp, wa⟩
    · obtain ⟨hout, g, hg, hsq⟩ := operator_div_assign_shape wa.1 rfl hk
      rw [hg]
      refine ⟨?_, wellFormed_graph_square wa hsq⟩
      rcases hout with h | h <;> rw [h] <;> simp
  · rw [operator_pre_inc_sq wa.1 rfl]
    exact ⟨by simp, wellFormed_graph_update wa rfl _⟩
  · rw [operator_pre_dec_sq wa.1 rfl]
    exact ⟨by simp, wellFormed_graph_update wa rfl _⟩
  · rw [operator_post_inc_sq wa.1 rfl]
    refine ⟨by simp, wellFormed_graph_update wa rfl _, ?_⟩
    intro r hr
    cases hr
    exact wellFormed_copy wa
  · rw [operator_post_dec_sq wa.1 rfl]
    refine ⟨by simp, wellFormed_graph_update wa rfl _, ?_⟩
    intro r hr
    cases hr
    exact wellFormed_copy wa

/-- The operators that return a new graph: never out of bounds, and the result is
well-formed. -/
theorem result_wf {a b : Graph} (wa : WellFormed a) (wb : WellFormed b) (k : Int) :
    (a.operator_add b ≠ .error .out_of_bounds ∧ ∀ r, a.operator_add b = .ok r → WellFormed r) ∧
    (a.operator_mul b ≠ .error .out_of_bounds ∧ ∀ r, a.operator_mul b = .ok r → WellFormed r) ∧
    (a.operator_sub b ≠ .error .out_of_bounds ∧ ∀ r, a.operator_sub b = .ok r → WellFormed r) ∧
    (a.operator_mul_scalar k ≠ .error .out_of_bounds ∧
      ∀ r, a.operator_mul_scalar k = .ok r → WellFormed r) ∧
    (a.operator_div k ≠ .error .out_of_bounds ∧
      ∀ r, a.operator_div k = .ok r → WellFormed r) ∧
    (a.operator_neg ≠ .error .out_of_bounds ∧ ∀ r, a.operator_neg = .ok r → WellFormed r) ∧
    (a.operator_pos ≠ .error .out_of_bounds ∧ ∀ r, a.operator_pos = .ok r → WellFormed r) := by
  refine ⟨?_, ?_, ?_, ?_, ?_, ?_, ?_⟩
  · rcases operator_add_wf wa wb with ⟨r, hr, hg, hv, hsq⟩ | ⟨e, he, hne⟩
    · rw [hr]
      refine ⟨by simp, ?_⟩
      intro r' hr'
      cases hr'
      exact wellFormed_adjacency_only hg hv hsq
    · rw [he]
      refine ⟨fun h => hne (by cases h; rfl), ?_⟩
      intro r' hr'
      cases hr'
  · rcases operator_mul_wf wa wb with ⟨r, hr, hg, hv, hsq⟩ | ⟨e, he, hne⟩
    · rw [hr]
      refine ⟨by simp, ?_⟩
      intro r' hr'
      cases hr'
      exact wellFormed_adjacency_only hg hv hsq
    · rw [he]
      refine ⟨fun h => hne (by cases h; rfl), ?_⟩
      intro r' hr'
      cases hr'
  · by_cases hn : a.numVertices = b.numVertices
    · have hb : IsSquare b.graph a.numVertices := by rw [hn]; exact wb.1
      rw [operator_sub_sq wa.1 rfl hb hn.symm]
      refine ⟨by simp, ?_⟩
      intro r hr
      cases hr
      exact wellFormed_fresh _ _
    · have : a.operator_sub b = .error .invalid_argument := by
        simp [Graph.operator_sub, hn]
      rw [this]
      exact ⟨by simp, fun r hr => by cases hr⟩
  · rw [operator_mul_scalar_sq wa.1 rfl]
    refine ⟨by simp, ?_⟩
    intro r hr
    cases hr
    exact wellFormed_fresh _ _
  · by_cases hk : k = 0
    · have : a.operator_div k = .error .invalid_argument := by
        simp [Graph.operator_div, hk]
      rw [this]
      exact ⟨by simp, fun r hr => by cases hr⟩
    · rcases operator_div_shape wa.1 rfl hk with ⟨g, hg, hsq⟩ | hfault
      · rw [hg]
        refine ⟨by simp, ?_⟩
        intro r hr
        cases hr
        exact wellFormed_fresh_square hsq
      · rw [hfault]
        exact ⟨by simp, fun r hr => by cases hr⟩
  · rw [operator_neg_sq wa.1 rfl]
    refine ⟨by simp, ?_⟩
    intro r hr
    cases hr
    exact wellFormed_fresh _ _
  · refine ⟨by simp [Graph.operator_pos], ?_⟩
    intro r hr
    simp only [Graph.operator_pos, Except.ok.injEq] at hr
    rw [← hr]
    exact wellFormed_copy wa

/-- Every reachable graph is well-formed. -/
theorem Reachable.wellFormed {g : Graph} (h : Reachable g) : WellFormed g := by
  induction h with
  | ctor => exact wellFormed_ctor
  | copy g _ ih => exact wellFormed_copy ih
  | loadGraph g m _ ih => exact wellFormed_loadGraph ih m
  | operator_shr g is r _ hr ih => exact wellFormed_shr ih hr
  | operator_add a b r _ _ hr iha ihb => exact (result_wf iha ihb 0).1.2 r hr
  | operator_add_assign a b _ _ iha ihb => exact (inplace_binary_wf iha ihb).1.2
  | operator_sub a b r _ _ hr iha ihb => exact (result_wf iha ihb 0).2.2.1.2 r hr
  | operator_sub_assign a b _ _ iha ihb => exact (inplace_binary_wf iha ihb).2.1.2
  | operator_mul a b r _ _ hr iha ihb => exact (result_wf iha ihb 0).2.1.2 r hr
  | operator_mul_assign a b _ _ iha ihb => exact (inplace_binary_wf iha ihb).2.2.2
  | operator_mul_scalar a r k _ hr ih => exact (result_wf ih ih k).2.2.2.1.2 r hr
  | operator_mul_assign_scalar a k _ ih => exact (inplace_unary_wf ih k).1.2
  | operator_div a r k _ hr ih => exact (result_wf ih ih k).2.2.2.2.1.2 r hr
  | operator_div_assign a k _ ih => exact (inplace_unary_wf ih k).2.1.2
  | operator_pos a r _ hr ih => exact (result_wf ih ih 0).2.2.2.2.2.2.2 r hr
  | operator_neg a r _ hr ih => exact (result_wf ih ih 0).2.2.2.2.2.1.2 r hr
  | operator_pre_inc a _ ih => exact (inplace_unary_wf ih 0).2.2.1.2
  | operator_post_inc_result a r _ hr ih => exact (inplace_unary_wf ih 0).2.2.2.2.1.2.2 r hr
  | operator_post_inc a _ ih => exact (inplace_unary_wf ih 0).2.2.2.2.1.2.1
  | operator_pre_dec a _ ih => exact (inplace_unary_wf ih 0).2.2.2.1.2
  | operator_post_dec_result a r _ hr ih => exact (inplace_unary_wf ih 0).2.2.2.2.2.2.2 r hr
  | operator_post_dec a _ ih => exact (inplace_unary_wf ih 0).2.2.2.2.2.2.1

end ariel

namespace ariel

/-! ## The reading members on well-formed graphs -/

theorem operator_eq_wf {a b : Graph} (wa : WellFormed a) (wb : WellFormed b) :
    (a.numVertices ≠ b.numVertices ∧ a.operator_eq b = .error .invalid_argument) ∨
    (a.numVertices = b.numVertices ∧ ∃ r, a.operator_eq b = .ok r ∧
      (r = true ↔ ∀ i j, i < a.numVertices → j < a.numVertices →
        cell a.graph i j = cell b.graph i j)) := by
  rw [operator_eq_sq wa.1 rfl wb.1 rfl]
  by_cases hn : a.numVertices = b.numVertices
  · right
    have hb : IsSquare b.graph a.numVertices := by rw [hn]; exact wb.1
    exact ⟨hn, operator_eq_loaded wa.1 hb⟩
  · left
    exact ⟨hn, operator_eq_size_mismatch wa.1 wb.1 hn⟩

theorem operator_lt_wf {a b : Graph} (wa : WellFormed a) (wb : WellFormed b) :
    (a.numVertices ≠ b.numVertices ∧ a.operator_lt b = .error .invalid_argument) ∨
    (a.numVertices = b.numVertices ∧ ∃ r, a.operator_lt b = .ok r ∧
      (r = true ↔ ∀ i j, i < a.numVertices → j < a.numVertices →
        cell a.graph i j < cell b.graph i j)) := by
  rw [operator_lt_sq wa.1 rfl wb.1 rfl]
  by_cases hn : a.numVertices = b.numVertices
  · right
    have hb : IsSquare b.graph a.numVertices := by rw [hn]; exact wb.1
    exact ⟨hn, operator_lt_loaded wa.1 hb⟩
  · left
    exact ⟨hn, operator_lt_size_mismatch wa.1 wb.1 hn⟩

theorem comparisons_in_bounds {a b : Graph} (wa : WellFormed a) (wb : WellFormed b) :
    a.operator_eq b ≠ .error .out_of_bounds ∧ a.operator_ne b ≠ .error .out_of_bounds ∧
    a.operator_lt b ≠ .error .out_of_bounds ∧ a.operator_le b ≠ .error .out_of_bounds ∧
    a.operator_gt b ≠ .error .out_of_bounds ∧ a.operator_ge b ≠ .error .out_of_bounds := by
  rcases operator_eq_wf wa wb with ⟨_, he⟩ | ⟨_, re, he, _⟩ <;>
    rcases operator_lt_wf wa wb with ⟨_, hl⟩ | ⟨_, rl, hl, _⟩ <;>
    (try cases rl) <;>
    simp [Graph.operator_ne, Graph.operator_le, Graph.operator_gt, Graph.operator_ge, he, hl]

theorem adj_in_bounds {a : Graph} (wa : WellFormed a) (index : Int) :
    a.adj index ≠ .error .out_of_bounds := by
  unfold Graph.adj
  split
  · simp
  · rename_i hc
    have hlt : index.toNat < a.numVertices := by
      simp only [Bool.or_eq_true, decide_eq_true_eq, not_or, not_lt, ge_iff_le, not_le] at hc
      exact hc.2
    obtain ⟨row, hrow, _⟩ := wa.1.row hlt
    rw [hrow]
    simp

theorem edges_in_bounds {a : Graph} (wa : WellFormed a) :
    (∃ es, a.edges = .ok es) ∧ ∃ k, a.countEdges = .ok k := by
  have h := edges_loaded wa.1
  rw [← edges_sq wa.1 rfl] at h
  refine ⟨⟨_, h⟩, ⟨wrapInt (((positions a.numVertices).filter (keptAt a.graph)).map
    (tripleAt a.graph)).length, ?_⟩⟩
  simp only [Graph.countEdges, h]

theorem operator_shl_in_bounds {a : Graph} (wa : WellFormed a) (os : String) :
    ∃ text, Graph.operator_shl os a = (.ok (), text) := by
  rw [operator_shl_sq wa.1 rfl, operator_shl_loaded wa.1]
  exact ⟨_, rfl⟩

theorem intSub_intAdd_one {a : Int} (h : isInt32 a) : intSub (intAdd a 1) 1 = a := by
  unfold isInt32 INT_MIN INT_MAX at h
  unfold intSub intAdd wrapInt
  omega

theorem intAdd_intSub_one {a : Int} (h : isInt32 a) : intAdd (intSub a 1) 1 = a := by
  unfold isInt32 INT_MIN INT_MAX at h
  unfold intSub intAdd wrapInt
  omega

theorem tabulate_cell {M : Matrix} {n : Nat} (hM : IsSquare M n) :
    tabulate n (fun i j => cell M i j) = M :=
  matrix_ext (isSquare_tabulate n _) hM (fun _ _ hi hj => cell_tabulate _ hi hj)

theorem tabulate_congr {n : Nat} {f g : Nat → Nat → Int}
    (h : ∀ i j, i < n → j < n → f i j = g i j) : tabulate n f = tabulate n g :=
  matrix_ext (isSquare_tabulate n f) (isSquare_tabulate n g) (fun i j hi hj => by
    rw [cell_tabulate f hi hj, cell_tabulate g hi hj, h i j hi hj])

end ariel

namespace ariel

/-- C21 as stated fails at the ends of the range of `int`: for `g` loaded from
`[[INT_MAX]]`, `++g` and `g++` leave the cell `INT_MIN`, not `INT_MAX + 1`; for `g`
loaded from `[[INT_MIN]]`, `--g` leaves the cell `INT_MAX`. -/
theorem C21_counterexample_int_max :
    (loaded [[2147483647]]).operator_pre_inc
      = (.ok (), { graph := [[-2147483648]], numVertices := 1,
                   adjacency_matrix := [[2147483647]] }) ∧
    ((loaded [[2147483647]]).operator_post_inc).2.getGraph = [[-2147483648]] ∧
    cell [[-2147483648]] 0 0 ≠ cell [[2147483647]] 0 0 + 1 ∧
    (loaded [[-2147483648]]).operator_pre_dec
      = (.ok (), { graph := [[2147483647]], numVertices := 1,
                   adjacency_matrix := [[-2147483648]] }) ∧
    cell [[2147483647]] 0 0 ≠ cell [[-2147483648]] 0 0 - 1 ∧
    int32Matrix [[2147483647]] ∧ int32Matrix [[-2147483648]] :=
  ⟨rfl, rfl, by decide, rfl, by decide, by decide, by decide⟩

/-- C21, amended: for a graph `g` loaded from an `n × n` matrix `M` of `int` values:
`g++` returns a copy of `g` as it was (same cells, same vertex count) and leaves in
`getGraph()` every cell increased by 1 modulo 2^32 in the signed 32-bit range: a
cell below `INT_MAX` holds its successor, a cell equal to `INT_MAX` becomes
`INT_MIN`; `++g` leaves the same state, and the reference it returns is `g` in that
state; `g--` and `--g` do the same with 1 subtracted (a cell equal to `INT_MIN`
becomes `INT_MAX`); `++g` followed by `--g`, and `--g` followed by `++g`, restores
`g`. -/
theorem C21_increment_decrement (M : Matrix) (n : Nat) (hM : IsSquare M n)
    (hint : int32Matrix M) :
    (∃ r g1, (loaded M).operator_post_inc = (.ok r, g1) ∧
      r = loaded M ∧ r.getGraph = M ∧ r.vertices = n ∧
      g1.vertices = n ∧ g1.getGraph = tabulate n (fun i j => wrapInt (cell M i j + 1))) ∧
    (∃ g1, (loaded M).operator_pre_inc = (.ok (), g1) ∧
      g1.vertices = n ∧ g1.getGraph = tabulate n (fun i j => wrapInt (cell M i j + 1)) ∧
      ∃ g2, g1.operator_pre_dec = (.ok (), g2) ∧ g2.getGraph = M ∧ g2 = loaded M) ∧
    (∃ r g1, (loaded M).operator_post_dec = (.ok r, g1) ∧
      r = loaded M ∧ r.getGraph = M ∧ r.vertices = n ∧
      g1.vertices = n ∧ g1.getGraph = tabulate n (fun i j => wrapInt (cell M i j - 1))) ∧
    (∃ g1, (loaded M).operator_pre_dec = (.ok (), g1) ∧
      g1.vertices = n ∧ g1.getGraph = tabulate n (fun i j => wrapInt (cell M i j - 1)) ∧
      ∃ g2, g1.operator_pre_inc = (.ok (), g2) ∧ g2.getGraph = M ∧ g2 = loaded M) ∧
    (∀ i j, i < n → j < n →
      (cell M i j < INT_MAX → wrapInt (cell M i j + 1) = cell M i j + 1) ∧
      (cell M i j = INT_MAX → wrapInt (cell M i j + 1) = INT_MIN) ∧
      (INT_MIN < cell M i j → wrapInt (cell M i j - 1) = cell M i j - 1) ∧
      (cell M i j = INT_MIN → wrapInt (cell M i j - 1) = INT_MAX)) := by
  have hL := loaded_of_square hM
  have hG : IsSquare (loaded M).graph n := by rw [hL]; exact hM
  have hN : (loaded M).numVertices = n := by rw [hL]
  have hgr : (loaded M).graph = M := by rw [hL]
  have hback : tabulate n
      (fun i j => intSub (cell (tabulate n (fun i j => intAdd (cell M i j) 1)) i j) 1) = M := by
    rw [tabulate_congr (fun i j hi hj => by
      rw [cell_tabulate _ hi hj, intSub_intAdd_one (isInt32_cell hM hint hi hj)])]
    exact tabulate_cell hM
  have hforth : tabulate n
      (fun i j => intAdd (cell (tabulate n (fun i j => intSub (cell M i j) 1)) i j) 1) = M := by
    rw [tabulate_congr (fun i j hi hj => by
      rw [cell_tabulate _ hi hj, intAdd_intSub_one (isInt32_cell hM hint hi hj)])]
    exact tabulate_cell hM
  refine ⟨?_, ?_, ?_, ?_, ?_⟩
  · refine ⟨_, _, operator_post_inc_sq hG hN, rfl, hgr, hN, hN, ?_⟩
    show tabulate n _ = _
    rw [hgr]
    rfl
  · refine ⟨_, operator_pre_inc_sq hG hN, hN, by show tabulate n _ = _; rw [hgr]; rfl, ?_⟩
    refine ⟨_, operator_pre_dec_sq (isSquare_tabulate n _) hN, ?_, ?_⟩
    · show tabulate n _ = _
      simp only [hgr]
      exact hback
    · simp only [hgr, hback]
      rw [hL]
  · refine ⟨_, _, operator_post_dec_sq hG hN, rfl, hgr, hN, hN, ?_⟩
    show tabulate n _ = _
    rw [hgr]
    rfl
  · refine ⟨_, operator_pre_dec_sq hG hN, hN, by show tabulate n _ = _; rw [hgr]; rfl, ?_⟩
    refine ⟨_, operator_pre_inc_sq (isSquare_tabulate n _) hN, ?_, ?_⟩
    · show tabulate n _ = _
      simp only [hgr]
      exact hforth
    · simp only [hgr, hforth]
      rw [hL]
  · intro i j hi hj
    have h := isInt32_cell hM hint hi hj
    unfold isInt32 at h
    unfold INT_MIN INT_MAX at h ⊢
    unfold wrapInt
    refine ⟨?_, ?_, ?_, ?_⟩ <;> intro _ <;> omega

/-- C21, at the matrix `[[0, 2], [2, 0]]` of the test "Copy and assignment". -/
theorem C21_increment_decrement_witness :
    (loaded [[0, 2], [2, 0]]).operator_post_inc
      = (.ok (loaded [[0, 2], [2, 0]]),
          { graph := [[1, 3], [3, 1]], numVertices := 2,
            adjacency_matrix := [[0, 2], [2, 0]] }) ∧
    (∃ g1, (loaded [[0, 2], [2, 0]]).operator_pre_inc = (.ok (), g1) ∧
      g1.getGraph = [[1, 3], [3, 1]] ∧
      g1.operator_pre_dec = (.ok (), loaded [[0, 2], [2, 0]])) := by
  obtain ⟨g1, h1, _, h3, g2, h4, _, h6⟩ :=
    (C21_increment_decrement [[0, 2], [2, 0]] 2 (by decide) (by decide)).2.1
  exact ⟨rfl, g1, h1, h3.trans (by decide), h6 ▸ h4⟩

/-- C22 as stated fails at the zero-vertex graph: for `g` loaded from the 0x0 matrix
`g < g` is true, and it holds together with `g == g`. -/
theorem C22_counterexample_zero_vertices :
    (loaded []).operator_lt (loaded []) = .ok true ∧
    (loaded []).operator_eq (loaded []) = .ok true ∧
    (loaded []).vertices = 0 :=
  ⟨rfl, rfl, rfl⟩

/-- C22, amended: on reachable graphs of equal vertex count, `operator<` is
transitive for every size; when there is at least one vertex it is irreflexive and
never holds together with `==`; on zero-vertex graphs `a < b` and `a == b` are both
true. -/
theorem C22_lt_strict_order_with_vertices (a b c : Graph) (ha : Reachable a)
    (hb : Reachable b) (hc : Reachable c) (hab : a.vertices = b.vertices)
    (hbc : b.vertices = c.vertices) :
    (a.operator_lt b = .ok true → b.operator_lt c = .ok true → a.operator_lt c = .ok true) ∧
    (1 ≤ a.vertices →
      a.operator_lt a = .ok false ∧
      (a.operator_lt b = .ok true → a.operator_eq b = .ok false)) ∧
    (a.vertices = 0 →
      a.operator_lt b = .ok true ∧ a.operator_eq b = .ok true) := by
  have wa := ha.wellFormed
  have wb := hb.wellFormed
  have wc := hc.wellFormed
  have hab' : a.numVertices = b.numVertices := hab
  have hbc' : b.numVertices = c.numVertices := hbc
  have hac' : a.numVertices = c.numVertices := hab'.trans hbc'
  obtain ⟨rab, hrab, iab⟩ := (operator_lt_wf wa wb).resolve_left (fun h => h.1 hab') |>.2
  obtain ⟨rbc, hrbc, ibc⟩ := (operator_lt_wf wb wc).resolve_left (fun h => h.1 hbc') |>.2
  obtain ⟨rac, hrac, iac⟩ := (operator_lt_wf wa wc).resolve_left (fun h => h.1 hac') |>.2
  obtain ⟨raa, hraa, iaa⟩ := (operator_lt_wf wa wa).resolve_left (fun h => h.1 rfl) |>.2
  obtain ⟨eab, heab, jab⟩ := (operator_eq_wf wa wb).resolve_left (fun h => h.1 hab') |>.2
  refine ⟨?_, ?_, ?_⟩
  · intro h1 h2
    rw [hrab] at h1
    rw [hrbc] at h2
    have h1' : rab = true := by cases h1; rfl
    have h2' : rbc = true := by cases h2; rfl
    rw [hrac]
    have : rac = true := by
      apply iac.2
      intro i j hi hj
      have hx := iab.1 h1' i j hi hj
      have hy := ibc.1 h2' i j (by omega) (by omega)
      omega
    rw [this]
  · intro hn
    have hn' : 0 < a.numVertices := hn
    constructor
    · rw [hraa]
      have : raa = false := by
        cases hr : raa
        · rfl
        · have := iaa.1 hr 0 0 hn' hn'
          omega
      rw [this]
    · intro h1
      rw [hrab] at h1
      have h1' : rab = true := by cases h1; rfl
      rw [heab]
      have : eab = false := by
        cases he : eab
        · rfl
        · have hx := iab.1 h1' 0 0 hn' hn'
          have hy := jab.1 he 0 0 hn' hn'
          omega
      rw [this]
  · intro h0
    have h0' : a.numVertices = 0 := h0
    constructor
    · rw [hrab]
      have : rab = true := iab.2 (fun i j hi _ => by omega)
      rw [this]
    · rw [heab]
      have : eab = true := jab.2 (fun i j hi _ => by omega)
      rw [this]

/-- C22 amended, at three 2x2 graphs, one of them obtained by `++`. -/
theorem C22_lt_strict_order_with_vertices_witness :
    (loaded [[0, 1], [1, 0]]).operator_lt (loaded [[0, 1], [1, 0]]) = .ok false ∧
    ((loaded [[0, 1], [1, 0]]).operator_lt (loaded [[1, 2], [2, 1]]) = .ok true →
      (loaded [[1, 2], [2, 1]]).operator_lt (loaded [[1, 2], [2, 1]]).operator_pre_inc.2
        = .ok true →
      (loaded [[0, 1], [1, 0]]).operator_lt (loaded [[1, 2], [2, 1]]).operator_pre_inc.2
        = .ok true) := by
  have h := C22_lt_strict_order_with_vertices (loaded [[0, 1], [1, 0]])
    (loaded [[1, 2], [2, 1]]) (loaded [[1, 2], [2, 1]]).operator_pre_inc.2
    (Reachable.loadGraph _ _ Reachable.ctor) (Reachable.loadGraph _ _ Reachable.ctor)
    (Reachable.operator_pre_inc _ (Reachable.loadGraph _ _ Reachable.ctor)) rfl rfl
  exact ⟨(h.2.1 (by decide)).1, h.1⟩

end ariel

namespace ariel

/-- C23: every graph reachable from the default constructor through `loadGraph`,
`operator>>`, copying and the arithmetic operators has a `graph` of exactly
`numVertices` rows of length `numVertices` and a square (possibly empty)
`adjacency_matrix`, which has `numVertices` rows whenever there are vertices and it
is not empty; and on reachable operands no operator, nor `adj`, `edges`,
`countEdges` or `operator<<`, accesses an element outside the bounds of a matrix. -/
theorem C23_reachable_graphs_index_safe (a b : Graph) (ha : Reachable a) (hb : Reachable b)
    (k index : Int) (os : String) :
    (IsSquare a.graph a.numVertices ∧
      IsSquare a.adjacency_matrix a.adjacency_matrix.length ∧
      (0 < a.numVertices → a.adjacency_matrix ≠ [] →
        a.adjacency_matrix.length = a.numVertices)) ∧
    (a.operator_add b ≠ .error .out_of_bounds ∧
      a.operator_mul b ≠ .error .out_of_bounds ∧
      a.operator_sub b ≠ .error .out_of_bounds ∧
      a.operator_mul_scalar k ≠ .error .out_of_bounds ∧
      a.operator_div k ≠ .error .out_of_bounds ∧
      a.operator_neg ≠ .error .out_of_bounds ∧
      a.operator_pos ≠ .error .out_of_bounds) ∧
    ((a.operator_add_assign b).1 ≠ .error .out_of_bounds ∧
      (a.operator_sub_assign b).1 ≠ .error .out_of_bounds ∧
      (a.operator_mul_assign b).1 ≠ .error .out_of_bounds ∧
      (a.operator_mul_assign_scalar k).1 ≠ .error .out_of_bounds ∧
      (a.operator_div_assign k).1 ≠ .error .out_of_bounds ∧
      a.operator_pre_inc.1 ≠ .error .out_of_bounds ∧
      a.operator_post_inc.1 ≠ .error .out_of_bounds ∧
      a.operator_pre_dec.1 ≠ .error .out_of_bounds ∧
      a.operator_post_dec.1 ≠ .error .out_of_bounds) ∧
    (a.operator_eq b ≠ .error .out_of_bounds ∧ a.operator_ne b ≠ .error .out_of_bounds ∧
      a.operator_lt b ≠ .error .out_of_bounds ∧ a.operator_le b ≠ .error .out_of_bounds ∧
      a.operator_gt b ≠ .error .out_of_bounds ∧ a.operator_ge b ≠ .error .out_of_bounds) ∧
    (a.adj index ≠ .error .out_of_bounds ∧
      (∃ es, a.edges = .ok es) ∧ (∃ count, a.countEdges = .ok count) ∧
      ∃ text, Graph.operator_shl os a = (.ok (), text)) := by
  have wa := ha.wellFormed
  have wb := hb.wellFormed
  have hr := result_wf wa wb k
  have hi := inplace_binary_wf wa wb
  have hu := inplace_unary_wf wa k
  exact ⟨wa,
    ⟨hr.1.1, hr.2.1.1, hr.2.2.1.1, hr.2.2.2.1.1, hr.2.2.2.2.1.1, hr.2.2.2.2.2.1.1,
      hr.2.2.2.2.2.2.1⟩,
    ⟨hi.1.1, hi.2.1.1, hi.2.2.1, hu.1.1, hu.2.1.1, hu.2.2.1.1, hu.2.2.2.2.1.1,
      hu.2.2.2.1.1, hu.2.2.2.2.2.1⟩,
    comparisons_in_bounds wa wb,
    ⟨adj_in_bounds wa index, (edges_in_bounds wa).1, (edges_in_bounds wa).2,
      operator_shl_in_bounds wa os⟩⟩

/-- C23, at the graph left by `A += B` and the graph returned by `A + B`, for the two
3x3 matrices of the test suite. -/
theorem C23_reachable_graphs_index_safe_witness :
    Reachable ((loaded [[0, 1, 0], [1, 0, 1], [0, 1, 0]]).operator_add_assign
      (loaded [[0, 1, 1], [1, 0, 2], [1, 2, 0]])).2 ∧
    Reachable { Graph.ctor with adjacency_matrix := [[0, 2, 1], [2, 0, 3], [1, 3, 0]] } ∧
    IsSquare ((loaded [[0, 1, 0], [1, 0, 1], [0, 1, 0]]).operator_add_assign
      (loaded [[0, 1, 1], [1, 0, 2], [1, 2, 0]])).2.graph 3 ∧
    ((loaded [[0, 1, 0], [1, 0, 1], [0, 1, 0]]).operator_add_assign
        (loaded [[0, 1, 1], [1, 0, 2], [1, 2, 0]])).2.operator_add
      { Graph.ctor with adjacency_matrix := [[0, 2, 1], [2, 0, 3], [1, 3, 0]] }
      ≠ .error .out_of_bounds := by
  have h1 : Reachable ((loaded [[0, 1, 0], [1, 0, 1], [0, 1, 0]]).operator_add_assign
      (loaded [[0, 1, 1], [1, 0, 2], [1, 2, 0]])).2 :=
    Reachable.operator_add_assign _ _ (Reachable.loadGraph _ _ Reachable.ctor)
      (Reachable.loadGraph _ _ Reachable.ctor)
  have h2 : Reachable
      { Graph.ctor with adjacency_matrix := [[0, 2, 1], [2, 0, 3], [1, 3, 0]] } :=
    Reachable.operator_add (loaded [[0, 1, 0], [1, 0, 1], [0, 1, 0]])
      (loaded [[0, 1, 1], [1, 0, 2], [1, 2, 0]]) _
      (Reachable.loadGraph _ _ Reachable.ctor) (Reachable.loadGraph _ _ Reachable.ctor) rfl
  have h := C23_reachable_graphs_index_safe _ _ h1 h2 0 0 ""
  exact ⟨h1, h2, h.1.1, h.2.1.1⟩

end ariel
